import Mathlib

/-!
# Hash-chain integrity core of the financial audit server

A shallow embedding of `src/backend/server.js` (class `Blockchain`, the record, amend,
tamper and validate routes, `initializeBlockchain`) and of the transaction operations
of `src/backend/database.js` that they use.

Values that the JavaScript runtime supplies are explicit inputs:

* the SHA-256 hex digest of Node's `crypto` module, the string form of an amount
  value, `parseFloat`, `JSON.stringify`, truthiness and the coercion SQLite applies to
  a value bound to the column `amount REAL` are the fields of `Runtime`;
* `Date.now()`, `new Date().toISOString()` and `Math.random()` are arguments of the
  operation that reads them;
* an error raised by the database driver is an argument of the flow that awaits the
  call.

JavaScript `a + b` with a string on the left is string concatenation of the string
forms of the operands; `null` has the string form `"null"`.

A route is a function from the state before the request to the answer and the state
after it: the course of a request whose handler no other request overlaps. Node runs a
handler without interruption between two `await`s only; for the record handler these
stretches are given as functions of their own (`recordSelect`, `recordAppend`,
`recordInsert`, `recordAnswer`), and `overlappingRecords` is the course of two record
requests of which the second is received while the first is being handled.
-/

namespace FinancialAudit

/-! ## Data model -/

/-- Properties carried only by transaction objects that were read back from the
record store (`database.getTransactionById`, `database.getAllTransactions`).
`verifiedByName` is `none` when the property is absent (`getTransactionById`)
and `some v` when it is present with value `v` (`getAllTransactions`). -/
structure DbExtra where
  createdBy : Option Nat
  createdByName : Option String
  status : String
  verifiedBy : Option Nat
  verifiedByName : Option (Option String)
  verifiedAt : Option String
  deriving DecidableEq, Repr

/-- Transaction object. `Amt` is the type of the values the `amount` property can
hold. `previousHash` is a string or `null` (`none`). `extra` is `none` for the object
built by `Blockchain.createTransaction`. -/
structure Transaction (Amt : Type) where
  id : String
  amount : Amt
  fromAddress : String
  toAddress : String
  description : String
  auditor : String
  timestamp : String
  blockIndex : Int
  hash : String
  previousHash : Option String
  extra : Option DbExtra
  deriving DecidableEq, Repr

/-- Block object of the in-memory chain. -/
structure Block (Amt : Type) where
  index : Nat
  timestamp : String
  transactions : List (Transaction Amt)
  previousHash : String
  hash : String
  nonce : Nat
  deriving DecidableEq, Repr

/-- State of a `Blockchain` instance: its `chain` array. -/
structure Blockchain (Amt : Type) where
  chain : List (Block Amt)
  deriving DecidableEq, Repr

/-- Functions of the JavaScript runtime, of Node's standard library and of the SQLite
engine that the server calls. `digest s` is
`crypto.createHash('sha256').update(s).digest('hex')`, `numToString` the string form of
an amount value under `+`, `parseFloat` the global of that name, `jsonStringify` is
`JSON.stringify` on an array of transaction objects, `truthy` the boolean coercion of
an amount value. `realAffinity v` is the value read back from the column `amount REAL`
(database.js 73) after `v` was bound to it in an `UPDATE`: SQLite turns a text that is a
well-formed number (`'100.0'`, `'1e2'`, `' 100 '`) into that number before storing it,
and keeps a text that is none. -/
structure Runtime (Amt : Type) where
  digest : String → String
  numToString : Amt → String
  parseFloat : Amt → Amt
  jsonStringify : List (Transaction Amt) → String
  truthy : Amt → Bool
  realAffinity : Amt → Amt

/-- String form of a value that is a string or `null`. -/
def strOrNull : Option String → String
  | some s => s
  | none => "null"

/-- The digest does not identify the two strings `x` and `y`. -/
def NoCollision (digest : String → String) (x y : String) : Prop :=
  digest x = digest y → x = y

section Core

variable {Amt : Type}

/-! ## `Blockchain` (server.js 84-225) -/

/-- `calculateHash(input)`. -/
def calculateHash (rt : Runtime Amt) (input : String) : String :=
  rt.digest input

/-- `createGenesisBlock()`; `now` is `new Date().toISOString()`. -/
def createGenesisBlock (rt : Runtime Amt) (now : String) : Block Amt :=
  { index := 0
    timestamp := now
    transactions := []
    previousHash := "0"
    hash := calculateHash rt "genesis_block"
    nonce := 0 }

/-- The constructor: `this.chain = [this.createGenesisBlock()]`. -/
def Blockchain.new (rt : Runtime Amt) (now : String) : Blockchain Amt :=
  { chain := [createGenesisBlock rt now] }

/-- `getLatestBlock()`: `this.chain[this.chain.length - 1]`, `none` for `undefined`. -/
def getLatestBlock (bc : Blockchain Amt) : Option (Block Amt) :=
  bc.chain[bc.chain.length - 1]?

/-- The string `hashData` of `createTransaction` (server.js 122-131). -/
def createHashData (rt : Runtime Amt) (t : Transaction Amt) : String :=
  t.id ++ rt.numToString t.amount ++ t.fromAddress ++ t.toAddress ++ t.description ++
    t.auditor ++ t.timestamp ++ toString t.blockIndex ++ strOrNull t.previousHash

/-- The `blockIndex || this.chain.length` of `createTransaction`: the default
parameter value is `null`, and `null` and `0` are falsy. -/
def blockIndexOrLength (blockIndex : Option Int) (len : Nat) : Int :=
  match blockIndex with
  | none => (len : Int)
  | some i => if i = 0 then (len : Int) else i

/-- `createTransaction(amount, from, to, description, auditor, blockIndex = null)`.
`nowMs` is `Date.now()`, `rnd` is `Math.random().toString(36).substr(2, 9)`, `now` is
`new Date().toISOString()`. The result is `none` when `getLatestBlock()` is
`undefined`, where reading `.hash` throws. -/
def createTransaction (rt : Runtime Amt) (bc : Blockchain Amt) (nowMs : Nat) (rnd now : String)
    (amount : Amt) (fromAddress toAddress description auditor : String)
    (blockIndex : Option Int) : Option (Transaction Amt) :=
  match getLatestBlock bc with
  | none => none
  | some latest =>
    let transaction : Transaction Amt :=
      { id := "tx_" ++ toString nowMs ++ "_" ++ rnd
        amount := rt.parseFloat amount
        fromAddress := fromAddress
        toAddress := toAddress
        description := description
        auditor := auditor
        timestamp := now
        blockIndex := blockIndexOrLength blockIndex bc.chain.length
        hash := ""
        previousHash := some latest.hash
        extra := none }
    some { transaction with hash := calculateHash rt (createHashData rt transaction) }

/-- The string hashed for a block (server.js 156-161 and 203-207). -/
def blockData (rt : Runtime Amt) (b : Block Amt) : String :=
  toString b.index ++ b.previousHash ++ rt.jsonStringify b.transactions ++ b.timestamp ++
    toString b.nonce

/-- `addTransactionToBlock(transaction)`; `now` is `new Date().toISOString()`.
Returns the new state and the pushed block, `none` when `getLatestBlock()` is
`undefined`, where reading `.index` throws. -/
def addTransactionToBlock (rt : Runtime Amt) (bc : Blockchain Amt) (transaction : Transaction Amt)
    (now : String) : Option (Blockchain Amt × Block Amt) :=
  match getLatestBlock bc with
  | none => none
  | some latestBlock =>
    let newBlock : Block Amt :=
      { index := latestBlock.index + 1
        timestamp := now
        transactions := [transaction]
        previousHash := latestBlock.hash
        hash := ""
        nonce := 0 }
    let newBlock := { newBlock with hash := calculateHash rt (blockData rt newBlock) }
    some ({ chain := bc.chain ++ [newBlock] }, newBlock)

/-- `getAllTransactions()`. -/
def getAllTransactions (bc : Blockchain Amt) : List (Transaction Amt) :=
  bc.chain.foldl (fun allTransactions block => allTransactions ++ block.transactions) []

/-- `getTransactionById(id)`. -/
def getTransactionById (bc : Blockchain Amt) (id : String) : Option (Transaction Amt) :=
  bc.chain.findSome? (fun block => block.transactions.find? (fun tx => tx.id == id))

/-- `getAuditTrail(transactionId)`. -/
def getAuditTrail (bc : Blockchain Amt) (transactionId : String) : List (Transaction Amt) :=
  match getTransactionById bc transactionId with
  | none => []
  | some transaction => [transaction]

/-- Body of the `for` loop of `validateChain` from position `i`, with `n` iterations
left (`n = chain.length - i`). -/
def validateChainFrom (rt : Runtime Amt) (chain : List (Block Amt)) : Nat → Nat → Bool
  | _, 0 => true
  | i, n + 1 =>
    match chain[i]?, chain[i - 1]? with
    | some currentBlock, some previousBlock =>
      if currentBlock.previousHash ≠ previousBlock.hash then false
      else
        let calculatedHash := calculateHash rt (blockData rt currentBlock)
        if currentBlock.hash ≠ calculatedHash then false
        else validateChainFrom rt chain (i + 1) n
    | _, _ => true

/-- `validateChain()`: `for (let i = 1; i < this.chain.length; i++)`. -/
def validateChain (rt : Runtime Amt) (bc : Blockchain Amt) : Bool :=
  validateChainFrom rt bc.chain 1 (bc.chain.length - 1)

/-- Result of `getChainInfo()`. -/
structure ChainInfo (Amt : Type) where
  length : Nat
  isValid : Bool
  totalTransactions : Nat
  latestBlock : Option (Block Amt)

/-- `getChainInfo()`. -/
def getChainInfo (rt : Runtime Amt) (bc : Blockchain Amt) : ChainInfo Amt :=
  { length := bc.chain.length
    isValid := validateChain rt bc
    totalTransactions := (getAllTransactions bc).length
    latestBlock := getLatestBlock bc }

/-! ## Record store (database.js) -/

/-- Row of the `users` table, reduced to the columns the transaction queries join on. -/
structure UserRow where
  id : Nat
  name : String
  deriving DecidableEq, Repr

/-- Row of the `transactions` table (database.js 71-85 and the migration 115-119);
the column `created_at` is never read by the server and is left out. -/
structure Row (Amt : Type) where
  id : String
  amount : Amt
  from_address : String
  to_address : String
  description : String
  auditor : String
  timestamp : String
  block_index : Int
  hash : String
  previous_hash : Option String
  created_by : Option Nat
  status : Option String
  verified_by : Option Nat
  verified_at : Option String
  deriving DecidableEq, Repr

/-- The persisted state. The values `insertTransaction` binds are stored and read back
as they are: its amount is the number `parseFloat` returned, which the column
`amount REAL` holds unchanged. The two statements that bind an amount taken from a
request body as it came (`Database.setAmount`, `Database.updateTransaction`) store what
the column makes of it, `Runtime.realAffinity`. -/
structure Database (Amt : Type) where
  users : List UserRow := []
  transactions : List (Row Amt) := []
  deriving DecidableEq, Repr

/-- The `LEFT JOIN users u ON t.created_by = u.id` column `u.name`. -/
def joinUserName (users : List UserRow) (uid : Option Nat) : Option String :=
  match uid with
  | none => none
  | some i => (users.find? (fun u => u.id == i)).map (fun u => u.name)

/-- JavaScript `s || null` on a string or `null`: the empty string is falsy. -/
def strOrElseNull : Option String → Option String
  | some s => if s = "" then none else some s
  | none => none

/-- `database.insertTransaction(transaction, userId)`: the `INSERT` fails when the
primary key `id` is already present. New rows take the column default `'Pending'`
for `status`. -/
def Database.insertTransaction (db : Database Amt) (transaction : Transaction Amt)
    (userId : Option Nat) : Except String (Database Amt) :=
  if db.transactions.any (fun r => r.id == transaction.id) then
    .error "SQLITE_CONSTRAINT: UNIQUE constraint failed: transactions.id"
  else
    .ok { db with
      transactions := db.transactions ++
        [{ id := transaction.id
           amount := transaction.amount
           from_address := transaction.fromAddress
           to_address := transaction.toAddress
           description := transaction.description
           auditor := transaction.auditor
           timestamp := transaction.timestamp
           block_index := transaction.blockIndex
           hash := transaction.hash
           previous_hash := strOrElseNull transaction.previousHash
           created_by := userId
           status := some "Pending"
           verified_by := none
           verified_at := none }] }

/-- JavaScript `row.status || 'Pending'`. -/
def statusOrPending : Option String → String
  | some s => if s = "" then "Pending" else s
  | none => "Pending"

/-- The object `database.getTransactionById` builds from a row (database.js 546-562). -/
def rowToTransaction (users : List UserRow) (row : Row Amt) : Transaction Amt :=
  { id := row.id
    amount := row.amount
    fromAddress := row.from_address
    toAddress := row.to_address
    description := row.description
    auditor := row.auditor
    timestamp := row.timestamp
    blockIndex := row.block_index
    hash := row.hash
    previousHash := row.previous_hash
    extra := some
      { createdBy := row.created_by
        createdByName := joinUserName users row.created_by
        status := statusOrPending row.status
        verifiedBy := row.verified_by
        verifiedByName := none
        verifiedAt := row.verified_at } }

/-- `database.getTransactionById(id)`, `none` for `null`. -/
def Database.getTransactionById (db : Database Amt) (id : String) : Option (Transaction Amt) :=
  (db.transactions.find? (fun r => r.id == id)).map (rowToTransaction db.users)

/-- The statement `UPDATE transactions SET amount = ? WHERE id = ?` of the tamper route
(server.js 816), with `newAmount` bound as it came in the request body: the rows with
that id hold what the column `amount REAL` makes of it. -/
def Database.setAmount (rt : Runtime Amt) (db : Database Amt) (newAmount : Amt) (id : String) :
    Database Amt :=
  { db with
    transactions := db.transactions.map
      (fun r => if r.id == id then { r with amount := rt.realAffinity newAmount } else r) }

/-! ## Routes of the integrity check (server.js 803-868) -/

/-- Body of a `res.json` answer of `GET /api/transactions/:id/validate`. -/
structure ValidateResult where
  success : Bool
  isValid : Bool
  storedHash : String
  calculatedHash : String
  deriving DecidableEq, Repr

/-- The string `hashData` of `GET /api/transactions/:id/validate` (server.js 841-850). -/
def validateHashData (rt : Runtime Amt) (transaction : Transaction Amt) : String :=
  transaction.id ++ rt.numToString transaction.amount ++ transaction.fromAddress ++
    transaction.toAddress ++ transaction.description ++ transaction.auditor ++
    transaction.timestamp ++ toString transaction.blockIndex ++
    strOrNull transaction.previousHash

/-- Steps 1 to 3 of the validate route on the transaction object it has read. -/
def checkIntegrity (rt : Runtime Amt) (transaction : Transaction Amt) : ValidateResult :=
  let hashData := validateHashData rt transaction
  let calculatedHash := rt.digest hashData
  let isValid := decide (calculatedHash = transaction.hash)
  { success := true, isValid := isValid, storedHash := transaction.hash,
    calculatedHash := calculatedHash }

/-- `GET /api/transactions/:id/validate`: status 404 with the error text when the id
names no row, the result of the check otherwise. -/
def validateRoute (rt : Runtime Amt) (db : Database Amt) (id : String) :
    Except (Nat × String) ValidateResult :=
  match db.getTransactionById id with
  | none => .error (404, "Transaction not found")
  | some transaction => .ok (checkIntegrity rt transaction)

/-- `POST /api/transactions/:id/tamper`: the answer and the record store afterwards.
The `UNAUTHORIZED_EDIT` entry the route adds goes to the `audit_trail` table only. -/
def tamperRoute (rt : Runtime Amt) (db : Database Amt) (id : String) (newAmount : Amt) :
    Except (Nat × String) String × Database Amt :=
  if !rt.truthy newAmount then (.error (400, "New amount required"), db)
  else (.ok "Transaction successfully corrupted!", db.setAmount rt newAmount id)

end Core

end FinancialAudit

namespace FinancialAudit

section Reach

variable {Amt : Type}

/-- States of a `Blockchain` instance after the constructor and any number of
`addTransactionToBlock` calls. -/
inductive Reachable (rt : Runtime Amt) : Blockchain Amt → Prop
  | fresh (now : String) : Reachable rt (Blockchain.new rt now)
  | add {bc bc' : Blockchain Amt} {tx : Transaction Amt} {now : String} {b : Block Amt} :
      Reachable rt bc → addTransactionToBlock rt bc tx now = some (bc', b) → Reachable rt bc'

/-- The block `addTransactionToBlock` pushes after `latestBlock`, in closed form. -/
def pushedBlock (rt : Runtime Amt) (latestBlock : Block Amt) (transaction : Transaction Amt)
    (now : String) : Block Amt :=
  { index := latestBlock.index + 1
    timestamp := now
    transactions := [transaction]
    previousHash := latestBlock.hash
    hash := rt.digest (toString (latestBlock.index + 1) ++ latestBlock.hash ++
      rt.jsonStringify [transaction] ++ now ++ toString 0)
    nonce := 0 }

end Reach

end FinancialAudit

namespace FinancialAudit

section HashInput

variable {Amt : Type}

/-- The string forms of the nine hashed fields, in the order of section 4.1 of the
specification: id, amount, from, to, description, auditor, timestamp, blockIndex,
previousHash. -/
def hashedForms (rt : Runtime Amt) (t : Transaction Amt) : List String :=
  [t.id, rt.numToString t.amount, t.fromAddress, t.toAddress, t.description, t.auditor,
    t.timestamp, toString t.blockIndex, strOrNull t.previousHash]

/-- The transaction hash input as the specification words it: the concatenation of
the string forms of the nine fields in that order. -/
def specTransactionHashInput (rt : Runtime Amt) (t : Transaction Amt) : String :=
  String.join (hashedForms rt t)

/-- The transaction hash as the specification words it. -/
def specTransactionHash (rt : Runtime Amt) (t : Transaction Amt) : String :=
  rt.digest (specTransactionHashInput rt t)

/-- The tuple of the nine hashed fields. -/
def hashedFields (t : Transaction Amt) :
    String × Amt × String × String × String × String × String × Int × Option String :=
  (t.id, t.amount, t.fromAddress, t.toAddress, t.description, t.auditor, t.timestamp,
    t.blockIndex, t.previousHash)

/-- Transactions `t` and `t'` differ in the string form of exactly one hashed field. -/
def OneFormChanged (rt : Runtime Amt) (t t' : Transaction Amt) : Prop :=
  ∃ (pre post : List String) (a b : String),
    hashedForms rt t = pre ++ a :: post ∧ hashedForms rt t' = pre ++ b :: post ∧ a ≠ b

end HashInput

end FinancialAudit

namespace FinancialAudit

section ChainSpec

variable {Amt : Type}

/-- The two conditions the specification places on position `i` of a chain: the
block there names the hash of the block before it, and its stored hash is the digest
of index, previousHash, JSON of transactions, timestamp and nonce. -/
def LinkOk (rt : Runtime Amt) (chain : List (Block Amt)) (i : Nat) : Prop :=
  ∀ cur prev, chain[i]? = some cur → chain[i - 1]? = some prev →
    cur.previousHash = prev.hash ∧
      rt.digest (toString cur.index ++ cur.previousHash ++ rt.jsonStringify cur.transactions ++
        cur.timestamp ++ toString cur.nonce) = cur.hash

/-- Replace the `hash` of the block at position `k`. -/
def setHashAt (bc : Blockchain Amt) (k : Nat) (h : String) : Blockchain Amt :=
  { chain := bc.chain.modify (fun b => { b with hash := h }) k }

/-- Replace the `previousHash` of the block at position `k`. -/
def setPreviousHashAt (bc : Blockchain Amt) (k : Nat) (h : String) : Blockchain Amt :=
  { chain := bc.chain.modify (fun b => { b with previousHash := h }) k }

/-- The chain built from a fresh `Blockchain` (constructed at time `now0`) by calling
`addTransactionToBlock` on each transaction in turn, each call at its own time. -/
def buildChain (rt : Runtime Amt) (now0 : String) (txs : List (Transaction Amt × String)) :
    Option (Blockchain Amt) :=
  txs.foldl
    (fun acc p => acc.bind (fun bc => (addTransactionToBlock rt bc p.1 p.2).map Prod.fst))
    (some (Blockchain.new rt now0))

end ChainSpec

end FinancialAudit

namespace FinancialAudit

section Operations

variable {Amt : Type}

/-- A call of a method of the `Blockchain` class, with its arguments and the values
it reads from the clock and the random generator. -/
inductive Op (Amt : Type) where
  | createGenesisBlock (now : String)
  | calculateHash (input : String)
  | createTransaction (nowMs : Nat) (rnd now : String) (amount : Amt)
      (fromAddress toAddress description auditor : String) (blockIndex : Option Int)
  | getLatestBlock
  | addTransactionToBlock (transaction : Transaction Amt) (now : String)
  | getAllTransactions
  | getTransactionById (id : String)
  | getAuditTrail (transactionId : String)
  | validateChain
  | getChainInfo

/-- The state of the instance after a method call, `none` when the call throws.
Only `addTransactionToBlock` assigns to the chain (`this.chain.push`); the other
methods read it. -/
def Blockchain.exec (rt : Runtime Amt) (bc : Blockchain Amt) : Op Amt → Option (Blockchain Amt)
  | .createGenesisBlock _ => some bc
  | .calculateHash _ => some bc
  | .createTransaction nowMs rnd now amount fromAddress toAddress description auditor blockIndex =>
    (createTransaction rt bc nowMs rnd now amount fromAddress toAddress description auditor
      blockIndex).map (fun _ => bc)
  | .getLatestBlock => some bc
  | .addTransactionToBlock transaction now =>
    (addTransactionToBlock rt bc transaction now).map Prod.fst
  | .getAllTransactions => some bc
  | .getTransactionById _ => some bc
  | .getAuditTrail _ => some bc
  | .validateChain => some bc
  | .getChainInfo => some bc

end Operations

end FinancialAudit

namespace FinancialAudit

section Flows

variable {Amt : Type}

/-! ## Record store queries and the record, amend and startup flows -/

/-- `database.getLatestBlockIndex()`: `SELECT MAX(block_index) as max_index`, then
`row.max_index || 0`; the maximum of an empty table is `NULL`, and `NULL` and `0` are
falsy. -/
def Database.getLatestBlockIndex (db : Database Amt) : Int :=
  match (db.transactions.map (fun r => r.block_index)).max? with
  | none => 0
  | some m => if m = 0 then 0 else m

/-- `database.updateTransaction(id, amount, description)`:
`UPDATE transactions SET amount = ?, description = ? WHERE id = ?` (database.js 264-278).
The amend route binds the `amount` of the request body as it came (server.js 664-672);
the rows with that id hold what the column `amount REAL` makes of it. -/
def Database.updateTransaction (rt : Runtime Amt) (db : Database Amt) (id : String)
    (amount : Amt) (description : String) : Database Amt :=
  { db with
    transactions := db.transactions.map
      (fun r => if r.id == id then
        { r with amount := rt.realAffinity amount, description := description } else r) }

/-- The order `ORDER BY t.block_index ASC, t.timestamp ASC` of
`database.getAllTransactions`: `a` may come before `b`. Timestamps are `TEXT` and
compare as strings. -/
def rowBefore (a b : Row Amt) : Bool :=
  decide (a.block_index < b.block_index) ||
    (decide (a.block_index = b.block_index) && !decide (b.timestamp < a.timestamp))

/-- The object `database.getAllTransactions` builds from a row (database.js 510-528);
it carries `verifiedByName`, the name joined on `verified_by`. -/
def rowToListedTransaction (users : List UserRow) (row : Row Amt) : Transaction Amt :=
  { id := row.id
    amount := row.amount
    fromAddress := row.from_address
    toAddress := row.to_address
    description := row.description
    auditor := row.auditor
    timestamp := row.timestamp
    blockIndex := row.block_index
    hash := row.hash
    previousHash := row.previous_hash
    extra := some
      { createdBy := row.created_by
        createdByName := joinUserName users row.created_by
        status := statusOrPending row.status
        verifiedBy := row.verified_by
        verifiedByName := some (joinUserName users row.verified_by)
        verifiedAt := row.verified_at } }

/-- `database.getAllTransactions()`: the rows in the order of the query, rows that
agree on both sort keys in table order, each mapped to an object. -/
def Database.getAllTransactions (db : Database Amt) : List (Transaction Amt) :=
  (db.transactions.insertionSort (fun a b => rowBefore a b = true)).map
    (rowToListedTransaction db.users)

/-- The functions of the `database` object that the flows await. -/
inductive DbCall where
  | getLatestBlockIndex
  | insertTransaction
  | addAuditEntry
  | getTransactionById
  | updateTransaction
  | getAllTransactions
  | verifyTransaction
  deriving DecidableEq, Repr

/-- No statement fails in the driver. -/
def noFault : DbCall → Option String := fun _ => none

/-- The authenticated user `req.user`. -/
structure User where
  id : Nat
  name : String
  role : String
  deriving DecidableEq, Repr

/-- State of the server process: the global `blockchain` and the record store. The
`audit_trail` table is not part of it; `database.addAuditEntry` appears in the flows
as a call that can fail. -/
structure Server (Amt : Type) where
  blockchain : Blockchain Amt
  db : Database Amt
  deriving DecidableEq, Repr

/-- Handler of `POST /api/transactions` (server.js 516-559) on the `validatedData`
`amount, from, to, description, auditor`, returning the answer (the transaction, or
the status and error text) and the state afterwards. `fault c` is the error the driver
raises when the function `c` of `database` is awaited in this request, `none` when its
statement runs. `nowMs`, `rnd`, `now` are read by `createTransaction`, `nowBlock` by
`addTransactionToBlock`. A `TypeError` of the `Blockchain` methods is caught like any
other error. -/
def recordRoute (rt : Runtime Amt) (s : Server Amt) (fault : DbCall → Option String)
    (user : User) (nowMs : Nat) (rnd now nowBlock : String) (amount : Amt)
    (fromAddress toAddress description auditor : String) :
    Except (Nat × String) (Transaction Amt) × Server Amt :=
  match fault .getLatestBlockIndex with
  | some e => (.error (500, "Failed to record transaction: " ++ e), s)
  | none =>
    let latestBlockIndex := s.db.getLatestBlockIndex
    match createTransaction rt s.blockchain nowMs rnd now amount fromAddress toAddress
        description auditor (some (latestBlockIndex + 1)) with
    | none => (.error (500, "Failed to record transaction: TypeError"), s)
    | some transaction =>
      match addTransactionToBlock rt s.blockchain transaction nowBlock with
      | none => (.error (500, "Failed to record transaction: TypeError"), s)
      | some (blockchain', _) =>
        let s1 : Server Amt := { s with blockchain := blockchain' }
        match fault .insertTransaction with
        | some e => (.error (500, "Failed to record transaction: " ++ e), s1)
        | none =>
          match s1.db.insertTransaction transaction (some user.id) with
          | .error e => (.error (500, "Failed to record transaction: " ++ e), s1)
          | .ok db' =>
            let s2 : Server Amt := { s1 with db := db' }
            match fault .addAuditEntry with
            | some e => (.error (500, "Failed to record transaction: " ++ e), s2)
            | none => (.ok transaction, s2)

/-- Handler of `PUT /api/transactions/:id` (server.js 657-711) on the body
`amount, description`, returning the answer (the object `newTransaction`, or the status
and error text) and the state afterwards; the other arguments are as in
`recordRoute`. -/
def amendRoute (rt : Runtime Amt) (s : Server Amt) (fault : DbCall → Option String)
    (user : User) (id : String) (amount : Amt) (description : String) (nowMs : Nat)
    (rnd now nowBlock : String) : Except (Nat × String) (Transaction Amt) × Server Amt :=
  if user.role = "viewer" then
    (.error (403, "Viewers are not allowed to edit transactions."), s)
  else
    match fault .getTransactionById with
    | some e => (.error (500, "Failed to update transaction: " ++ e), s)
    | none =>
      match s.db.getTransactionById id with
      | none => (.error (404, "Transaction not found"), s)
      | some oldTransaction =>
        match fault .updateTransaction with
        | some e => (.error (500, "Failed to update transaction: " ++ e), s)
        | none =>
          let s1 : Server Amt := { s with db := s.db.updateTransaction rt id amount description }
          match createTransaction rt s1.blockchain nowMs rnd now amount
              oldTransaction.fromAddress oldTransaction.toAddress
              ("[AMENDMENT] " ++ description ++ " (Ref: " ++ id ++ ")") user.name
              (some (s1.blockchain.chain.length : Int)) with
          | none => (.error (500, "Failed to update transaction: TypeError"), s1)
          | some amendmentTransaction =>
            match addTransactionToBlock rt s1.blockchain amendmentTransaction nowBlock with
            | none => (.error (500, "Failed to update transaction: TypeError"), s1)
            | some (blockchain', _) =>
              let s2 : Server Amt := { s1 with blockchain := blockchain' }
              let newTransaction : Transaction Amt :=
                { oldTransaction with amount := amount, description := description }
              match fault .addAuditEntry with
              | some e => (.error (500, "Failed to update transaction: " ++ e), s2)
              | none => (.ok newTransaction, s2)

/-! ### The record handler between its `await`s

The handler of `POST /api/transactions` gives up control at each `await` (server.js
523, 533, 536), and the handlers of other requests run in between. The four functions
below are the stretches of the handler that run without interruption; `recordRoute` is
their composition on one state, the course of a request that no other request
overlaps. -/

/-- `await database.getLatestBlockIndex()` (server.js 523): the value the handler
resumes with, read from the record store as it is when the query runs, or the answer of
the `catch` block. -/
def recordSelect (s : Server Amt) (fault : DbCall → Option String) :
    Except (Nat × String) Int :=
  match fault .getLatestBlockIndex with
  | some e => .error (500, "Failed to record transaction: " ++ e)
  | none => .ok s.db.getLatestBlockIndex

/-- The handler from its resumption with `latestBlockIndex` up to the call of
`database.insertTransaction` (server.js 526-530): `createTransaction` and
`addTransactionToBlock` on the chain as it is at that moment. -/
def recordAppend (rt : Runtime Amt) (s : Server Amt) (latestBlockIndex : Int) (nowMs : Nat)
    (rnd now nowBlock : String) (amount : Amt)
    (fromAddress toAddress description auditor : String) :
    Except (Nat × String) (Transaction Amt) × Server Amt :=
  match createTransaction rt s.blockchain nowMs rnd now amount fromAddress toAddress
      description auditor (some (latestBlockIndex + 1)) with
  | none => (.error (500, "Failed to record transaction: TypeError"), s)
  | some transaction =>
    match addTransactionToBlock rt s.blockchain transaction nowBlock with
    | none => (.error (500, "Failed to record transaction: TypeError"), s)
    | some (blockchain', _) => (.ok transaction, { s with blockchain := blockchain' })

/-- `await database.insertTransaction(transaction, req.user.id)` (server.js 533), on
the record store as it is when the statement runs. -/
def recordInsert (s : Server Amt) (fault : DbCall → Option String) (user : User)
    (transaction : Transaction Amt) : Except (Nat × String) Unit × Server Amt :=
  match fault .insertTransaction with
  | some e => (.error (500, "Failed to record transaction: " ++ e), s)
  | none =>
    match s.db.insertTransaction transaction (some user.id) with
    | .error e => (.error (500, "Failed to record transaction: " ++ e), s)
    | .ok db' => (.ok (), { s with db := db' })

/-- `await database.addAuditEntry(...)` and the answer of the handler (server.js
536-550). -/
def recordAnswer (fault : DbCall → Option String) (transaction : Transaction Amt) :
    Except (Nat × String) (Transaction Amt) :=
  match fault .addAuditEntry with
  | some e => .error (500, "Failed to record transaction: " ++ e)
  | none => .ok transaction

/-- A record request: the authenticated user, the `validatedData`, and the clock and
random values its handler reads. -/
structure RecordRequest (Amt : Type) where
  user : User
  nowMs : Nat
  rnd : String
  now : String
  nowBlock : String
  amount : Amt
  fromAddress : String
  toAddress : String
  description : String
  auditor : String

/-- Two record requests `a` and `b` of which the second is received while the first is
being handled: both handlers are at `await database.getLatestBlockIndex()` before either
resumes, so both queries run on the same record store; then each handler resumes in
turn, creates its transaction and pushes its block, and the two `INSERT`s run in that
order. The result is the pair of transactions answered and the state afterwards, `none`
when a stretch of either handler fails. -/
def overlappingRecords (rt : Runtime Amt) (s : Server Amt) (fault : DbCall → Option String)
    (a b : RecordRequest Amt) : Option ((Transaction Amt × Transaction Amt) × Server Amt) :=
  match recordSelect s fault, recordSelect s fault with
  | .ok latestA, .ok latestB =>
    match recordAppend rt s latestA a.nowMs a.rnd a.now a.nowBlock a.amount a.fromAddress
        a.toAddress a.description a.auditor with
    | (.error _, _) => none
    | (.ok transactionA, s1) =>
      match recordAppend rt s1 latestB b.nowMs b.rnd b.now b.nowBlock b.amount b.fromAddress
          b.toAddress b.description b.auditor with
      | (.error _, _) => none
      | (.ok transactionB, s2) =>
        match recordInsert s2 fault a.user transactionA with
        | (.error _, _) => none
        | (.ok _, s3) =>
          match recordInsert s3 fault b.user transactionB with
          | (.error _, _) => none
          | (.ok _, s4) =>
            match recordAnswer fault transactionA, recordAnswer fault transactionB with
            | .ok answerA, .ok answerB => some ((answerA, answerB), s4)
            | _, _ => none
  | _, _ => none

/-- The comparator `(a, b) => a.blockIndex - b.blockIndex` of `initializeBlockchain`
puts `a` no later than `b`. -/
def blockIndexLE (a b : Transaction Amt) : Bool :=
  decide (a.blockIndex ≤ b.blockIndex)

/-- `transactions.sort((a, b) => a.blockIndex - b.blockIndex)`: `Array.prototype.sort`
is stable, so its result is the arrangement by ascending `blockIndex` that keeps equal
elements in their order, which insertion sort computes. -/
def sortByBlockIndex (transactions : List (Transaction Amt)) : List (Transaction Amt) :=
  transactions.insertionSort (fun a b => blockIndexLE a b = true)

/-- The loop `transactions.forEach(tx => blockchain.addTransactionToBlock(tx))`; the
call for element `i` reads the time `clock i`. An exception ends the loop with the
chain as it is, and is caught by `initializeBlockchain`. -/
def replayTransactions (rt : Runtime Amt) :
    Blockchain Amt → List (Transaction Amt) → (Nat → String) → Blockchain Amt
  | bc, [], _ => bc
  | bc, tx :: rest, clock =>
    match addTransactionToBlock rt bc tx (clock 0) with
    | none => bc
    | some (bc', _) => replayTransactions rt bc' rest (fun i => clock (i + 1))

/-- `initializeBlockchain()` (server.js 383-405) on the global `blockchain`: the state
of the chain afterwards. A rejected `database.getAllTransactions()` is caught and
leaves the chain as it is. -/
def initializeBlockchain (rt : Runtime Amt) (bc : Blockchain Amt) (db : Database Amt)
    (fault : DbCall → Option String) (clock : Nat → String) : Blockchain Amt :=
  match fault .getAllTransactions with
  | some _ => bc
  | none =>
    let transactions := sortByBlockIndex db.getAllTransactions
    if transactions.length > 0 then replayTransactions rt bc transactions clock else bc

/-- The row `database.insertTransaction(transaction, userId)` writes, in closed form. -/
def insertedRow (transaction : Transaction Amt) (userId : Option Nat) : Row Amt :=
  { id := transaction.id
    amount := transaction.amount
    from_address := transaction.fromAddress
    to_address := transaction.toAddress
    description := transaction.description
    auditor := transaction.auditor
    timestamp := transaction.timestamp
    block_index := transaction.blockIndex
    hash := transaction.hash
    previous_hash := strOrElseNull transaction.previousHash
    created_by := userId
    status := some "Pending"
    verified_by := none
    verified_at := none }

end Flows

end FinancialAudit

namespace FinancialAudit

section FlowStates

variable {Amt : Type}

/-- States of the server reached from a start on an empty record store by record and
amend requests handled one after another, each answered before the next is received,
whatever their inputs and outcomes. Requests whose handlers overlap are outside this
predicate: see `overlappingRecords`. -/
inductive FlowReachable (rt : Runtime Amt) : Server Amt → Prop
  | start (now0 : String) (users : List UserRow) :
      FlowReachable rt
        { blockchain := Blockchain.new rt now0, db := { users := users, transactions := [] } }
  | record {s : Server Amt} (fault : DbCall → Option String) (user : User) (nowMs : Nat)
      (rnd now nowBlock : String) (amount : Amt)
      (fromAddress toAddress description auditor : String) :
      FlowReachable rt s →
      FlowReachable rt (recordRoute rt s fault user nowMs rnd now nowBlock amount fromAddress
        toAddress description auditor).2
  | amend {s : Server Amt} (fault : DbCall → Option String) (user : User) (id : String)
      (amount : Amt) (description : String) (nowMs : Nat) (rnd now nowBlock : String) :
      FlowReachable rt s →
      FlowReachable rt (amendRoute rt s fault user id amount description nowMs rnd now
        nowBlock).2

/-- States of the server reached from a start on an empty record store by record
requests that succeeded, handled one after another, each answered before the next is
received, with no amend. Requests whose handlers overlap are outside this predicate:
see `overlappingRecords`. -/
inductive RecordOnly (rt : Runtime Amt) : Server Amt → Prop
  | start (now0 : String) (users : List UserRow) :
      RecordOnly rt
        { blockchain := Blockchain.new rt now0, db := { users := users, transactions := [] } }
  | record {s s' : Server Amt} {t : Transaction Amt} (fault : DbCall → Option String)
      (user : User) (nowMs : Nat) (rnd now nowBlock : String) (amount : Amt)
      (fromAddress toAddress description auditor : String) :
      RecordOnly rt s →
      recordRoute rt s fault user nowMs rnd now nowBlock amount fromAddress toAddress
        description auditor = (.ok t, s') →
      RecordOnly rt s'

end FlowStates

end FinancialAudit

namespace FinancialAudit

section VerifyFlow

variable {Amt : Type}

/-! ## Status verification (database.js 186-195, server.js 561-589) -/

/-- `database.verifyTransaction(id, userId)`: `UPDATE transactions SET status =
'Verified', verified_by = ?, verified_at = CURRENT_TIMESTAMP WHERE id = ?`; `nowSql` is
the value of `CURRENT_TIMESTAMP`. -/
def Database.verifyTransaction (db : Database Amt) (id : String) (userId : Nat)
    (nowSql : String) : Database Amt :=
  { db with
    transactions := db.transactions.map
      (fun r => if r.id == id then
          { r with status := some "Verified", verified_by := some userId,
                   verified_at := some nowSql }
        else r) }

/-- The property `status` of a transaction object; objects read from the record store
always carry it. -/
def Transaction.status (t : Transaction Amt) : Option String :=
  t.extra.map (fun e => e.status)

/-- Handler of `POST /api/transactions/:id/verify`, returning the answer (the message,
or the status and error text) and the state afterwards; `fault` is as in
`recordRoute`. -/
def verifyRoute (s : Server Amt) (fault : DbCall → Option String) (user : User) (id : String)
    (nowSql : String) : Except (Nat × String) String × Server Amt :=
  if user.role ≠ "manager" ∧ user.role ≠ "admin" then
    (.error (403, "Only Managers can verify transactions."), s)
  else
    match fault .getTransactionById with
    | some e => (.error (500, e), s)
    | none =>
      match s.db.getTransactionById id with
      | none => (.error (404, "Transaction not found"), s)
      | some transaction =>
        if transaction.status = some "Verified" then
          (.error (400, "Transaction is already verified"), s)
        else
          match fault .verifyTransaction with
          | some e => (.error (500, e), s)
          | none =>
            let s1 : Server Amt := { s with db := s.db.verifyTransaction id user.id nowSql }
            match fault .addAuditEntry with
            | some e => (.error (500, e), s1)
            | none => (.ok "Transaction verified successfully", s1)

end VerifyFlow

section Validation

variable {Amt : Type}

/-! ## Input validation (server.js 410-512) -/

/-- The value of a JavaScript number: `NaN`, an infinity, or a finite double, which is
a rational number (`-0` is 0). -/
inductive JsNumber where
  | nan
  | posInf
  | negInf
  | finite (q : Rat)
  deriving DecidableEq

/-- `isNaN(n)` on a number. -/
def JsNumber.isNaN : JsNumber → Bool
  | .nan => true
  | _ => false

/-- `isFinite(n)` on a number. -/
def JsNumber.isFinite : JsNumber → Bool
  | .finite _ => true
  | _ => false

/-- `n <= c` for a finite constant `c`; a comparison with `NaN` is false. -/
def JsNumber.le (n : JsNumber) (c : Rat) : Bool :=
  match n with
  | .nan => false
  | .posInf => false
  | .negInf => true
  | .finite q => decide (q ≤ c)

/-- `n > c` for a finite constant `c`; a comparison with `NaN` is false. -/
def JsNumber.gt (n : JsNumber) (c : Rat) : Bool :=
  match n with
  | .nan => false
  | .posInf => true
  | .negInf => false
  | .finite q => decide (c < q)

/-- A value of the request body in a place where the server expects text: a string, or
a value of another type, of which the server only observes whether it is truthy and the
string `String(x)`. -/
inductive JsField where
  | str (s : String)
  | other (truthy : Bool) (text : String)
  deriving DecidableEq, Repr

/-- Truthiness: the empty string is falsy, every other string truthy. -/
def JsField.truthy : JsField → Bool
  | .str s => decide (s ≠ "")
  | .other b _ => b

/-- `String(x)`. -/
def JsField.toStr : JsField → String
  | .str s => s
  | .other _ text => text

/-- The property `length` of a string: its number of UTF-16 code units. -/
def utf16Length (s : String) : Nat :=
  (s.data.map (fun c => if 65536 ≤ c.toNat then 2 else 1)).sum

/-- The string methods `trim` and `toLowerCase` of the runtime. -/
structure StringOps where
  trim : String → String
  toLowerCase : String → String

/-- The body `req.body` of a record request. -/
structure RequestBody (Amt : Type) where
  amount : Amt
  fromAddress : JsField
  toAddress : JsField
  description : JsField
  auditor : JsField

/-- The object `req.validatedData`. -/
structure ValidatedData (Amt : Type) where
  amount : Amt
  fromAddress : String
  toAddress : String
  description : String
  auditor : String

/-- `validateTransactionData(req, res, next)`: the status and error text of the answer
when the request is rejected, the `validatedData` attached when `next()` is called.
`numValue n` is the value of the number `n`. -/
def validateTransactionData (rt : Runtime Amt) (numValue : Amt → JsNumber) (ops : StringOps)
    (body : RequestBody Amt) : Except (Nat × String) (ValidatedData Amt) :=
  if !rt.truthy body.amount || !body.fromAddress.truthy || !body.toAddress.truthy ||
      !body.description.truthy || !body.auditor.truthy then
    .error (400, "Missing required fields: amount, from, to, description, auditor")
  else
    let amountNum := rt.parseFloat body.amount
    if (numValue amountNum).isNaN || !(numValue amountNum).isFinite then
      .error (400, "Amount must be a valid number")
    else if (numValue amountNum).le 0 then
      .error (400, "Amount must be greater than 0")
    else if (numValue amountNum).gt 1000000000 then
      .error (400, "Amount cannot exceed 1,000,000,000")
    else
      let fromTrimmed := ops.trim body.fromAddress.toStr
      let toTrimmed := ops.trim body.toAddress.toStr
      if utf16Length fromTrimmed = 0 ∨ utf16Length toTrimmed = 0 then
        .error (400, "From and To addresses cannot be empty")
      else if utf16Length fromTrimmed > 100 ∨ utf16Length toTrimmed > 100 then
        .error (400, "Addresses cannot exceed 100 characters")
      else
        let descriptionTrimmed := ops.trim body.description.toStr
        if utf16Length descriptionTrimmed = 0 then
          .error (400, "Description cannot be empty")
        else if utf16Length descriptionTrimmed > 500 then
          .error (400, "Description cannot exceed 500 characters")
        else
          let auditorTrimmed := ops.trim body.auditor.toStr
          if utf16Length auditorTrimmed = 0 then
            .error (400, "Auditor name cannot be empty")
          else if utf16Length auditorTrimmed > 50 then
            .error (400, "Auditor name cannot exceed 50 characters")
          else if ops.toLowerCase fromTrimmed = ops.toLowerCase toTrimmed then
            .error (400, "From and To addresses cannot be the same")
          else
            .ok { amount := amountNum
                  fromAddress := fromTrimmed
                  toAddress := toTrimmed
                  description := descriptionTrimmed
                  auditor := auditorTrimmed }

/-- `POST /api/transactions` behind its middleware `validateTransactionData`: the
handler runs only when the middleware calls `next()`. -/
def postTransactions (rt : Runtime Amt) (numValue : Amt → JsNumber) (ops : StringOps)
    (s : Server Amt) (fault : DbCall → Option String) (user : User) (nowMs : Nat)
    (rnd now nowBlock : String) (body : RequestBody Amt) :
    Except (Nat × String) (Transaction Amt) × Server Amt :=
  match validateTransactionData rt numValue ops body with
  | .error e => (.error e, s)
  | .ok validatedData =>
    recordRoute rt s fault user nowMs rnd now nowBlock validatedData.amount
      validatedData.fromAddress validatedData.toAddress validatedData.description
      validatedData.auditor

/-- The object the middleware attaches when it lets the request through: the parsed
amount and the trimmed texts. -/
def candidateData (rt : Runtime Amt) (ops : StringOps) (body : RequestBody Amt) :
    ValidatedData Amt :=
  { amount := rt.parseFloat body.amount
    fromAddress := ops.trim body.fromAddress.toStr
    toAddress := ops.trim body.toAddress.toStr
    description := ops.trim body.description.toStr
    auditor := ops.trim body.auditor.toStr }

/-- The limits section 7 of the specification places on validated data: a finite
amount above 0 and at most 1,000,000,000, from and to of length 1 to 100 that differ
when compared without regard to case, a description of length 1 to 500, an auditor of
length 1 to 50. -/
def WithinLimits (numValue : Amt → JsNumber) (ops : StringOps) (v : ValidatedData Amt) : Prop :=
  (∃ q : Rat, numValue v.amount = .finite q ∧ 0 < q ∧ q ≤ 1000000000) ∧
  (1 ≤ utf16Length v.fromAddress ∧ utf16Length v.fromAddress ≤ 100) ∧
  (1 ≤ utf16Length v.toAddress ∧ utf16Length v.toAddress ≤ 100) ∧
  ops.toLowerCase v.fromAddress ≠ ops.toLowerCase v.toAddress ∧
  (1 ≤ utf16Length v.description ∧ utf16Length v.description ≤ 500) ∧
  (1 ≤ utf16Length v.auditor ∧ utf16Length v.auditor ≤ 50)

end Validation

end FinancialAudit

namespace FinancialAudit

section Restart

variable {Amt : Type}

/-- A transaction object without the properties that only objects read back from the
record store carry: its id, amount, from, to, description, auditor, timestamp,
blockIndex, hash and previousHash. -/
def withoutExtra (t : Transaction Amt) : Transaction Amt :=
  { t with extra := none }

end Restart

end FinancialAudit

namespace FinancialAudit

/-! ## A concrete runtime for evaluating the model -/

/-- A runtime over natural-number amounts whose digest is one-to-one: it prefixes
its input with `#`. Every amount is a number, which the column `amount REAL` keeps. -/
def demoRuntime : Runtime Nat :=
  { digest := fun s => "#" ++ s
    numToString := fun n => toString n
    parseFloat := fun n => n
    jsonStringify := fun ts => String.join (ts.map (fun t => "(" ++ t.id ++ ":" ++ t.hash ++ ")"))
    truthy := fun n => decide (n ≠ 0)
    realAffinity := fun n => n }

/-- A fresh chain under `demoRuntime`. -/
def demoChain : Blockchain Nat := Blockchain.new demoRuntime "2024-01-01T00:00:00.000Z"

/-- The transaction `createTransaction(100, "A", "B", "test", "aud1")` on `demoChain`. -/
def demoTx : Transaction Nat :=
  { id := "tx_1700000000000_abc123xyz"
    amount := 100
    fromAddress := "A"
    toAddress := "B"
    description := "test"
    auditor := "aud1"
    timestamp := "2024-01-01T00:00:01.000Z"
    blockIndex := 1
    hash := "#tx_1700000000000_abc123xyz100ABtestaud12024-01-01T00:00:01.000Z1#genesis_block"
    previousHash := some "#genesis_block"
    extra := none }

/-- A persisted transaction from `AB` to `C`, before its hash is set. -/
def splitBefore : Transaction Nat :=
  { id := "tx_1700000000000_abc123xyz"
    amount := 100
    fromAddress := "AB"
    toAddress := "C"
    description := "test"
    auditor := "aud1"
    timestamp := "2024-01-01T00:00:01.000Z"
    blockIndex := 1
    hash := ""
    previousHash := some "00ff"
    extra := none }

/-- The same record after an out-of-band change of `from` to `A` and `to` to `BC`. -/
def splitAfter : Transaction Nat :=
  { splitBefore with fromAddress := "A", toAddress := "BC" }

/-- The record store holding `demoTx` as persisted by user 1. -/
def demoDb : Database Nat :=
  { users := [{ id := 1, name := "Administrator" }]
    transactions :=
      [{ id := demoTx.id
         amount := demoTx.amount
         from_address := demoTx.fromAddress
         to_address := demoTx.toAddress
         description := demoTx.description
         auditor := demoTx.auditor
         timestamp := demoTx.timestamp
         block_index := demoTx.blockIndex
         hash := demoTx.hash
         previous_hash := demoTx.previousHash
         created_by := some 1
         status := some "Pending"
         verified_by := none
         verified_at := none }] }

/-- The object `getTransactionById` returns for `demoTx` out of `demoDb`. -/
def demoStored : Transaction Nat :=
  { demoTx with
    extra := some
      { createdBy := some 1
        createdByName := some "Administrator"
        status := "Pending"
        verifiedBy := none
        verifiedByName := none
        verifiedAt := none } }

/-- The chain of two blocks: `demoChain` after `addTransactionToBlock(demoTx)`. -/
def demoChain2 : Blockchain Nat :=
  { chain := demoChain.chain ++
      [pushedBlock demoRuntime (createGenesisBlock demoRuntime "2024-01-01T00:00:00.000Z") demoTx
        "2024-01-01T00:00:02.000Z"] }

/-- The user that sends the requests of the scenarios. -/
def demoUser : User := { id := 1, name := "Administrator", role := "admin" }

/-- The server after startup on an empty record store. -/
def demoServer0 : Server Nat :=
  { blockchain := demoChain
    db := { users := [{ id := 1, name := "Administrator" }], transactions := [] } }

/-- The server after `POST /api/transactions` with amount 100, from `A`, to `B`,
description `test`, auditor `aud1`. -/
def demoServer1 : Server Nat :=
  (recordRoute demoRuntime demoServer0 noFault demoUser 1700000000000 "abc123xyz"
    "2024-01-01T00:00:01.000Z" "2024-01-01T00:00:02.000Z" 100 "A" "B" "test" "aud1").2

/-- The server after the amend `PUT /api/transactions/:id` of that transaction to
amount 200 and description `fix`. -/
def demoServer2 : Server Nat :=
  (amendRoute demoRuntime demoServer1 noFault demoUser "tx_1700000000000_abc123xyz" 200 "fix"
    1700000005000 "def456uvw" "2024-01-01T00:00:05.000Z" "2024-01-01T00:00:06.000Z").2

/-- The server after a second `POST /api/transactions`, with amount 50, from `C`, to
`D`, description `second`, auditor `aud1`. -/
def demoServer3 : Server Nat :=
  (recordRoute demoRuntime demoServer2 noFault demoUser 1700000009000 "ghi789rst"
    "2024-01-01T00:00:09.000Z" "2024-01-01T00:00:10.000Z" 50 "C" "D" "second" "aud1").2

/-- The record request that leads from `demoServer0` to `demoServer1`. -/
def requestA : RecordRequest Nat :=
  { user := demoUser
    nowMs := 1700000000000
    rnd := "abc123xyz"
    now := "2024-01-01T00:00:01.000Z"
    nowBlock := "2024-01-01T00:00:02.000Z"
    amount := 100
    fromAddress := "A"
    toAddress := "B"
    description := "test"
    auditor := "aud1" }

/-- A second record request, with amount 50, from `C`, to `D`, description `second`,
auditor `aud1`. -/
def requestB : RecordRequest Nat :=
  { user := demoUser
    nowMs := 1700000009000
    rnd := "ghi789rst"
    now := "2024-01-01T00:00:09.000Z"
    nowBlock := "2024-01-01T00:00:10.000Z"
    amount := 50
    fromAddress := "C"
    toAddress := "D"
    description := "second"
    auditor := "aud1" }

/-- A record request with the body of `requestB`, received while `requestA` is being
handled. -/
def requestC : RecordRequest Nat :=
  { user := demoUser
    nowMs := 1700000000003
    rnd := "ghi789rst"
    now := "2024-01-01T00:00:02.003Z"
    nowBlock := "2024-01-01T00:00:02.004Z"
    amount := 50
    fromAddress := "C"
    toAddress := "D"
    description := "second"
    auditor := "aud1" }

/-- The server after the requests `requestA` and `requestB`, handled one after the
other on `demoServer0`. -/
def demoRecords2 : Server Nat :=
  (recordRoute demoRuntime demoServer1 noFault demoUser 1700000009000 "ghi789rst"
    "2024-01-01T00:00:09.000Z" "2024-01-01T00:00:10.000Z" 50 "C" "D" "second" "aud1").2

/-- The driver fails on the `INSERT` of `database.insertTransaction` and on nothing
else. -/
def insertFault : DbCall → Option String
  | .insertTransaction => some "SQLITE_BUSY: database is locked"
  | _ => none

/-- The server after `POST /api/transactions` with amount 1, from `1`, to `11`,
description `1x`, auditor `aud1` on an empty record store. -/
def overlapServer1 : Server Nat :=
  (recordRoute demoRuntime demoServer0 noFault demoUser 1700000000000 "abc123xyz"
    "2024-01-01T00:00:01.000Z" "2024-01-01T00:00:02.000Z" 1 "1" "11" "1x" "aud1").2

/-- The server after the amend of that transaction to amount 11 and description `x`. -/
def overlapServer2 : Server Nat :=
  (amendRoute demoRuntime overlapServer1 noFault demoUser "tx_1700000000000_abc123xyz" 11 "x"
    1700000005000 "def456uvw" "2024-01-01T00:00:05.000Z" "2024-01-01T00:00:06.000Z").2

/-- The value of a natural-number amount. -/
def demoNumValue : Nat → JsNumber := fun n => .finite n

/-- String methods on the texts of the scenarios: nothing to trim, no letter to
lower. -/
def demoStringOps : StringOps := { trim := fun s => s, toLowerCase := fun s => s }

/-- The body of the record request of the concrete scenario of the specification. -/
def demoBody : RequestBody Nat :=
  { amount := 100
    fromAddress := .str "A"
    toAddress := .str "B"
    description := .str "test"
    auditor := .str "aud1" }

end FinancialAudit

namespace FinancialAudit

/-! # Theorems -/

/-! ## Lemmas on strings and lists -/

theorem str_append_right_cancel {a b c : String} (h : a ++ c = b ++ c) : a = b := by
  have h' := congrArg String.data h
  simp only [String.data_append] at h'
  exact String.ext (List.append_cancel_right h')

theorem str_append_left_cancel {a b c : String} (h : a ++ b = a ++ c) : b = c := by
  have h' := congrArg String.data h
  simp only [String.data_append] at h'
  exact String.ext (List.append_cancel_left h')

section Lemmas

variable {Amt : Type}

theorem getLatestBlock_append (chain : List (Block Amt)) (b : Block Amt) :
    getLatestBlock ({ chain := chain ++ [b] } : Blockchain Amt) = some b := by
  simp [getLatestBlock]

theorem getLatestBlock_isSome_of_ne_nil (bc : Blockchain Amt) (h : bc.chain ≠ []) :
    ∃ b, getLatestBlock bc = some b := by
  cases bc with
  | mk chain =>
    simp only [getLatestBlock]
    have hlen : chain.length - 1 < chain.length := by
      have : 0 < chain.length := List.length_pos.mpr h
      omega
    exact ⟨chain[chain.length - 1], List.getElem?_eq_getElem hlen⟩

theorem addTransactionToBlock_of_latest (rt : Runtime Amt) {bc : Blockchain Amt}
    {latest : Block Amt} (hl : getLatestBlock bc = some latest) (tx : Transaction Amt)
    (now : String) :
    addTransactionToBlock rt bc tx now =
      some ({ chain := bc.chain ++ [pushedBlock rt latest tx now] }, pushedBlock rt latest tx now) := by
  simp [addTransactionToBlock, hl, pushedBlock, calculateHash, blockData]

theorem addTransactionToBlock_inv {rt : Runtime Amt} {bc bc' : Blockchain Amt}
    {tx : Transaction Amt} {now : String} {b : Block Amt}
    (h : addTransactionToBlock rt bc tx now = some (bc', b)) :
    ∃ latest, getLatestBlock bc = some latest ∧ b = pushedBlock rt latest tx now ∧
      bc' = { chain := bc.chain ++ [b] } := by
  cases hl : getLatestBlock bc with
  | none => simp [addTransactionToBlock, hl] at h
  | some latest =>
    rw [addTransactionToBlock_of_latest rt hl] at h
    simp only [Option.some.injEq, Prod.mk.injEq] at h
    obtain ⟨h1, h2⟩ := h
    exact ⟨latest, rfl, h2.symm, by rw [← h1, ← h2]⟩

/-- In a reachable state the latest block exists and its hash is a digest. -/
theorem Reachable.latest_hash_digest {rt : Runtime Amt} {bc : Blockchain Amt}
    (h : Reachable rt bc) : ∃ b s, getLatestBlock bc = some b ∧ b.hash = rt.digest s := by
  cases h with
  | fresh now =>
    exact ⟨createGenesisBlock rt now, "genesis_block", by simp [getLatestBlock, Blockchain.new], rfl⟩
  | add hbc hadd =>
    obtain ⟨latest, _, hb, hbc'⟩ := addTransactionToBlock_inv hadd
    subst hbc'
    subst hb
    exact ⟨_, _, getLatestBlock_append _ _, rfl⟩

theorem validate_eq_create_hashData (rt : Runtime Amt) (t : Transaction Amt) :
    validateHashData rt t = createHashData rt t := rfl

end Lemmas

end FinancialAudit

namespace FinancialAudit

section Integrity

variable {Amt : Type}

theorem find_append_new {α : Type} (l : List α) (x : α) (p : α → Bool)
    (hl : l.any p = false) (hx : p x = true) : (l ++ [x]).find? p = some x := by
  have hnone : l.find? p = none := by
    rw [List.find?_eq_none]
    intro y hy hpy
    have : l.any p = true := List.any_eq_true.mpr ⟨y, hy, hpy⟩
    rw [hl] at this
    exact Bool.noConfusion this
  simp [List.find?_append, hnone, hx]

theorem createTransaction_of_latest (rt : Runtime Amt) {bc : Blockchain Amt} {latest : Block Amt}
    (hl : getLatestBlock bc = some latest) (nowMs : Nat) (rnd now : String) (amount : Amt)
    (fromAddress toAddress description auditor : String) (blockIndex : Option Int) :
    ∃ t, createTransaction rt bc nowMs rnd now amount fromAddress toAddress description auditor
        blockIndex = some t ∧
      t.previousHash = some latest.hash ∧ t.hash = rt.digest (createHashData rt t) := by
  simp only [createTransaction, hl]
  exact ⟨_, rfl, rfl, rfl⟩

/-- C1 (non-tamper stability). In every state of the chain reached from the
constructor by `addTransactionToBlock`, with a digest that never returns the empty
string (a SHA-256 hex digest has 64 characters), `createTransaction` returns a
transaction `t` for every input; the hash recomputed from the fields of `t` is
`t.hash`; and whenever `insertTransaction` persists `t`, the validate route on
`t.id` answers `isValid = true` with `storedHash = calculatedHash = t.hash`. -/
theorem created_transaction_passes_validation (rt : Runtime Amt)
    (hdigest : ∀ s, rt.digest s ≠ "") (bc : Blockchain Amt) (hbc : Reachable rt bc)
    (nowMs : Nat) (rnd now : String) (amount : Amt)
    (fromAddress toAddress description auditor : String) (blockIndex : Option Int) :
    ∃ t, createTransaction rt bc nowMs rnd now amount fromAddress toAddress description auditor
        blockIndex = some t ∧
      (checkIntegrity rt t).isValid = true ∧
      ∀ (db db' : Database Amt) (userId : Option Nat),
        db.insertTransaction t userId = .ok db' →
        validateRoute rt db' t.id =
          .ok { success := true, isValid := true, storedHash := t.hash,
                calculatedHash := t.hash } := by
  obtain ⟨latest, s0, hl, hs0⟩ := hbc.latest_hash_digest
  obtain ⟨t, ht, hprev, hhash⟩ :=
    createTransaction_of_latest rt hl nowMs rnd now amount fromAddress toAddress
      description auditor blockIndex
  have hlne : latest.hash ≠ "" := by rw [hs0]; exact hdigest s0
  refine ⟨t, ht, ?_, ?_⟩
  · simp [checkIntegrity, validate_eq_create_hashData, ← hhash]
  · intro db db' userId hins
    unfold Database.insertTransaction at hins
    by_cases hany : db.transactions.any (fun r => r.id == t.id) = true
    · simp [hany] at hins
    · have hany' : db.transactions.any (fun r => r.id == t.id) = false := by
        simpa using hany
      rw [if_neg hany] at hins
      injection hins with hdb
      subst hdb
      simp only [validateRoute, Database.getTransactionById]
      rw [find_append_new _ _ _ hany' (by simp)]
      simp only [Option.map_some', checkIntegrity, validateHashData, rowToTransaction, hprev,
        strOrElseNull, if_neg hlne]
      have hh : t.hash = rt.digest (t.id ++ rt.numToString t.amount ++ t.fromAddress ++
          t.toAddress ++ t.description ++ t.auditor ++ t.timestamp ++ toString t.blockIndex ++
          strOrNull (some latest.hash)) := by
        rw [hhash]; simp [createHashData, hprev]
      simp [← hh]

/-- The inputs of the concrete scenario of the specification produce `demoTx`:
`blockIndex` is 1 and `previousHash` is the hash of the genesis block. -/
theorem demoTx_created :
    createTransaction demoRuntime demoChain 1700000000000 "abc123xyz" "2024-01-01T00:00:01.000Z"
      100 "A" "B" "test" "aud1" none = some demoTx := by
  decide

theorem demoRuntime_digest_ne_empty : ∀ s, demoRuntime.digest s ≠ "" := by
  intro s h
  have hlen := congrArg String.length h
  simp [demoRuntime] at hlen
  exact absurd hlen.1 (by decide)

/-- Witness of C1 on a fresh chain and the inputs of the concrete scenario of the
specification. -/
theorem created_transaction_passes_validation_witness :
    (∀ s, demoRuntime.digest s ≠ "") ∧ Reachable demoRuntime demoChain ∧
    ∃ t, createTransaction demoRuntime demoChain 1700000000000 "abc123xyz"
        "2024-01-01T00:00:01.000Z" 100 "A" "B" "test" "aud1" none = some t ∧
      (checkIntegrity demoRuntime t).isValid = true ∧
      ∀ (db db' : Database Nat) (userId : Option Nat),
        db.insertTransaction t userId = .ok db' →
        validateRoute demoRuntime db' t.id =
          .ok { success := true, isValid := true, storedHash := t.hash,
                calculatedHash := t.hash } :=
  ⟨demoRuntime_digest_ne_empty, Reachable.fresh _,
    created_transaction_passes_validation demoRuntime demoRuntime_digest_ne_empty demoChain
      (Reachable.fresh _) 1700000000000 "abc123xyz" "2024-01-01T00:00:01.000Z" 100 "A" "B"
      "test" "aud1" none⟩

end Integrity

end FinancialAudit

namespace FinancialAudit

section Tamper

variable {Amt : Type}

theorem createHashData_eq_join (rt : Runtime Amt) (t : Transaction Amt) :
    createHashData rt t = String.join (hashedForms rt t) := by
  apply String.ext
  simp [createHashData, hashedForms, String.data_join, String.data_append]

theorem join_one_changed {pre post : List String} {a b : String}
    (h : String.join (pre ++ a :: post) = String.join (pre ++ b :: post)) : a = b := by
  have h' := congrArg String.data h
  simp only [String.data_join, List.map_append, List.map_cons, List.flatten_append,
    List.flatten_cons] at h'
  exact String.ext (List.append_cancel_right (List.append_cancel_left h'))

theorem hashData_ne_of_oneFormChanged {rt : Runtime Amt} {t t' : Transaction Amt}
    (h : OneFormChanged rt t t') : validateHashData rt t' ≠ createHashData rt t := by
  obtain ⟨pre, post, a, b, ht, ht', hab⟩ := h
  intro heq
  rw [validate_eq_create_hashData, createHashData_eq_join, createHashData_eq_join, ht, ht'] at heq
  exact hab (join_one_changed heq).symm

theorem checkIntegrity_invalid (rt : Runtime Amt) (t' : Transaction Amt) {x : String}
    (hstored : t'.hash = rt.digest x) (hne : validateHashData rt t' ≠ x)
    (hcol : NoCollision rt.digest (validateHashData rt t') x) :
    checkIntegrity rt t' =
        { success := true, isValid := false, storedHash := t'.hash,
          calculatedHash := rt.digest (validateHashData rt t') } ∧
      t'.hash ≠ rt.digest (validateHashData rt t') := by
  have hd : rt.digest (validateHashData rt t') ≠ t'.hash := by
    intro h
    rw [hstored] at h
    exact hne (hcol h)
  refine ⟨?_, fun h => hd h.symm⟩
  simp [checkIntegrity, hd]

theorem find_map_of_pred_inv {α : Type} (f : α → α) (p : α → Bool)
    (hp : ∀ x, p (f x) = p x) (l : List α) : (l.map f).find? p = (l.find? p).map f := by
  induction l with
  | nil => rfl
  | cons x rest ih =>
    simp only [List.map_cons, List.find?_cons, hp]
    cases p x with
    | true => rfl
    | false => exact ih

theorem getTransactionById_setAmount (rt : Runtime Amt) {db : Database Amt} {id : String}
    {t : Transaction Amt} (hget : db.getTransactionById id = some t) (a : Amt) :
    (db.setAmount rt a id).getTransactionById id =
      some { t with amount := rt.realAffinity a } := by
  simp only [Database.getTransactionById, Database.setAmount] at hget ⊢
  rw [find_map_of_pred_inv]
  · cases hf : db.transactions.find? (fun r => r.id == id) with
    | none => simp [hf] at hget
    | some r =>
      have hr : (r.id == id) = true := by
        have := List.find?_some hf
        simpa using this
      simp only [hf, Option.map_some', Option.some.injEq] at hget ⊢
      rw [← hget]
      simp [hr, rowToTransaction]
  · intro x
    by_cases hx : (x.id == id) = true
    · simp [hx]
    · simp [hx]

/-- C2 (tamper detection). Let `t` be the persisted transaction with the given id,
its stored hash being the digest of its fields. The tamper route binds `newAmount` to
the column `amount REAL`, and the record read back is `t` with only `amount` replaced,
by the value the column holds for `newAmount`. When the string form of that persisted
value differs from the one of the amount stored before, the validate route answers
`isValid = false`, `storedHash = t.hash` (the creation-time hash) and a
`calculatedHash` different from it, provided the digest does not collide on the two
hashed strings. -/
theorem tamper_detected (rt : Runtime Amt) (db : Database Amt) (id : String)
    (t : Transaction Amt) (newAmount : Amt)
    (hget : db.getTransactionById id = some t)
    (hstored : t.hash = rt.digest (createHashData rt t))
    (htruthy : rt.truthy newAmount = true)
    (hdiff : rt.numToString (rt.realAffinity newAmount) ≠ rt.numToString t.amount)
    (hcol : NoCollision rt.digest
      (validateHashData rt { t with amount := rt.realAffinity newAmount })
      (createHashData rt t)) :
    (tamperRoute rt db id newAmount).2.getTransactionById id =
        some { t with amount := rt.realAffinity newAmount } ∧
      validateRoute rt (tamperRoute rt db id newAmount).2 id =
        .ok { success := true, isValid := false, storedHash := t.hash,
              calculatedHash :=
                rt.digest (validateHashData rt { t with amount := rt.realAffinity newAmount }) } ∧
      t.hash ≠ rt.digest (validateHashData rt { t with amount := rt.realAffinity newAmount }) := by
  have hread : (tamperRoute rt db id newAmount).2.getTransactionById id =
      some { t with amount := rt.realAffinity newAmount } := by
    simp only [tamperRoute, htruthy, Bool.not_true, Bool.false_eq_true, if_false]
    exact getTransactionById_setAmount rt hget newAmount
  have hchg : OneFormChanged rt t { t with amount := rt.realAffinity newAmount } :=
    ⟨[t.id], [t.fromAddress, t.toAddress, t.description, t.auditor, t.timestamp,
      toString t.blockIndex, strOrNull t.previousHash], rt.numToString t.amount,
      rt.numToString (rt.realAffinity newAmount), rfl, rfl, fun h => hdiff h.symm⟩
  have hinv := checkIntegrity_invalid rt { t with amount := rt.realAffinity newAmount }
    hstored (hashData_ne_of_oneFormChanged hchg) hcol
  refine ⟨hread, ?_, hinv.2⟩
  simp only [validateRoute, hread]
  rw [hinv.1]

theorem demoRuntime_noCollision (x y : String) : NoCollision demoRuntime.digest x y := by
  intro h
  exact str_append_left_cancel h

/-- Witness of C2: the amount of `demoTx` is set from 100 to 999. -/
theorem tamper_detected_witness :
    demoDb.getTransactionById demoTx.id = some demoStored ∧
    demoStored.hash = demoRuntime.digest (createHashData demoRuntime demoStored) ∧
    validateRoute demoRuntime (tamperRoute demoRuntime demoDb demoTx.id 999).2 demoTx.id =
      .ok { success := true, isValid := false, storedHash := demoStored.hash,
            calculatedHash := demoRuntime.digest
              (validateHashData demoRuntime { demoStored with amount := 999 }) } :=
  ⟨by decide, by decide,
    (tamper_detected demoRuntime demoDb demoTx.id demoStored 999 (by decide) (by decide)
      (by decide) (by decide) (demoRuntime_noCollision _ _)).2.1⟩

/-- A tamper request whose `newAmount` the column `amount REAL` turns into a value with
the string form of the amount stored before, such as the text `'100.0'` on a record
holding 100, leaves the hashed string of the record as it was: a record that passed
the integrity check still passes it. -/
theorem tamper_to_stored_value_undetected (rt : Runtime Amt) (db : Database Amt) (id : String)
    (t : Transaction Amt) (newAmount : Amt)
    (hget : db.getTransactionById id = some t)
    (hstored : t.hash = rt.digest (validateHashData rt t))
    (htruthy : rt.truthy newAmount = true)
    (hsame : rt.numToString (rt.realAffinity newAmount) = rt.numToString t.amount) :
    validateRoute rt (tamperRoute rt db id newAmount).2 id =
      .ok { success := true, isValid := true, storedHash := t.hash,
            calculatedHash := t.hash } := by
  have hread : (tamperRoute rt db id newAmount).2.getTransactionById id =
      some { t with amount := rt.realAffinity newAmount } := by
    simp only [tamperRoute, htruthy, Bool.not_true, Bool.false_eq_true, if_false]
    exact getTransactionById_setAmount rt hget newAmount
  have hdata : validateHashData rt { t with amount := rt.realAffinity newAmount } =
      validateHashData rt t := by
    simp only [validateHashData, hsame]
  simp only [validateRoute, hread, checkIntegrity, hdata, ← hstored, decide_True]

/-- C3, counterexample. The record `splitBefore` (from `AB`, to `C`) is changed out of
band to `splitAfter` (from `A`, to `BC`), its stored hash being left as the digest of
the original fields: the tuples of hashed fields differ, yet under every runtime the
integrity check recomputes the stored hash and answers `isValid = true`. -/
theorem two_field_mutation_keeps_hash :
    hashedFields splitAfter ≠ hashedFields splitBefore ∧
    ∀ rt : Runtime Nat,
      checkIntegrity rt { splitAfter with hash := rt.digest (createHashData rt splitBefore) } =
        { success := true, isValid := true,
          storedHash := rt.digest (createHashData rt splitBefore),
          calculatedHash := rt.digest (createHashData rt splitBefore) } := by
  refine ⟨fun heq => ?_, fun rt => ?_⟩
  · have hfrom : splitAfter.fromAddress = splitBefore.fromAddress :=
      congrArg (fun x => x.2.2.1) heq
    exact absurd hfrom (by decide)
  have h : validateHashData rt { splitAfter with hash := rt.digest (createHashData rt splitBefore) } =
      createHashData rt splitBefore := by
    apply String.ext
    simp [validateHashData, createHashData, splitAfter, splitBefore, String.data_append]
  simp [checkIntegrity, h]

/-- C3, amended. Let the stored hash of the current record `t'` be the digest of the
fields of the original `t`. If the concatenation of the nine string forms of `t'`
differs from the one of `t`, as it does whenever exactly one of the nine string forms
was changed, and the digest does not collide on the two strings, then the hash the
integrity check recomputes differs from the stored hash and `isValid = false`. -/
theorem field_mutation_detected (rt : Runtime Amt) (t t' : Transaction Amt)
    (hstored : t'.hash = rt.digest (createHashData rt t))
    (hcol : NoCollision rt.digest (validateHashData rt t') (createHashData rt t)) :
    (validateHashData rt t' ≠ createHashData rt t →
      (checkIntegrity rt t').isValid = false ∧
        (checkIntegrity rt t').calculatedHash ≠ (checkIntegrity rt t').storedHash) ∧
    (OneFormChanged rt t t' →
      (checkIntegrity rt t').isValid = false ∧
        (checkIntegrity rt t').calculatedHash ≠ (checkIntegrity rt t').storedHash) := by
  have key : validateHashData rt t' ≠ createHashData rt t →
      (checkIntegrity rt t').isValid = false ∧
        (checkIntegrity rt t').calculatedHash ≠ (checkIntegrity rt t').storedHash := by
    intro hne
    obtain ⟨h1, h2⟩ := checkIntegrity_invalid rt t' hstored hne hcol
    rw [h1]
    exact ⟨rfl, fun h => h2 h.symm⟩
  exact ⟨key, fun h => key (hashData_ne_of_oneFormChanged h)⟩

/-- Witness of the amended C3: only the description of `demoStored` is changed. -/
theorem field_mutation_detected_witness :
    OneFormChanged demoRuntime demoStored { demoStored with description := "test2" } ∧
    (checkIntegrity demoRuntime { demoStored with description := "test2" }).isValid = false ∧
    (checkIntegrity demoRuntime { demoStored with description := "test2" }).calculatedHash ≠
      (checkIntegrity demoRuntime { demoStored with description := "test2" }).storedHash :=
  have hchg : OneFormChanged demoRuntime demoStored { demoStored with description := "test2" } :=
    ⟨["tx_1700000000000_abc123xyz", "100", "A", "B"],
      ["aud1", "2024-01-01T00:00:01.000Z", "1", "#genesis_block"], "test", "test2",
      by decide, by decide, by decide⟩
  ⟨hchg,
    (field_mutation_detected demoRuntime demoStored { demoStored with description := "test2" }
      (by decide) (demoRuntime_noCollision _ _)).2 hchg⟩

/-- C4 (one hash input on both paths). For every transaction object, the string
hashed by `createTransaction` and the string hashed by the validate route are both the
concatenation of the string forms of id, amount, from, to, description, auditor,
timestamp, blockIndex, previousHash in this order, hence equal; the hash either path
computes is the digest of that string, the one the specification defines. -/
theorem creation_and_validation_hash_same_input (rt : Runtime Amt) (t : Transaction Amt) :
    createHashData rt t = specTransactionHashInput rt t ∧
    validateHashData rt t = specTransactionHashInput rt t ∧
    createHashData rt t = validateHashData rt t ∧
    calculateHash rt (createHashData rt t) = specTransactionHash rt t ∧
    (checkIntegrity rt t).calculatedHash = specTransactionHash rt t :=
  ⟨createHashData_eq_join rt t,
    (validate_eq_create_hashData rt t).trans (createHashData_eq_join rt t),
    (validate_eq_create_hashData rt t).symm,
    congrArg rt.digest (createHashData_eq_join rt t),
    congrArg rt.digest ((validate_eq_create_hashData rt t).trans (createHashData_eq_join rt t))⟩

end Tamper

end FinancialAudit

namespace FinancialAudit

section Validate

variable {Amt : Type}

theorem validateChainFrom_iff (rt : Runtime Amt) (chain : List (Block Amt)) :
    ∀ (n i : Nat), 1 ≤ i → i + n ≤ chain.length →
      (validateChainFrom rt chain i n = true ↔ ∀ j, i ≤ j → j < i + n → LinkOk rt chain j) := by
  intro n
  induction n with
  | zero =>
    intro i _ _
    simp only [validateChainFrom, true_iff]
    intro j h1 h2
    omega
  | succ n ih =>
    intro i hi hlen
    have hi1 : i < chain.length := by omega
    have hi0 : i - 1 < chain.length := by omega
    have hcur : chain[i]? = some chain[i] := List.getElem?_eq_getElem hi1
    have hprev : chain[i - 1]? = some chain[i - 1] := List.getElem?_eq_getElem hi0
    have hrec := ih (i + 1) (by omega) (by omega)
    have hstep : validateChainFrom rt chain i (n + 1) =
        (if chain[i].previousHash ≠ chain[i - 1].hash then false
          else if chain[i].hash ≠ calculateHash rt (blockData rt chain[i]) then false
          else validateChainFrom rt chain (i + 1) n) := by
      rw [validateChainFrom, hcur, hprev]
    rw [hstep]
    constructor
    · intro h j hj1 hj2
      by_cases h1 : chain[i].previousHash ≠ chain[i - 1].hash
      · simp [h1] at h
      · rw [if_neg h1] at h
        by_cases h2 : chain[i].hash ≠ calculateHash rt (blockData rt chain[i])
        · simp [h2] at h
        · rw [if_neg h2] at h
          by_cases hji : j = i
          · subst hji
            intro cur prev hc hp
            rw [hcur] at hc
            rw [hprev] at hp
            injection hc with hc
            injection hp with hp
            subst hc
            subst hp
            exact ⟨not_not.mp h1, (not_not.mp h2).symm⟩
          · exact hrec.mp h j (by omega) (by omega)
    · intro h
      have hi_ok := h i (le_refl i) (by omega) chain[i] chain[i - 1] hcur hprev
      have h1 : ¬ chain[i].previousHash ≠ chain[i - 1].hash := not_not.mpr hi_ok.1
      have h2 : ¬ chain[i].hash ≠ calculateHash rt (blockData rt chain[i]) :=
        not_not.mpr hi_ok.2.symm
      rw [if_neg h1, if_neg h2]
      exact hrec.mpr (fun j hj1 hj2 => h j (by omega) (by omega))

theorem validateChain_iff (rt : Runtime Amt) (bc : Blockchain Amt) :
    validateChain rt bc = true ↔ ∀ i, 1 ≤ i → i < bc.chain.length → LinkOk rt bc.chain i := by
  unfold validateChain
  by_cases hlen : bc.chain.length = 0
  · rw [hlen]
    simp only [validateChainFrom, true_iff]
    intro i h1 h2
    omega
  · rw [validateChainFrom_iff rt bc.chain (bc.chain.length - 1) 1 (le_refl 1) (by omega)]
    constructor
    · intro h i h1 h2
      exact h i h1 (by omega)
    · intro h j h1 h2
      exact h j h1 (by omega)

/-- C5 (validate chain). `validateChain` returns true exactly when, at every
position `i` with `1 ≤ i < chain.length`, `chain[i].previousHash` is
`chain[i-1].hash` and the digest of index, previousHash, JSON of transactions,
timestamp and nonce of `chain[i]` is `chain[i].hash`; the empty chain and every chain
of a single block, whatever it contains, are valid. -/
theorem validateChain_spec (rt : Runtime Amt) (bc : Blockchain Amt) :
    (validateChain rt bc = true ↔
      ∀ i, 1 ≤ i → i < bc.chain.length →
        ∀ cur prev, bc.chain[i]? = some cur → bc.chain[i - 1]? = some prev →
          cur.previousHash = prev.hash ∧
            rt.digest (toString cur.index ++ cur.previousHash ++
              rt.jsonStringify cur.transactions ++ cur.timestamp ++ toString cur.nonce) =
              cur.hash) ∧
    validateChain rt { chain := [] } = true ∧
    ∀ b : Block Amt, validateChain rt { chain := [b] } = true :=
  ⟨validateChain_iff rt bc, rfl, fun _ => rfl⟩

end Validate

end FinancialAudit

namespace FinancialAudit

section Invariants

variable {Amt : Type}

theorem Reachable.ne_nil {rt : Runtime Amt} {bc : Blockchain Amt} (h : Reachable rt bc) :
    bc.chain ≠ [] := by
  cases h with
  | fresh now => simp [Blockchain.new]
  | add hbc hadd =>
    obtain ⟨latest, _, _, hbc'⟩ := addTransactionToBlock_inv hadd
    subst hbc'
    simp

theorem getLatestBlock_eq_some_iff {bc : Blockchain Amt} {b : Block Amt}
    (h : getLatestBlock bc = some b) :
    bc.chain ≠ [] ∧ bc.chain[bc.chain.length - 1]? = some b := by
  refine ⟨?_, h⟩
  intro hnil
  simp [getLatestBlock, hnil] at h

/-- Appending the block `addTransactionToBlock` builds keeps every link intact. -/
theorem linkOk_push {rt : Runtime Amt} {chain : List (Block Amt)} {latest : Block Amt}
    (hl : getLatestBlock ({ chain := chain } : Blockchain Amt) = some latest)
    (tx : Transaction Amt) (now : String)
    (hinv : ∀ i, 1 ≤ i → i < chain.length → LinkOk rt chain i) :
    ∀ i, 1 ≤ i → i < (chain ++ [pushedBlock rt latest tx now]).length →
      LinkOk rt (chain ++ [pushedBlock rt latest tx now]) i := by
  obtain ⟨hne, hlast⟩ := getLatestBlock_eq_some_iff hl
  simp only at hlast
  have hpos : 0 < chain.length := List.length_pos.mpr hne
  intro i hi1 hi2
  simp only [List.length_append, List.length_singleton] at hi2
  intro cur prev hc hp
  by_cases hlt : i < chain.length
  · rw [List.getElem?_append_left hlt] at hc
    rw [List.getElem?_append_left (by omega)] at hp
    exact hinv i hi1 hlt cur prev hc hp
  · have hi : i = chain.length := by omega
    subst hi
    rw [List.getElem?_concat_length] at hc
    rw [List.getElem?_append_left (by omega), hlast] at hp
    injection hc with hc
    injection hp with hp
    subst hc
    subst hp
    exact ⟨rfl, rfl⟩

/-- Every reachable chain satisfies both link conditions at every position after 0. -/
theorem Reachable.linkOk {rt : Runtime Amt} {bc : Blockchain Amt} (h : Reachable rt bc) :
    ∀ i, 1 ≤ i → i < bc.chain.length → LinkOk rt bc.chain i := by
  induction h with
  | fresh now =>
    intro i h1 h2
    simp [Blockchain.new] at h2
    omega
  | add hbc hadd ih =>
    obtain ⟨latest, hl, hb, hbc'⟩ := addTransactionToBlock_inv hadd
    subst hbc'
    subst hb
    exact linkOk_push hl _ _ ih

theorem buildChain_reachable_aux (rt : Runtime Amt) (txs : List (Transaction Amt × String)) :
    ∀ bc : Blockchain Amt, Reachable rt bc →
      ∃ bc', txs.foldl
          (fun acc p => acc.bind (fun bc => (addTransactionToBlock rt bc p.1 p.2).map Prod.fst))
          (some bc) = some bc' ∧ Reachable rt bc' ∧
        bc'.chain.length = bc.chain.length + txs.length := by
  induction txs with
  | nil => intro bc hbc; exact ⟨bc, rfl, hbc, rfl⟩
  | cons p rest ih =>
    intro bc hbc
    obtain ⟨latest, hl⟩ := getLatestBlock_isSome_of_ne_nil bc hbc.ne_nil
    have hadd := addTransactionToBlock_of_latest rt hl p.1 p.2
    obtain ⟨bc', h1, h2, h3⟩ := ih _ (Reachable.add hbc hadd)
    refine ⟨bc', ?_, h2, ?_⟩
    · rw [List.foldl_cons]
      have hstep : ((some bc).bind (fun bc =>
          (addTransactionToBlock rt bc p.1 p.2).map Prod.fst)) =
          some { chain := bc.chain ++ [pushedBlock rt latest p.1 p.2] } := by
        simp [hadd]
      rw [hstep]
      exact h1
    · simp only [List.length_append, List.length_singleton, List.length_cons, List.length_nil] at h3 ⊢
      omega

theorem buildChain_reachable (rt : Runtime Amt) (now0 : String)
    (txs : List (Transaction Amt × String)) :
    ∃ bc, buildChain rt now0 txs = some bc ∧ Reachable rt bc ∧
      bc.chain.length = txs.length + 1 := by
  obtain ⟨bc, h1, h2, h3⟩ := buildChain_reachable_aux rt txs _ (Reachable.fresh now0)
  refine ⟨bc, h1, h2, ?_⟩
  rw [h3]
  simp only [Blockchain.new, List.length_singleton]
  omega

/-- C6 (a freshly built chain is valid). For every finite sequence of transactions,
of arbitrary field values, calling `addTransactionToBlock` on each of them in turn
from a fresh `Blockchain` succeeds at every step, and the chain obtained, of one block
more than there are transactions, satisfies `validateChain() = true`. -/
theorem built_chain_is_valid (rt : Runtime Amt) (now0 : String)
    (txs : List (Transaction Amt × String)) :
    ∃ bc, buildChain rt now0 txs = some bc ∧ bc.chain.length = txs.length + 1 ∧
      validateChain rt bc = true := by
  obtain ⟨bc, h1, h2, h3⟩ := buildChain_reachable rt now0 txs
  exact ⟨bc, h1, h3, (validateChain_iff rt bc).mpr h2.linkOk⟩

end Invariants

end FinancialAudit

namespace FinancialAudit

section Flip

variable {Amt : Type}

theorem setHashAt_getElem? (bc : Blockchain Amt) (k : Nat) (h : String) (i : Nat) :
    (setHashAt bc k h).chain[i]? =
      (bc.chain[i]?).map (fun a => if k = i then { a with hash := h } else a) := by
  simp [setHashAt, List.getElem?_modify]

theorem setPreviousHashAt_getElem? (bc : Blockchain Amt) (k : Nat) (h : String) (i : Nat) :
    (setPreviousHashAt bc k h).chain[i]? =
      (bc.chain[i]?).map (fun a => if k = i then { a with previousHash := h } else a) := by
  simp [setPreviousHashAt, List.getElem?_modify]

theorem setHashAt_length (bc : Blockchain Amt) (k : Nat) (h : String) :
    (setHashAt bc k h).chain.length = bc.chain.length := by
  simp [setHashAt, List.length_modify]

theorem setPreviousHashAt_length (bc : Blockchain Amt) (k : Nat) (h : String) :
    (setPreviousHashAt bc k h).chain.length = bc.chain.length := by
  simp [setPreviousHashAt, List.length_modify]

theorem getElem?_lt_length {α : Type} {l : List α} {k : Nat} {b : α} (h : l[k]? = some b) :
    k < l.length := by
  by_contra hge
  rw [List.getElem?_eq_none (by omega)] at h
  exact Option.noConfusion h

theorem validateChain_eq_false_of_not_linkOk {rt : Runtime Amt} {bc : Blockchain Amt} {i : Nat}
    (h1 : 1 ≤ i) (h2 : i < bc.chain.length) (hbad : ¬ LinkOk rt bc.chain i) :
    validateChain rt bc = false := by
  rw [← Bool.not_eq_true]
  intro hv
  exact hbad ((validateChain_iff rt bc).mp hv i h1 h2)

theorem hash_flip_detected {rt : Runtime Amt} {bc : Blockchain Amt} (hbc : Reachable rt bc)
    {k : Nat} {b : Block Amt} (hk : bc.chain[k]? = some b) {h : String} (hk1 : 1 ≤ k)
    (hne : h ≠ b.hash) : validateChain rt (setHashAt bc k h) = false := by
  have hklt := getElem?_lt_length hk
  have hprev : bc.chain[k - 1]? = some bc.chain[k - 1] :=
    List.getElem?_eq_getElem (by omega)
  apply validateChain_eq_false_of_not_linkOk hk1 (by rw [setHashAt_length]; exact hklt)
  intro hok
  have h1 := hok { b with hash := h } bc.chain[k - 1]
    (by rw [setHashAt_getElem?, hk]; simp)
    (by rw [setHashAt_getElem?, hprev]
        have : ¬ k = k - 1 := by omega
        simp [this])
  have h2 := hbc.linkOk k hk1 hklt b bc.chain[k - 1] hk hprev
  exact hne (h1.2.symm.trans h2.2)

theorem previousHash_flip_detected {rt : Runtime Amt} {bc : Blockchain Amt}
    (hbc : Reachable rt bc) {k : Nat} {b : Block Amt} (hk : bc.chain[k]? = some b) {h : String}
    (hk1 : 1 ≤ k) (hne : h ≠ b.previousHash) :
    validateChain rt (setPreviousHashAt bc k h) = false := by
  have hklt := getElem?_lt_length hk
  have hprev : bc.chain[k - 1]? = some bc.chain[k - 1] :=
    List.getElem?_eq_getElem (by omega)
  apply validateChain_eq_false_of_not_linkOk hk1 (by rw [setPreviousHashAt_length]; exact hklt)
  intro hok
  have h1 := hok { b with previousHash := h } bc.chain[k - 1]
    (by rw [setPreviousHashAt_getElem?, hk]; simp)
    (by rw [setPreviousHashAt_getElem?, hprev]
        have : ¬ k = k - 1 := by omega
        simp [this])
  have h2 := hbc.linkOk k hk1 hklt b bc.chain[k - 1] hk hprev
  exact hne (h1.1.trans h2.1.symm)

theorem genesis_hash_flip_detected {rt : Runtime Amt} {bc : Blockchain Amt}
    (hbc : Reachable rt bc) {b : Block Amt} (hk : bc.chain[0]? = some b) {h : String}
    (hlen : 2 ≤ bc.chain.length) (hne : h ≠ b.hash) :
    validateChain rt (setHashAt bc 0 h) = false := by
  have hnext : bc.chain[1]? = some bc.chain[1] := List.getElem?_eq_getElem (by omega)
  apply validateChain_eq_false_of_not_linkOk (le_refl 1) (by rw [setHashAt_length]; omega)
  intro hok
  have h1 := hok bc.chain[1] { b with hash := h }
    (by rw [setHashAt_getElem?, hnext]; simp)
    (by rw [setHashAt_getElem?]; simp [hk])
  have h2 := hbc.linkOk 1 (le_refl 1) (by omega) bc.chain[1] b hnext (by simpa using hk)
  exact hne (h1.1.symm.trans h2.1)

theorem genesis_previousHash_flip_undetected {rt : Runtime Amt} {bc : Blockchain Amt}
    (hbc : Reachable rt bc) (h : String) :
    validateChain rt (setPreviousHashAt bc 0 h) = true := by
  rw [validateChain_iff]
  intro i hi1 hi2
  rw [setPreviousHashAt_length] at hi2
  intro cur prev hc hp
  rw [setPreviousHashAt_getElem?] at hc hp
  have hcur : bc.chain[i]? = some bc.chain[i] := List.getElem?_eq_getElem hi2
  have hprev : bc.chain[i - 1]? = some bc.chain[i - 1] := List.getElem?_eq_getElem (by omega)
  have hi0 : ¬ 0 = i := by omega
  rw [hcur] at hc
  rw [hprev] at hp
  simp only [Option.map_some', hi0, if_false, Option.some.injEq] at hc hp
  have hlink := hbc.linkOk i hi1 hi2 bc.chain[i] bc.chain[i - 1] hcur hprev
  subst hc
  by_cases h0 : 0 = i - 1
  · rw [if_pos h0] at hp
    subst hp
    exact hlink
  · rw [if_neg h0] at hp
    subst hp
    exact hlink

theorem single_block_hash_flip_undetected (rt : Runtime Amt) {bc : Blockchain Amt}
    (hlen : bc.chain.length = 1) (h : String) :
    validateChain rt (setHashAt bc 0 h) = true := by
  rw [validateChain_iff]
  intro i hi1 hi2
  rw [setHashAt_length] at hi2
  omega

/-- C7, counterexample. On the fresh chain `demoChain` (one block) the hash of the
genesis block is replaced by the different value `ffff`; on the two-block chain
`demoChain2` the previousHash of the genesis block is replaced by the different value
`1`: `validateChain` returns true in both cases. -/
theorem genesis_flip_not_detected :
    Reachable demoRuntime demoChain ∧ demoChain.chain.length = 1 ∧
    (demoChain.chain[0]?).map (fun b => decide (b.hash = "ffff")) = some false ∧
    validateChain demoRuntime (setHashAt demoChain 0 "ffff") = true ∧
    Reachable demoRuntime demoChain2 ∧ demoChain2.chain.length = 2 ∧
    (demoChain2.chain[0]?).map (fun b => decide (b.previousHash = "1")) = some false ∧
    validateChain demoRuntime (setPreviousHashAt demoChain2 0 "1") = true :=
  ⟨Reachable.fresh _, by decide, by decide, by decide,
    Reachable.add (Reachable.fresh _) (addTransactionToBlock_of_latest demoRuntime (by decide) _ _),
    by decide, by decide, by decide⟩

/-- C7, amended. Let the chain be reached from a fresh `Blockchain` by
`addTransactionToBlock`, and let `b` be its block at position `k`. For `k ≥ 1`,
replacing the hash of `b`, or its previousHash, by a different value makes
`validateChain` return false. Replacing the hash of the genesis block by a different
value makes it return false when the chain has at least two blocks. Replacing the
previousHash of the genesis block, or the hash of the only block of a one-block chain,
leaves `validateChain` true. -/
theorem flip_detected_after_genesis (rt : Runtime Amt) (bc : Blockchain Amt)
    (hbc : Reachable rt bc) (k : Nat) (b : Block Amt) (hk : bc.chain[k]? = some b)
    (h : String) :
    (1 ≤ k → h ≠ b.hash → validateChain rt (setHashAt bc k h) = false) ∧
    (1 ≤ k → h ≠ b.previousHash → validateChain rt (setPreviousHashAt bc k h) = false) ∧
    (k = 0 → 2 ≤ bc.chain.length → h ≠ b.hash →
      validateChain rt (setHashAt bc k h) = false) ∧
    (k = 0 → validateChain rt (setPreviousHashAt bc k h) = true) ∧
    (k = 0 → bc.chain.length = 1 → validateChain rt (setHashAt bc k h) = true) := by
  refine ⟨fun h1 hne => hash_flip_detected hbc hk h1 hne,
    fun h1 hne => previousHash_flip_detected hbc hk h1 hne, ?_, ?_, ?_⟩
  · intro h0 hlen hne
    subst h0
    exact genesis_hash_flip_detected hbc hk hlen hne
  · intro h0
    subst h0
    exact genesis_previousHash_flip_undetected hbc h
  · intro h0 hlen
    subst h0
    exact single_block_hash_flip_undetected rt hlen h

/-- Witness of the amended C7: the hash of block 1 of `demoChain2` is replaced. -/
theorem flip_detected_after_genesis_witness :
    Reachable demoRuntime demoChain2 ∧
    validateChain demoRuntime (setHashAt demoChain2 1 "ffff") = false ∧
    validateChain demoRuntime (setPreviousHashAt demoChain2 1 "ffff") = false :=
  have hreach : Reachable demoRuntime demoChain2 :=
    Reachable.add (Reachable.fresh _) (addTransactionToBlock_of_latest demoRuntime (by decide) _ _)
  have hthm := flip_detected_after_genesis demoRuntime demoChain2 hreach 1
    (pushedBlock demoRuntime (createGenesisBlock demoRuntime "2024-01-01T00:00:00.000Z") demoTx
      "2024-01-01T00:00:02.000Z") (by decide) "ffff"
  ⟨hreach, hthm.1 (by decide) (by decide), hthm.2.1 (by decide) (by decide)⟩

end Flip

end FinancialAudit

namespace FinancialAudit

section Append

variable {Amt : Type}

/-- C8 (append). On every chain that holds at least one block, as every chain of a
`Blockchain` instance does, `addTransactionToBlock(tx)` returns; the chain is one block
longer, the pushed block is its last block, and that block has index one more than the
index of the previous latest block, previousHash equal to that block's hash,
transactions `[tx]`, nonce 0, the current time as timestamp, and as hash the digest of
index, previousHash, JSON of `[tx]`, timestamp and nonce. -/
theorem addTransactionToBlock_spec (rt : Runtime Amt) (bc : Blockchain Amt)
    (tx : Transaction Amt) (now : String) (hne : bc.chain ≠ []) :
    ∃ latest bc' b, getLatestBlock bc = some latest ∧
      addTransactionToBlock rt bc tx now = some (bc', b) ∧
      bc'.chain.length = bc.chain.length + 1 ∧
      bc'.chain = bc.chain ++ [b] ∧
      getLatestBlock bc' = some b ∧
      b.index = latest.index + 1 ∧
      b.previousHash = latest.hash ∧
      b.transactions = [tx] ∧
      b.nonce = 0 ∧
      b.timestamp = now ∧
      b.hash = rt.digest (toString b.index ++ b.previousHash ++ rt.jsonStringify [tx] ++
        b.timestamp ++ toString b.nonce) := by
  obtain ⟨latest, hl⟩ := getLatestBlock_isSome_of_ne_nil bc hne
  refine ⟨latest, _, _, hl, addTransactionToBlock_of_latest rt hl tx now, ?_, rfl,
    getLatestBlock_append _ _, rfl, rfl, rfl, rfl, rfl, rfl⟩
  simp

/-- Witness of C8: `demoTx` is appended to the fresh chain `demoChain`. -/
theorem addTransactionToBlock_spec_witness :
    demoChain.chain ≠ [] ∧
    ∃ latest bc' b, getLatestBlock demoChain = some latest ∧
      addTransactionToBlock demoRuntime demoChain demoTx "2024-01-01T00:00:02.000Z" =
        some (bc', b) ∧
      bc'.chain.length = demoChain.chain.length + 1 ∧
      bc'.chain = demoChain.chain ++ [b] ∧
      getLatestBlock bc' = some b ∧
      b.index = latest.index + 1 ∧
      b.previousHash = latest.hash ∧
      b.transactions = [demoTx] ∧
      b.nonce = 0 ∧
      b.timestamp = "2024-01-01T00:00:02.000Z" ∧
      b.hash = demoRuntime.digest (toString b.index ++ b.previousHash ++
        demoRuntime.jsonStringify [demoTx] ++ b.timestamp ++ toString b.nonce) :=
  ⟨by decide,
    addTransactionToBlock_spec demoRuntime demoChain demoTx "2024-01-01T00:00:02.000Z"
      (by decide)⟩

theorem exec_chain_eq_or_push {rt : Runtime Amt} {bc bc' : Blockchain Amt} {op : Op Amt}
    (h : bc.exec rt op = some bc') : bc' = bc ∨ ∃ b, bc'.chain = bc.chain ++ [b] := by
  cases op with
  | createTransaction nowMs rnd now amount fromAddress toAddress description auditor blockIndex =>
    simp only [Blockchain.exec, Option.map_eq_some'] at h
    obtain ⟨_, _, h2⟩ := h
    exact Or.inl h2.symm
  | addTransactionToBlock transaction now =>
    simp only [Blockchain.exec, Option.map_eq_some'] at h
    obtain ⟨⟨bc1, b⟩, h1, h2⟩ := h
    obtain ⟨_, _, _, h3⟩ := addTransactionToBlock_inv h1
    simp only at h2
    subst h2
    exact Or.inr ⟨b, by rw [h3]⟩
  | _ =>
    simp only [Blockchain.exec, Option.some.injEq] at h
    exact Or.inl h.symm

/-- C9 (append-only chain). For every method call of the `Blockchain` class that
returns, the first `c.length` blocks of the chain afterwards are exactly the blocks of
the chain `c` before, equal in every field and in the same order, so no block is removed
or rewritten; this holds in particular for `addTransactionToBlock(tx)`, which adds one
block at the end; and every call returns when the chain is not empty. -/
theorem chain_is_append_only (rt : Runtime Amt) (bc : Blockchain Amt) (op : Op Amt) :
    (∀ bc', bc.exec rt op = some bc' →
      bc'.chain.take bc.chain.length = bc.chain ∧
      ∀ (i : Nat) (b : Block Amt), bc.chain[i]? = some b → bc'.chain[i]? = some b) ∧
    (∀ tx now bc' b, addTransactionToBlock rt bc tx now = some (bc', b) →
      bc'.chain.take bc.chain.length = bc.chain ∧ bc'.chain.length = bc.chain.length + 1) ∧
    (bc.chain ≠ [] → ∃ bc', bc.exec rt op = some bc') := by
  refine ⟨?_, ?_, ?_⟩
  · intro bc' h
    rcases exec_chain_eq_or_push h with heq | ⟨b, hpush⟩
    · subst heq
      exact ⟨List.take_length _, fun _ _ hb => hb⟩
    · rw [hpush]
      refine ⟨List.take_left _ _, fun i b hb => ?_⟩
      rw [List.getElem?_append_left (getElem?_lt_length hb)]
      exact hb
  · intro tx now bc' b h
    obtain ⟨_, _, _, h3⟩ := addTransactionToBlock_inv h
    rw [h3]
    exact ⟨List.take_left _ _, by simp⟩
  · intro hne
    obtain ⟨latest, hl⟩ := getLatestBlock_isSome_of_ne_nil bc hne
    cases op with
    | createTransaction nowMs rnd now amount fromAddress toAddress description auditor blockIndex =>
      obtain ⟨t, ht, _⟩ := createTransaction_of_latest rt hl nowMs rnd now amount
        fromAddress toAddress description auditor blockIndex
      exact ⟨bc, by simp [Blockchain.exec, ht]⟩
    | addTransactionToBlock transaction now =>
      exact ⟨{ chain := bc.chain ++ [pushedBlock rt latest transaction now] },
        by simp [Blockchain.exec, addTransactionToBlock_of_latest rt hl]⟩
    | _ => exact ⟨bc, rfl⟩

/-- C10 (chain continuity). In every chain reached from a fresh `Blockchain` by
`addTransactionToBlock` calls, at every position `i` with `0 < i < chain.length` the
blocks `chain[i]` and `chain[i-1]` exist and `chain[i].previousHash = chain[i-1].hash`. -/
theorem chain_continuity (rt : Runtime Amt) (bc : Blockchain Amt) (hbc : Reachable rt bc)
    (i : Nat) (hi : 0 < i) (hlt : i < bc.chain.length) :
    ∃ cur prev, bc.chain[i]? = some cur ∧ bc.chain[i - 1]? = some prev ∧
      cur.previousHash = prev.hash := by
  have hcur : bc.chain[i]? = some bc.chain[i] := List.getElem?_eq_getElem hlt
  have hprev : bc.chain[i - 1]? = some bc.chain[i - 1] := List.getElem?_eq_getElem (by omega)
  exact ⟨_, _, hcur, hprev, (hbc.linkOk i hi hlt _ _ hcur hprev).1⟩

/-- Witness of C10: position 1 of the two-block chain `demoChain2`. -/
theorem chain_continuity_witness :
    Reachable demoRuntime demoChain2 ∧ 0 < 1 ∧ 1 < demoChain2.chain.length ∧
    ∃ cur prev, demoChain2.chain[1]? = some cur ∧ demoChain2.chain[1 - 1]? = some prev ∧
      cur.previousHash = prev.hash :=
  have hreach : Reachable demoRuntime demoChain2 :=
    Reachable.add (Reachable.fresh _) (addTransactionToBlock_of_latest demoRuntime (by decide) _ _)
  ⟨hreach, by decide, by decide,
    chain_continuity demoRuntime demoChain2 hreach 1 (by decide) (by decide)⟩

end Append

end FinancialAudit

namespace FinancialAudit

section Create

variable {Amt : Type}

theorem foldl_append_transactions (l : List (Block Amt)) (init : List (Transaction Amt)) :
    l.foldl (fun allTransactions block => allTransactions ++ block.transactions) init =
      init ++ (l.map (fun block => block.transactions)).flatten := by
  induction l generalizing init with
  | nil => simp
  | cons b rest ih => simp [List.foldl_cons, ih, List.append_assoc]

theorem getAllTransactions_eq_flatten (bc : Blockchain Amt) :
    getAllTransactions bc = (bc.chain.map (fun block => block.transactions)).flatten := by
  simp [getAllTransactions, foldl_append_transactions]

theorem getAllTransactions_push (chain : List (Block Amt)) (b : Block Amt) :
    getAllTransactions ({ chain := chain ++ [b] } : Blockchain Amt) =
      getAllTransactions ({ chain := chain } : Blockchain Amt) ++ b.transactions := by
  simp [getAllTransactions_eq_flatten]

/-- C11 (`createTransaction` is a pure construction). A call of `createTransaction`
that returns leaves the instance in the state it was in: the chain has the same blocks,
and `validateChain`, `getChainInfo` and `getAllTransactions` give the same results
after the call as before. On a chain that is not empty the call returns a transaction
`t`, and `t` enters the chain only by `addTransactionToBlock(t)`, which wraps it in the
block it pushes. -/
theorem createTransaction_is_pure (rt : Runtime Amt) (bc : Blockchain Amt) (nowMs : Nat)
    (rnd now : String) (amount : Amt) (fromAddress toAddress description auditor : String)
    (blockIndex : Option Int) :
    (∀ bc', bc.exec rt (.createTransaction nowMs rnd now amount fromAddress toAddress
        description auditor blockIndex) = some bc' →
      bc'.chain = bc.chain ∧ bc'.chain.length = bc.chain.length ∧
      validateChain rt bc' = validateChain rt bc ∧
      (getChainInfo rt bc').length = (getChainInfo rt bc).length ∧
      (getChainInfo rt bc').isValid = (getChainInfo rt bc).isValid ∧
      (getChainInfo rt bc').totalTransactions = (getChainInfo rt bc).totalTransactions ∧
      (getChainInfo rt bc').latestBlock = (getChainInfo rt bc).latestBlock ∧
      getAllTransactions bc' = getAllTransactions bc) ∧
    (bc.chain ≠ [] →
      ∃ t, createTransaction rt bc nowMs rnd now amount fromAddress toAddress description
          auditor blockIndex = some t ∧
        bc.exec rt (.createTransaction nowMs rnd now amount fromAddress toAddress
          description auditor blockIndex) = some bc ∧
        ∀ nowBlock, ∃ bc'' b, addTransactionToBlock rt bc t nowBlock = some (bc'', b) ∧
          b.transactions = [t] ∧ getAllTransactions bc'' = getAllTransactions bc ++ [t]) := by
  constructor
  · intro bc' h
    simp only [Blockchain.exec, Option.map_eq_some'] at h
    obtain ⟨_, _, h2⟩ := h
    subst h2
    exact ⟨rfl, rfl, rfl, rfl, rfl, rfl, rfl, rfl⟩
  · intro hne
    obtain ⟨latest, hl⟩ := getLatestBlock_isSome_of_ne_nil bc hne
    obtain ⟨t, ht, _⟩ := createTransaction_of_latest rt hl nowMs rnd now amount fromAddress
      toAddress description auditor blockIndex
    refine ⟨t, ht, by simp [Blockchain.exec, ht], fun nowBlock => ?_⟩
    exact ⟨_, _, addTransactionToBlock_of_latest rt hl t nowBlock, rfl,
      getAllTransactions_push _ _⟩

theorem createTransaction_blockIndex {rt : Runtime Amt} {bc : Blockchain Amt} {nowMs : Nat}
    {rnd now : String} {amount : Amt} {fromAddress toAddress description auditor : String}
    {blockIndex : Option Int} {t : Transaction Amt}
    (h : createTransaction rt bc nowMs rnd now amount fromAddress toAddress description auditor
      blockIndex = some t) :
    t.blockIndex = blockIndexOrLength blockIndex bc.chain.length := by
  unfold createTransaction at h
  cases hl : getLatestBlock bc with
  | none => simp [hl] at h
  | some latest =>
    simp only [hl, Option.some.injEq] at h
    rw [← h]

/-- C12, counterexample. On the fresh chain `demoChain`, of length 1,
`createTransaction(100, "A", "B", "test", "aud1", 0)` returns a transaction whose
`blockIndex` is 1, not the supplied 0. -/
theorem supplied_zero_blockIndex_replaced :
    demoChain.chain.length = 1 ∧
    (createTransaction demoRuntime demoChain 1700000000000 "abc123xyz"
      "2024-01-01T00:00:01.000Z" 100 "A" "B" "test" "aud1" (some 0)).map
        (fun t => t.blockIndex) = some 1 := by
  decide

/-- C12, amended. On a chain that is not empty `createTransaction` returns a
transaction whose `blockIndex` is the supplied argument for every supplied integer
other than 0, and the current chain length when the argument is omitted, `null` or 0. -/
theorem createTransaction_blockIndex_spec (rt : Runtime Amt) (bc : Blockchain Amt)
    (hne : bc.chain ≠ []) (nowMs : Nat) (rnd now : String) (amount : Amt)
    (fromAddress toAddress description auditor : String) (blockIndex : Option Int) :
    ∃ t, createTransaction rt bc nowMs rnd now amount fromAddress toAddress description auditor
        blockIndex = some t ∧
      (∀ i : Int, blockIndex = some i → i ≠ 0 → t.blockIndex = i) ∧
      (blockIndex = none ∨ blockIndex = some 0 → t.blockIndex = (bc.chain.length : Int)) := by
  obtain ⟨latest, hl⟩ := getLatestBlock_isSome_of_ne_nil bc hne
  obtain ⟨t, ht, _⟩ := createTransaction_of_latest rt hl nowMs rnd now amount fromAddress
    toAddress description auditor blockIndex
  have hbi := createTransaction_blockIndex ht
  refine ⟨t, ht, ?_, ?_⟩
  · intro i hi hi0
    rw [hbi, hi]
    simp [blockIndexOrLength, hi0]
  · intro h
    rw [hbi]
    rcases h with h | h
    · rw [h]; rfl
    · rw [h]; simp [blockIndexOrLength]

/-- Witness of the amended C12: the supplied `blockIndex` 7 on `demoChain`. -/
theorem createTransaction_blockIndex_spec_witness :
    demoChain.chain ≠ [] ∧
    ∃ t, createTransaction demoRuntime demoChain 1700000000000 "abc123xyz"
        "2024-01-01T00:00:01.000Z" 100 "A" "B" "test" "aud1" (some 7) = some t ∧
      t.blockIndex = 7 :=
  have h := createTransaction_blockIndex_spec demoRuntime demoChain (by decide) 1700000000000
    "abc123xyz" "2024-01-01T00:00:01.000Z" 100 "A" "B" "test" "aud1" (some 7)
  ⟨by decide, h.choose, h.choose_spec.1, h.choose_spec.2.1 7 rfl (by decide)⟩

/-- C13 (`previousHash` of a created transaction). On every chain that is not empty,
as every chain of a `Blockchain` instance is, `createTransaction` returns a transaction
whose `previousHash` is the hash of the latest block of the chain at the call; on a
chain holding only the genesis block this is the hash of the genesis block. -/
theorem createTransaction_previousHash (rt : Runtime Amt) (bc : Blockchain Amt)
    (hne : bc.chain ≠ []) (nowMs : Nat) (rnd now : String) (amount : Amt)
    (fromAddress toAddress description auditor : String) (blockIndex : Option Int) :
    (∃ latest t, getLatestBlock bc = some latest ∧
      createTransaction rt bc nowMs rnd now amount fromAddress toAddress description auditor
        blockIndex = some t ∧
      t.previousHash = some latest.hash) ∧
    (∀ genesis : Block Amt, bc.chain = [genesis] →
      ∃ t, createTransaction rt bc nowMs rnd now amount fromAddress toAddress description
          auditor blockIndex = some t ∧
        t.previousHash = some genesis.hash) ∧
    (∀ now0, ∃ t, createTransaction rt (Blockchain.new rt now0) nowMs rnd now amount fromAddress
        toAddress description auditor blockIndex = some t ∧
      t.previousHash = some (createGenesisBlock rt now0).hash) := by
  obtain ⟨latest, hl⟩ := getLatestBlock_isSome_of_ne_nil bc hne
  obtain ⟨t, ht, hp, _⟩ := createTransaction_of_latest rt hl nowMs rnd now amount fromAddress
    toAddress description auditor blockIndex
  refine ⟨⟨latest, t, hl, ht, hp⟩, ?_, ?_⟩
  · intro genesis hg
    have hlg : getLatestBlock bc = some genesis := by simp [getLatestBlock, hg]
    rw [hl] at hlg
    injection hlg with hlg
    subst hlg
    exact ⟨t, ht, hp⟩
  · intro now0
    have hl0 : getLatestBlock (Blockchain.new rt now0) = some (createGenesisBlock rt now0) := by
      simp [getLatestBlock, Blockchain.new]
    obtain ⟨t0, ht0, hp0, _⟩ := createTransaction_of_latest rt hl0 nowMs rnd now amount
      fromAddress toAddress description auditor blockIndex
    exact ⟨t0, ht0, hp0⟩

/-- Witness of C13 on the fresh chain `demoChain`. -/
theorem createTransaction_previousHash_witness :
    demoChain.chain ≠ [] ∧
    ∃ latest t, getLatestBlock demoChain = some latest ∧
      createTransaction demoRuntime demoChain 1700000000000 "abc123xyz"
        "2024-01-01T00:00:01.000Z" 100 "A" "B" "test" "aud1" none = some t ∧
      t.previousHash = some latest.hash :=
  ⟨by decide,
    (createTransaction_previousHash demoRuntime demoChain (by decide) 1700000000000 "abc123xyz"
      "2024-01-01T00:00:01.000Z" 100 "A" "B" "test" "aud1" none).1⟩

end Create

end FinancialAudit

namespace FinancialAudit

section FirstRecord

variable {Amt : Type}

theorem getLatestBlockIndex_empty (users : List UserRow) :
    ({ users := users, transactions := [] } : Database Amt).getLatestBlockIndex = 0 := rfl

theorem recordRoute_ok {rt : Runtime Amt} {s : Server Amt} {latest : Block Amt}
    {t : Transaction Amt} {db' : Database Amt} (user : User) {nowMs : Nat}
    {rnd now : String} (nowBlock : String) {amount : Amt}
    {fromAddress toAddress description auditor : String}
    (hl : getLatestBlock s.blockchain = some latest)
    (ht : createTransaction rt s.blockchain nowMs rnd now amount fromAddress toAddress
      description auditor (some (s.db.getLatestBlockIndex + 1)) = some t)
    (hins : s.db.insertTransaction t (some user.id) = .ok db') :
    recordRoute rt s noFault user nowMs rnd now nowBlock amount fromAddress toAddress
        description auditor =
      (.ok t, { blockchain := { chain := s.blockchain.chain ++ [pushedBlock rt latest t nowBlock] },
                db := db' }) := by
  simp only [recordRoute, noFault, ht, addTransactionToBlock_of_latest rt hl, hins]

theorem insertTransaction_of_fresh_id {db : Database Amt} {t : Transaction Amt}
    (hfresh : db.transactions.any (fun r => r.id == t.id) = false) (userId : Option Nat) :
    db.insertTransaction t userId =
      .ok { db with transactions := db.transactions ++ [insertedRow t userId] } := by
  simp only [Database.insertTransaction, hfresh, Bool.false_eq_true, if_false]
  rfl

theorem insertTransaction_empty (users : List UserRow) (t : Transaction Amt)
    (userId : Option Nat) :
    ({ users := users, transactions := [] } : Database Amt).insertTransaction t userId =
      .ok { users := users, transactions := [insertedRow t userId] } := by
  simp only [Database.insertTransaction, List.any_nil, Bool.false_eq_true, if_false]
  rfl

/-- C14 (first transaction). On an empty record store, where `getLatestBlockIndex`
returns 0, and a chain holding only the genesis block, the record flow with any
validated input, no statement failing, answers with a transaction whose `blockIndex`
is 1 and whose `previousHash` is the hash of the genesis block, wraps it in the block
at chain position 1, of index 1, and persists it with `block_index` 1. -/
theorem first_transaction_blockIndex_one (rt : Runtime Amt) (now0 : String)
    (users : List UserRow) (user : User) (nowMs : Nat) (rnd now nowBlock : String)
    (amount : Amt) (fromAddress toAddress description auditor : String) :
    ({ users := users, transactions := [] } : Database Amt).getLatestBlockIndex = 0 ∧
    ∃ t s' b,
      recordRoute rt
          { blockchain := Blockchain.new rt now0, db := { users := users, transactions := [] } }
          noFault user nowMs rnd now nowBlock amount fromAddress toAddress description auditor =
        (.ok t, s') ∧
      t.blockIndex = 1 ∧
      t.previousHash = some (createGenesisBlock rt now0).hash ∧
      s'.blockchain.chain.length = 2 ∧
      s'.blockchain.chain[1]? = some b ∧ b.index = 1 ∧ b.transactions = [t] ∧
      s'.db.transactions.map (fun r => (r.id, r.block_index)) = [(t.id, 1)] := by
  refine ⟨rfl, ?_⟩
  have hl0 : getLatestBlock (Blockchain.new rt now0) = some (createGenesisBlock rt now0) := by
    simp [getLatestBlock, Blockchain.new]
  obtain ⟨t, ht, hp, _⟩ := createTransaction_of_latest rt hl0 nowMs rnd now amount
    fromAddress toAddress description auditor (some ((0 : Int) + 1))
  have hbi : t.blockIndex = 1 := by
    rw [createTransaction_blockIndex ht]
    simp [blockIndexOrLength]
  have hins := insertTransaction_empty users t (some user.id)
  have hroute := recordRoute_ok
    (s := { blockchain := Blockchain.new rt now0, db := { users := users, transactions := [] } })
    user nowBlock hl0 ht hins
  refine ⟨t, _, pushedBlock rt (createGenesisBlock rt now0) t nowBlock, hroute, hbi, hp, ?_, ?_,
    rfl, rfl, ?_⟩
  · simp [Blockchain.new]
  · simp [Blockchain.new]
  · simp [insertedRow, hbi]

end FirstRecord

end FinancialAudit

namespace FinancialAudit

/-- C15, counterexample. The requests record, amend, record from an empty store and a
fresh chain, handled one after another, all succeed. The amendment is given
`blockIndex` 2, the chain length at the amend, and is not persisted, so the persisted
maximum stays 1 and the transaction recorded next is given `blockIndex` 2 as well: two
transactions created by these flows share a `blockIndex`. A second amend in place of
that record would give its amendment `blockIndex` 3, the chain length, not the
persisted maximum plus 1, which is 2. And when the record request `requestC` is
received while `requestA` is being handled, both handlers read the maximum 0 before
either inserts: both transactions are given `blockIndex` 1 and both are persisted with
it. -/
theorem created_transactions_share_blockIndex :
    (recordRoute demoRuntime demoServer0 noFault demoUser 1700000000000 "abc123xyz"
      "2024-01-01T00:00:01.000Z" "2024-01-01T00:00:02.000Z" 100 "A" "B" "test"
      "aud1").1.toOption.map (fun t => t.blockIndex) = some 1 ∧
    (amendRoute demoRuntime demoServer1 noFault demoUser "tx_1700000000000_abc123xyz" 200 "fix"
      1700000005000 "def456uvw" "2024-01-01T00:00:05.000Z"
      "2024-01-01T00:00:06.000Z").1.toOption.isSome = true ∧
    demoServer2.blockchain.chain.length = 3 ∧
    demoServer2.db.getLatestBlockIndex = 1 ∧
    (recordRoute demoRuntime demoServer2 noFault demoUser 1700000009000 "ghi789rst"
      "2024-01-01T00:00:09.000Z" "2024-01-01T00:00:10.000Z" 50 "C" "D" "second"
      "aud1").1.toOption.map (fun t => t.blockIndex) = some 2 ∧
    (getAllTransactions demoServer3.blockchain).map (fun t => (t.id, t.blockIndex)) =
      [("tx_1700000000000_abc123xyz", 1), ("tx_1700000005000_def456uvw", 2),
        ("tx_1700000009000_ghi789rst", 2)] ∧
    (getAllTransactions
      (amendRoute demoRuntime demoServer2 noFault demoUser "tx_1700000000000_abc123xyz" 300
        "fix2" 1700000009000 "ghi789rst" "2024-01-01T00:00:09.000Z"
        "2024-01-01T00:00:10.000Z").2.blockchain).map (fun t => t.blockIndex) = [1, 2, 3] ∧
    (recordSelect demoServer0 noFault).toOption = some 0 ∧
    (overlappingRecords demoRuntime demoServer0 noFault requestA requestC).map
      (fun r => (r.1.1.id, r.1.1.blockIndex, r.1.2.id, r.1.2.blockIndex)) =
      some ("tx_1700000000000_abc123xyz", 1, "tx_1700000000003_ghi789rst", 1) ∧
    (overlappingRecords demoRuntime demoServer0 noFault requestA requestC).map
      (fun r => r.2.db.transactions.map (fun row => (row.id, row.block_index))) =
      some [("tx_1700000000000_abc123xyz", 1), ("tx_1700000000003_ghi789rst", 1)] := by
  decide

/-- C16, counterexample. After the requests record, amend, record from an empty store
and a fresh chain, handled one after another, the transaction recorded after the amend
has `blockIndex` 2 and is wrapped by the block of index 3, at chain position 3. And
after the two successful record requests `requestA` and `requestC` alone, the second
received while the first is being handled, the second transaction has `blockIndex` 1
and is wrapped by the block of index 2, at chain position 2. -/
theorem blockIndex_behind_block_index :
    demoServer3.blockchain.chain.map
        (fun b => (b.index, b.transactions.map (fun t => t.blockIndex))) =
      [(0, []), (1, [1]), (2, [2]), (3, [2])] ∧
    demoServer3.db.transactions.map (fun r => (r.id, r.block_index)) =
      [("tx_1700000000000_abc123xyz", 1), ("tx_1700000009000_ghi789rst", 2)] ∧
    (overlappingRecords demoRuntime demoServer0 noFault requestA requestC).map
      (fun r => r.2.blockchain.chain.map
        (fun b => (b.index, b.transactions.map (fun t => (t.id, t.blockIndex))))) =
      some [(0, []), (1, [("tx_1700000000000_abc123xyz", 1)]),
        (2, [("tx_1700000000003_ghi789rst", 1)])] := by
  decide

end FinancialAudit

namespace FinancialAudit

section Startup

variable {Amt : Type}

/-- On a chain that is not empty the replay loop appends one block for each
transaction, in order, each block wrapping exactly its transaction. -/
theorem replayTransactions_spec (rt : Runtime Amt) (txs : List (Transaction Amt)) :
    ∀ (bc : Blockchain Amt) (clock : Nat → String), bc.chain ≠ [] →
      ∃ blocks : List (Block Amt),
        (replayTransactions rt bc txs clock).chain = bc.chain ++ blocks ∧
        blocks.map (fun b => b.transactions) = txs.map (fun t => [t]) := by
  induction txs with
  | nil =>
    intro bc clock _
    exact ⟨[], by simp [replayTransactions], rfl⟩
  | cons tx rest ih =>
    intro bc clock hne
    obtain ⟨latest, hl⟩ := getLatestBlock_isSome_of_ne_nil bc hne
    have hadd := addTransactionToBlock_of_latest rt hl tx (clock 0)
    obtain ⟨blocks, h1, h2⟩ := ih { chain := bc.chain ++ [pushedBlock rt latest tx (clock 0)] }
      (fun i => clock (i + 1)) (by simp)
    refine ⟨pushedBlock rt latest tx (clock 0) :: blocks, ?_, ?_⟩
    · simp only [replayTransactions, hadd]
      rw [h1]
      simp
    · simp only [List.map_cons, h2]
      rfl

theorem replayTransactions_reachable (rt : Runtime Amt) (txs : List (Transaction Amt)) :
    ∀ (bc : Blockchain Amt) (clock : Nat → String), Reachable rt bc →
      Reachable rt (replayTransactions rt bc txs clock) := by
  induction txs with
  | nil => intro bc clock h; exact h
  | cons tx rest ih =>
    intro bc clock h
    obtain ⟨latest, hl⟩ := getLatestBlock_isSome_of_ne_nil bc h.ne_nil
    have hadd := addTransactionToBlock_of_latest rt hl tx (clock 0)
    simp only [replayTransactions, hadd]
    exact ih _ _ (Reachable.add h hadd)

theorem sortByBlockIndex_length (l : List (Transaction Amt)) :
    (sortByBlockIndex l).length = l.length := by
  simp [sortByBlockIndex, List.length_insertionSort]

theorem getAllTransactions_db_length (db : Database Amt) :
    db.getAllTransactions.length = db.transactions.length := by
  simp [Database.getAllTransactions, List.length_insertionSort]

/-- The chain `initializeBlockchain` leaves, when the read of the record store
succeeds: the blocks already there, then one block for each persisted transaction in
the sorted order. -/
theorem initializeBlockchain_spec (rt : Runtime Amt) (bc : Blockchain Amt)
    (hne : bc.chain ≠ []) (db : Database Amt) (clock : Nat → String) :
    ∃ blocks : List (Block Amt),
      (initializeBlockchain rt bc db noFault clock).chain = bc.chain ++ blocks ∧
      blocks.map (fun b => b.transactions) =
        (sortByBlockIndex db.getAllTransactions).map (fun t => [t]) := by
  simp only [initializeBlockchain, noFault]
  by_cases hlen : (sortByBlockIndex db.getAllTransactions).length > 0
  · rw [if_pos hlen]
    exact replayTransactions_spec rt _ bc clock hne
  · rw [if_neg hlen]
    have hnil : sortByBlockIndex db.getAllTransactions = [] :=
      List.eq_nil_of_length_eq_zero (by omega)
    exact ⟨[], by simp, by rw [hnil]; rfl⟩

theorem flatten_map_singleton {α : Type} (l : List α) :
    (l.map (fun t => [t])).flatten = l := by
  induction l with
  | nil => rfl
  | cons a rest ih => simp [ih]

/-- C17 (reconstruction counts). For every record store, holding `K` persisted
transactions, `initializeBlockchain` applied to a fresh `Blockchain`, the read of the
store succeeding, leaves a chain for which `getChainInfo()` returns `length = K + 1` and
`totalTransactions = K`. -/
theorem reconstruction_counts (rt : Runtime Amt) (now0 : String) (db : Database Amt)
    (clock : Nat → String) :
    (getChainInfo rt (initializeBlockchain rt (Blockchain.new rt now0) db noFault clock)).length =
      db.transactions.length + 1 ∧
    (getChainInfo rt
      (initializeBlockchain rt (Blockchain.new rt now0) db noFault clock)).totalTransactions =
      db.transactions.length := by
  obtain ⟨blocks, h1, h2⟩ := initializeBlockchain_spec rt (Blockchain.new rt now0)
    (by simp [Blockchain.new]) db clock
  have hlen : blocks.length = db.transactions.length := by
    have := congrArg List.length h2
    simpa [sortByBlockIndex_length, getAllTransactions_db_length] using this
  constructor
  · show (initializeBlockchain rt (Blockchain.new rt now0) db noFault clock).chain.length = _
    rw [h1, List.length_append, hlen]
    simp only [Blockchain.new, List.length_singleton]
    omega
  · show (getAllTransactions
      (initializeBlockchain rt (Blockchain.new rt now0) db noFault clock)).length = _
    rw [getAllTransactions_eq_flatten, h1, List.map_append, h2, List.flatten_append,
      flatten_map_singleton, List.length_append, sortByBlockIndex_length,
      getAllTransactions_db_length]
    simp [Blockchain.new, createGenesisBlock]

end Startup

end FinancialAudit

namespace FinancialAudit

section Order

variable {Amt : Type}

theorem blockIndexLE_iff (a b : Transaction Amt) :
    blockIndexLE a b = true ↔ a.blockIndex ≤ b.blockIndex := by
  simp [blockIndexLE]

theorem sortByBlockIndex_perm (l : List (Transaction Amt)) : (sortByBlockIndex l).Perm l :=
  List.perm_insertionSort _ l

theorem sortByBlockIndex_sorted (l : List (Transaction Amt)) :
    (sortByBlockIndex l).Pairwise (fun a b => a.blockIndex ≤ b.blockIndex) := by
  haveI : IsTotal (Transaction Amt) (fun a b => blockIndexLE a b = true) :=
    ⟨fun a b => by
      simp only [blockIndexLE_iff]
      exact le_total _ _⟩
  haveI : IsTrans (Transaction Amt) (fun a b => blockIndexLE a b = true) :=
    ⟨fun a b c hab hbc => by
      simp only [blockIndexLE_iff] at hab hbc ⊢
      exact le_trans hab hbc⟩
  have h := List.sorted_insertionSort (fun a b : Transaction Amt => blockIndexLE a b = true) l
  exact List.Pairwise.imp (fun hab => (blockIndexLE_iff _ _).mp hab) h

/-- Inserting `a` in order changes the elements of `blockIndex` `v` only by putting `a`
in front of them, when `a` is one of them. -/
theorem filter_orderedInsert_blockIndex (v : Int) (a : Transaction Amt) :
    ∀ l : List (Transaction Amt),
      (l.orderedInsert (fun a b => blockIndexLE a b = true) a).filter
          (fun t => decide (t.blockIndex = v)) =
        if a.blockIndex = v then a :: l.filter (fun t => decide (t.blockIndex = v))
        else l.filter (fun t => decide (t.blockIndex = v)) := by
  intro l
  induction l with
  | nil =>
    by_cases ha : a.blockIndex = v
    · simp [ha]
    · simp [ha]
  | cons b rest ih =>
    by_cases hab : blockIndexLE a b = true
    · rw [List.orderedInsert, if_pos hab]
      by_cases ha : a.blockIndex = v
      · simp [List.filter_cons, ha]
      · simp [List.filter_cons, ha]
    · rw [List.orderedInsert, if_neg hab, List.filter_cons, ih]
      have hlt : b.blockIndex < a.blockIndex := by
        rw [blockIndexLE_iff] at hab
        omega
      by_cases ha : a.blockIndex = v
      · have hb : ¬ b.blockIndex = v := by omega
        simp [List.filter_cons, ha, hb]
      · by_cases hb : b.blockIndex = v
        · simp [List.filter_cons, ha, hb]
        · simp [List.filter_cons, ha, hb]

/-- The sort keeps the transactions of each `blockIndex` in their order. -/
theorem sortByBlockIndex_stable (v : Int) (l : List (Transaction Amt)) :
    (sortByBlockIndex l).filter (fun t => decide (t.blockIndex = v)) =
      l.filter (fun t => decide (t.blockIndex = v)) := by
  induction l with
  | nil => rfl
  | cons a rest ih =>
    have hcons : sortByBlockIndex (a :: rest) =
        (sortByBlockIndex rest).orderedInsert (fun a b => blockIndexLE a b = true) a := rfl
    rw [hcons, filter_orderedInsert_blockIndex, ih]
    by_cases ha : a.blockIndex = v
    · simp [List.filter_cons, ha]
    · simp [List.filter_cons, ha]

/-- C18 (reconstruction order). Let the record store return the list `persisted`,
and let `initializeBlockchain` rebuild the chain from a fresh `Blockchain`, the read
succeeding. The blocks after the genesis block wrap, one each and in order, the
transactions of the sequence `sortByBlockIndex persisted`, which is also what
`getAllTransactions()` of the chain lists; that sequence is a permutation of
`persisted`, is non-decreasing in `blockIndex`, and holds the transactions of each
`blockIndex` in the order they have in `persisted`. -/
theorem reconstruction_order (rt : Runtime Amt) (now0 : String) (db : Database Amt)
    (clock : Nat → String) :
    ((initializeBlockchain rt (Blockchain.new rt now0) db noFault clock).chain.drop 1).map
        (fun b => b.transactions) =
      (sortByBlockIndex db.getAllTransactions).map (fun t => [t]) ∧
    (∀ (i : Nat) (t : Transaction Amt), (sortByBlockIndex db.getAllTransactions)[i]? = some t →
      ((initializeBlockchain rt (Blockchain.new rt now0) db noFault clock).chain[i + 1]?).map
        (fun b => b.transactions) = some [t]) ∧
    getAllTransactions (initializeBlockchain rt (Blockchain.new rt now0) db noFault clock) =
      sortByBlockIndex db.getAllTransactions ∧
    (sortByBlockIndex db.getAllTransactions).Perm db.getAllTransactions ∧
    (sortByBlockIndex db.getAllTransactions).Pairwise
      (fun a b => a.blockIndex ≤ b.blockIndex) ∧
    ∀ v : Int,
      (sortByBlockIndex db.getAllTransactions).filter (fun t => decide (t.blockIndex = v)) =
        db.getAllTransactions.filter (fun t => decide (t.blockIndex = v)) := by
  obtain ⟨blocks, h1, h2⟩ := initializeBlockchain_spec rt (Blockchain.new rt now0)
    (by simp [Blockchain.new]) db clock
  have hchain : (initializeBlockchain rt (Blockchain.new rt now0) db noFault clock).chain =
      createGenesisBlock rt now0 :: blocks := by
    rw [h1]; rfl
  refine ⟨?_, ?_, ?_, sortByBlockIndex_perm _, sortByBlockIndex_sorted _,
    fun v => sortByBlockIndex_stable v _⟩
  · rw [hchain, List.drop_one, List.tail_cons, h2]
  · intro i t hi
    rw [hchain, List.getElem?_cons_succ]
    have hmap := congrArg (fun l => l[i]?) h2
    simp only [List.getElem?_map, hi, Option.map_some'] at hmap
    exact hmap
  · rw [getAllTransactions_eq_flatten, hchain, List.map_cons, List.flatten_cons, h2,
      flatten_map_singleton]
    rfl

end Order

end FinancialAudit

namespace FinancialAudit

section Amend

variable {Amt : Type}

/-- What a successful amend has done, step by step. -/
theorem amendRoute_ok_inv {rt : Runtime Amt} {s s' : Server Amt} {fault : DbCall → Option String}
    {user : User} {id : String} {amount : Amt} {description : String} {nowMs : Nat}
    {rnd now nowBlock : String} {r : Transaction Amt}
    (h : amendRoute rt s fault user id amount description nowMs rnd now nowBlock = (.ok r, s')) :
    ∃ oldTransaction latest amendmentTransaction,
      s.db.getTransactionById id = some oldTransaction ∧
      getLatestBlock s.blockchain = some latest ∧
      createTransaction rt s.blockchain nowMs rnd now amount oldTransaction.fromAddress
        oldTransaction.toAddress ("[AMENDMENT] " ++ description ++ " (Ref: " ++ id ++ ")")
        user.name (some (s.blockchain.chain.length : Int)) = some amendmentTransaction ∧
      r = { oldTransaction with amount := amount, description := description } ∧
      s' = { blockchain :=
               { chain := s.blockchain.chain ++
                   [pushedBlock rt latest amendmentTransaction nowBlock] },
             db := s.db.updateTransaction rt id amount description } := by
  unfold amendRoute at h
  by_cases hrole : user.role = "viewer"
  · simp [hrole] at h
  · rw [if_neg hrole] at h
    cases hf1 : fault .getTransactionById with
    | some e => simp [hf1] at h
    | none =>
      cases hold : s.db.getTransactionById id with
      | none => simp [hf1, hold] at h
      | some oldTransaction =>
        cases hf2 : fault .updateTransaction with
        | some e => simp [hf1, hold, hf2] at h
        | none =>
          cases hl : getLatestBlock s.blockchain with
          | none =>
            simp [hf1, hold, hf2, createTransaction, hl] at h
          | some latest =>
            obtain ⟨t, ht, _⟩ := createTransaction_of_latest rt hl nowMs rnd now amount
              oldTransaction.fromAddress oldTransaction.toAddress
              ("[AMENDMENT] " ++ description ++ " (Ref: " ++ id ++ ")") user.name
              (some (s.blockchain.chain.length : Int))
            simp only [hf1, hold, hf2, ht, addTransactionToBlock_of_latest rt hl] at h
            cases hf3 : fault .addAuditEntry with
            | some e => simp [hf3] at h
            | none =>
              simp only [hf3, Prod.mk.injEq, Except.ok.injEq] at h
              exact ⟨oldTransaction, latest, t, rfl, rfl, ht, h.1.symm, h.2.symm⟩

/-- An amend by a user who may edit, of an existing transaction, on a chain that is
not empty and with no statement failing, succeeds. -/
theorem amendRoute_succeeds (rt : Runtime Amt) (s : Server Amt) (user : User) (id : String)
    (amount : Amt) (description : String) (nowMs : Nat) (rnd now nowBlock : String)
    (hrole : user.role ≠ "viewer") {oldTransaction : Transaction Amt}
    (hold : s.db.getTransactionById id = some oldTransaction)
    (hne : s.blockchain.chain ≠ []) :
    ∃ r s', amendRoute rt s noFault user id amount description nowMs rnd now nowBlock =
      (.ok r, s') := by
  obtain ⟨latest, hl⟩ := getLatestBlock_isSome_of_ne_nil s.blockchain hne
  obtain ⟨t, ht, _⟩ := createTransaction_of_latest rt hl nowMs rnd now amount
    oldTransaction.fromAddress oldTransaction.toAddress
    ("[AMENDMENT] " ++ description ++ " (Ref: " ++ id ++ ")") user.name
    (some (s.blockchain.chain.length : Int))
  refine ⟨{ oldTransaction with amount := amount, description := description },
    { blockchain := { chain := s.blockchain.chain ++ [pushedBlock rt latest t nowBlock] },
      db := s.db.updateTransaction rt id amount description }, ?_⟩
  simp only [amendRoute, if_neg hrole, noFault, hold, ht, addTransactionToBlock_of_latest rt hl]

end Amend

end FinancialAudit

namespace FinancialAudit

section AmendFrame

variable {Amt : Type}

theorem updateTransaction_getElem? (rt : Runtime Amt) (db : Database Amt) (id : String)
    (amount : Amt) (description : String) (i : Nat) :
    (db.updateTransaction rt id amount description).transactions[i]? =
      (db.transactions[i]?).map
        (fun r => if r.id == id then
          { r with amount := rt.realAffinity amount, description := description }
          else r) := by
  simp [Database.updateTransaction]

theorem getTransactionById_updateTransaction (rt : Runtime Amt) {db : Database Amt}
    {id : String} {t : Transaction Amt} (hget : db.getTransactionById id = some t)
    (amount : Amt) (description : String) :
    (db.updateTransaction rt id amount description).getTransactionById id =
      some { t with amount := rt.realAffinity amount, description := description } := by
  simp only [Database.getTransactionById, Database.updateTransaction] at hget ⊢
  rw [find_map_of_pred_inv]
  · cases hf : db.transactions.find? (fun r => r.id == id) with
    | none => simp [hf] at hget
    | some r =>
      have hr : (r.id == id) = true := by
        have := List.find?_some hf
        simpa using this
      simp only [hf, Option.map_some', Option.some.injEq] at hget ⊢
      rw [← hget]
      simp [hr, rowToTransaction]
  · intro x
    by_cases hx : (x.id == id) = true
    · simp [hx]
    · simp [hx]

/-- Whatever the outcome of an amend, the record store afterwards is the one before or
the one `updateTransaction` leaves. -/
theorem amendRoute_db (rt : Runtime Amt) (s : Server Amt) (fault : DbCall → Option String)
    (user : User) (id : String) (amount : Amt) (description : String) (nowMs : Nat)
    (rnd now nowBlock : String) :
    (amendRoute rt s fault user id amount description nowMs rnd now nowBlock).2.db = s.db ∨
    (amendRoute rt s fault user id amount description nowMs rnd now nowBlock).2.db =
      s.db.updateTransaction rt id amount description := by
  unfold amendRoute
  by_cases hrole : user.role = "viewer"
  · simp [hrole]
  · rw [if_neg hrole]
    cases hf1 : fault .getTransactionById with
    | some e => simp
    | none =>
      cases hold : s.db.getTransactionById id with
      | none => simp
      | some oldTransaction =>
        cases hf2 : fault .updateTransaction with
        | some e => simp
        | none =>
          right
          simp only
          split
          · rfl
          · split
            · rfl
            · split <;> rfl

/-- C19 (amending leaves the stored hash untouched). `database.updateTransaction(id,
amount, description)` keeps the number and order of the records and the users; each
record keeps its id, hash, previousHash, blockIndex, timestamp, from, to, auditor and
verification columns; a record with another id is unchanged, the records with the
given id take the new amount, as the column `amount REAL` holds it, and the new
description; the object read back for the id is the one read before with only `amount`
and `description` replaced. The amend flow leaves
the record store either as it was or as `updateTransaction` leaves it, and on success
the latter. -/
theorem amend_changes_only_amount_and_description (rt : Runtime Amt) (s : Server Amt)
    (fault : DbCall → Option String) (user : User) (id : String) (amount : Amt)
    (description : String) (nowMs : Nat) (rnd now nowBlock : String) :
    (s.db.updateTransaction rt id amount description).users = s.db.users ∧
    (s.db.updateTransaction rt id amount description).transactions.length =
      s.db.transactions.length ∧
    (∀ (i : Nat) (r : Row Amt), s.db.transactions[i]? = some r →
      ∃ r', (s.db.updateTransaction rt id amount description).transactions[i]? = some r' ∧
        r'.id = r.id ∧ r'.hash = r.hash ∧ r'.previous_hash = r.previous_hash ∧
        r'.block_index = r.block_index ∧ r'.timestamp = r.timestamp ∧
        r'.from_address = r.from_address ∧ r'.to_address = r.to_address ∧
        r'.auditor = r.auditor ∧ r'.created_by = r.created_by ∧ r'.status = r.status ∧
        r'.verified_by = r.verified_by ∧ r'.verified_at = r.verified_at ∧
        (r.id = id → r'.amount = rt.realAffinity amount ∧ r'.description = description) ∧
        (r.id ≠ id → r' = r)) ∧
    (∀ t, s.db.getTransactionById id = some t →
      (s.db.updateTransaction rt id amount description).getTransactionById id =
        some { t with amount := rt.realAffinity amount, description := description }) ∧
    ((amendRoute rt s fault user id amount description nowMs rnd now nowBlock).2.db = s.db ∨
      (amendRoute rt s fault user id amount description nowMs rnd now nowBlock).2.db =
        s.db.updateTransaction rt id amount description) ∧
    (∀ r s', amendRoute rt s fault user id amount description nowMs rnd now nowBlock =
        (.ok r, s') → s'.db = s.db.updateTransaction rt id amount description) := by
  refine ⟨rfl, by simp [Database.updateTransaction], ?_, ?_, amendRoute_db _ _ _ _ _ _ _ _ _ _ _,
    ?_⟩
  · intro i r hr
    rw [updateTransaction_getElem?, hr]
    by_cases hid : r.id = id
    · refine ⟨{ r with amount := rt.realAffinity amount, description := description },
        by simp [hid], rfl, rfl,
        rfl, rfl, rfl, rfl, rfl, rfl, rfl, rfl, rfl, rfl, fun _ => ⟨rfl, rfl⟩,
        fun h => absurd hid h⟩
    · exact ⟨r, by simp [hid], rfl, rfl, rfl, rfl, rfl, rfl, rfl, rfl, rfl, rfl, rfl, rfl,
        fun h => absurd h hid, fun _ => rfl⟩
  · intro t ht
    exact getTransactionById_updateTransaction rt ht amount description
  · intro r s' h
    obtain ⟨_, _, _, _, _, _, _, hs'⟩ := amendRoute_ok_inv h
    rw [hs']

/-- C20 (an amend appends one block). A successful amend has found the transaction
`old` with the given id, and has pushed exactly one block at the end of the chain, the
earlier blocks being unchanged; that block follows the block `latest` that was latest
before, and wraps the amendment transaction, newly created, whose `blockIndex` is the
chain length before the amend, whose from and to are those of `old`, whose description
is `[AMENDMENT] <description> (Ref: <id>)`, whose auditor is the name of the user and
whose `previousHash` is the hash of `latest`. An amend succeeds whenever the user is
not a viewer, the id names a persisted transaction, the chain is not empty and no
statement fails. -/
theorem amend_appends_one_block (rt : Runtime Amt) (s : Server Amt)
    (fault : DbCall → Option String) (user : User) (id : String) (amount : Amt)
    (description : String) (nowMs : Nat) (rnd now nowBlock : String) :
    (∀ r s', amendRoute rt s fault user id amount description nowMs rnd now nowBlock =
        (.ok r, s') →
      ∃ old latest amendment b,
        s.db.getTransactionById id = some old ∧
        getLatestBlock s.blockchain = some latest ∧
        s'.blockchain.chain = s.blockchain.chain ++ [b] ∧
        s'.blockchain.chain.length = s.blockchain.chain.length + 1 ∧
        s'.blockchain.chain.take s.blockchain.chain.length = s.blockchain.chain ∧
        b.transactions = [amendment] ∧
        b.index = latest.index + 1 ∧
        b.previousHash = latest.hash ∧
        amendment.id = "tx_" ++ toString nowMs ++ "_" ++ rnd ∧
        amendment.blockIndex = (s.blockchain.chain.length : Int) ∧
        amendment.fromAddress = old.fromAddress ∧
        amendment.toAddress = old.toAddress ∧
        amendment.description = "[AMENDMENT] " ++ description ++ " (Ref: " ++ id ++ ")" ∧
        amendment.auditor = user.name ∧
        amendment.amount = rt.parseFloat amount ∧
        amendment.previousHash = some latest.hash ∧
        amendment.hash = rt.digest (createHashData rt amendment)) ∧
    (user.role ≠ "viewer" → (∃ old, s.db.getTransactionById id = some old) →
      s.blockchain.chain ≠ [] →
      ∃ r s', amendRoute rt s noFault user id amount description nowMs rnd now nowBlock =
        (.ok r, s')) := by
  constructor
  · intro r s' h
    obtain ⟨old, latest, t, hold, hl, ht, _, hs'⟩ := amendRoute_ok_inv h
    have hne : s.blockchain.chain ≠ [] := (getLatestBlock_eq_some_iff hl).1
    have hlen : 0 < s.blockchain.chain.length := List.length_pos.mpr hne
    have hbi := createTransaction_blockIndex ht
    have hfields : t.id = "tx_" ++ toString nowMs ++ "_" ++ rnd ∧
        t.fromAddress = old.fromAddress ∧ t.toAddress = old.toAddress ∧
        t.description = "[AMENDMENT] " ++ description ++ " (Ref: " ++ id ++ ")" ∧
        t.auditor = user.name ∧ t.amount = rt.parseFloat amount ∧
        t.previousHash = some latest.hash ∧ t.hash = rt.digest (createHashData rt t) := by
      simp only [createTransaction, hl, Option.some.injEq] at ht
      rw [← ht]
      exact ⟨rfl, rfl, rfl, rfl, rfl, rfl, rfl, rfl⟩
    obtain ⟨f1, f2, f3, f4, f5, f6, f7, f8⟩ := hfields
    refine ⟨old, latest, t, pushedBlock rt latest t nowBlock, hold, hl, by rw [hs'],
      by rw [hs']; simp, by rw [hs']; exact List.take_left _ _, rfl, rfl, rfl, f1, ?_, f2, f3,
      f4, f5, f6, f7, f8⟩
    rw [hbi]
    have hnz : ¬ ((s.blockchain.chain.length : Int) = 0) := by omega
    simp [blockIndexOrLength, hnz]
  · intro hrole hold hne
    obtain ⟨old, hold⟩ := hold
    exact amendRoute_succeeds rt s user id amount description nowMs rnd now nowBlock hrole hold
      hne

end AmendFrame

end FinancialAudit

namespace FinancialAudit

section BlockIndex

variable {Amt : Type}

theorem int_max?_eq_some_iff (xs : List Int) (a : Int) :
    xs.max? = some a ↔ a ∈ xs ∧ ∀ b ∈ xs, b ≤ a := by
  haveI : Std.Antisymm (fun a b : Int => a ≤ b) := ⟨fun h1 h2 => le_antisymm h1 h2⟩
  exact List.max?_eq_some_iff (fun a => le_refl a) (fun a b => max_choice a b)
    (fun a b c => max_le_iff)

/-- `getLatestBlockIndex` is 0 on an empty table and the maximum `block_index`
otherwise. -/
theorem getLatestBlockIndex_spec (db : Database Amt) :
    (db.transactions = [] → db.getLatestBlockIndex = 0) ∧
    (db.transactions ≠ [] →
      (∃ r ∈ db.transactions, r.block_index = db.getLatestBlockIndex) ∧
      ∀ r ∈ db.transactions, r.block_index ≤ db.getLatestBlockIndex) := by
  constructor
  · intro h
    simp [Database.getLatestBlockIndex, h]
  · intro hne
    cases hm : (db.transactions.map (fun r => r.block_index)).max? with
    | none =>
      rw [List.max?_eq_none_iff, List.map_eq_nil_iff] at hm
      exact absurd hm hne
    | some m =>
      have hL : db.getLatestBlockIndex = m := by
        simp only [Database.getLatestBlockIndex, hm]
        by_cases h0 : m = 0
        · simp [h0]
        · simp [h0]
      rw [int_max?_eq_some_iff] at hm
      obtain ⟨hmem, hle⟩ := hm
      rw [List.mem_map] at hmem
      obtain ⟨r, hr, hrm⟩ := hmem
      rw [hL]
      exact ⟨⟨r, hr, hrm⟩, fun r' hr' => hle _ (List.mem_map.mpr ⟨r', hr', rfl⟩)⟩

/-- What a successful record flow has done, step by step. -/
theorem recordRoute_ok_inv {rt : Runtime Amt} {s s' : Server Amt}
    {fault : DbCall → Option String} {user : User} {nowMs : Nat} {rnd now nowBlock : String}
    {amount : Amt} {fromAddress toAddress description auditor : String} {t : Transaction Amt}
    (h : recordRoute rt s fault user nowMs rnd now nowBlock amount fromAddress toAddress
      description auditor = (.ok t, s')) :
    ∃ latest,
      getLatestBlock s.blockchain = some latest ∧
      createTransaction rt s.blockchain nowMs rnd now amount fromAddress toAddress description
        auditor (some (s.db.getLatestBlockIndex + 1)) = some t ∧
      s.db.transactions.any (fun r => r.id == t.id) = false ∧
      s' = { blockchain := { chain := s.blockchain.chain ++ [pushedBlock rt latest t nowBlock] },
             db := { s.db with
               transactions := s.db.transactions ++ [insertedRow t (some user.id)] } } := by
  unfold recordRoute at h
  cases hf1 : fault .getLatestBlockIndex with
  | some e => simp [hf1] at h
  | none =>
    cases hl : getLatestBlock s.blockchain with
    | none => simp [hf1, createTransaction, hl] at h
    | some latest =>
      obtain ⟨t0, ht0, _⟩ := createTransaction_of_latest rt hl nowMs rnd now amount fromAddress
        toAddress description auditor (some (s.db.getLatestBlockIndex + 1))
      simp only [hf1, ht0, addTransactionToBlock_of_latest rt hl] at h
      cases hf2 : fault .insertTransaction with
      | some e => simp [hf2] at h
      | none =>
        by_cases hany : s.db.transactions.any (fun r => r.id == t0.id) = true
        · simp [hf2, Database.insertTransaction, hany] at h
        · have hany' : s.db.transactions.any (fun r => r.id == t0.id) = false := by
            simpa using hany
          simp only [hf2, insertTransaction_of_fresh_id hany'] at h
          cases hf3 : fault .addAuditEntry with
          | some e => simp [hf3] at h
          | none =>
            simp only [hf3, Prod.mk.injEq, Except.ok.injEq] at h
            obtain ⟨h1, h2⟩ := h
            subst h1
            exact ⟨latest, rfl, ht0, hany', h2.symm⟩

/-- Whatever the outcome of a record flow, the record store afterwards is the one
before, or the one before with the row of the created transaction added. -/
theorem recordRoute_db (rt : Runtime Amt) (s : Server Amt) (fault : DbCall → Option String)
    (user : User) (nowMs : Nat) (rnd now nowBlock : String) (amount : Amt)
    (fromAddress toAddress description auditor : String) :
    (recordRoute rt s fault user nowMs rnd now nowBlock amount fromAddress toAddress
      description auditor).2.db = s.db ∨
    ∃ t, createTransaction rt s.blockchain nowMs rnd now amount fromAddress toAddress
        description auditor (some (s.db.getLatestBlockIndex + 1)) = some t ∧
      (recordRoute rt s fault user nowMs rnd now nowBlock amount fromAddress toAddress
        description auditor).2.db =
        { s.db with transactions := s.db.transactions ++ [insertedRow t (some user.id)] } := by
  unfold recordRoute
  cases hf1 : fault .getLatestBlockIndex with
  | some e => left; rfl
  | none =>
    cases hl : getLatestBlock s.blockchain with
    | none => left; simp [createTransaction, hl]
    | some latest =>
      obtain ⟨t0, ht0, _⟩ := createTransaction_of_latest rt hl nowMs rnd now amount fromAddress
        toAddress description auditor (some (s.db.getLatestBlockIndex + 1))
      simp only [ht0, addTransactionToBlock_of_latest rt hl]
      cases hf2 : fault .insertTransaction with
      | some e => left; rfl
      | none =>
        by_cases hany : s.db.transactions.any (fun r => r.id == t0.id) = true
        · left
          simp [Database.insertTransaction, hany]
        · have hany' : s.db.transactions.any (fun r => r.id == t0.id) = false := by
            simpa using hany
          right
          refine ⟨t0, rfl, ?_⟩
          simp only [insertTransaction_of_fresh_id hany']
          cases hf3 : fault .addAuditEntry <;> rfl

end BlockIndex

end FinancialAudit

namespace FinancialAudit

section FlowInvariants

variable {Amt : Type}

/-- Whatever the outcome of a record flow, the chain afterwards is the one before, or
the one before with one block pushed. -/
theorem recordRoute_chain (rt : Runtime Amt) (s : Server Amt) (fault : DbCall → Option String)
    (user : User) (nowMs : Nat) (rnd now nowBlock : String) (amount : Amt)
    (fromAddress toAddress description auditor : String) :
    (recordRoute rt s fault user nowMs rnd now nowBlock amount fromAddress toAddress
      description auditor).2.blockchain = s.blockchain ∨
    ∃ latest t, getLatestBlock s.blockchain = some latest ∧
      (recordRoute rt s fault user nowMs rnd now nowBlock amount fromAddress toAddress
        description auditor).2.blockchain =
        { chain := s.blockchain.chain ++ [pushedBlock rt latest t nowBlock] } := by
  unfold recordRoute
  cases hf1 : fault .getLatestBlockIndex with
  | some e => left; rfl
  | none =>
    cases hl : getLatestBlock s.blockchain with
    | none => left; simp [createTransaction, hl]
    | some latest =>
      obtain ⟨t0, ht0, _⟩ := createTransaction_of_latest rt hl nowMs rnd now amount fromAddress
        toAddress description auditor (some (s.db.getLatestBlockIndex + 1))
      right
      refine ⟨latest, t0, rfl, ?_⟩
      simp only [ht0, addTransactionToBlock_of_latest rt hl]
      cases hf2 : fault .insertTransaction with
      | some e => rfl
      | none =>
        simp only
        cases hins : s.db.insertTransaction t0 (some user.id) with
        | error e => rfl
        | ok db' =>
          simp only
          cases hf3 : fault .addAuditEntry <;> rfl

/-- Whatever the outcome of an amend, the chain afterwards is the one before, or the
one before with one block pushed. -/
theorem amendRoute_chain (rt : Runtime Amt) (s : Server Amt) (fault : DbCall → Option String)
    (user : User) (id : String) (amount : Amt) (description : String) (nowMs : Nat)
    (rnd now nowBlock : String) :
    (amendRoute rt s fault user id amount description nowMs rnd now nowBlock).2.blockchain =
      s.blockchain ∨
    ∃ latest t, getLatestBlock s.blockchain = some latest ∧
      (amendRoute rt s fault user id amount description nowMs rnd now nowBlock).2.blockchain =
        { chain := s.blockchain.chain ++ [pushedBlock rt latest t nowBlock] } := by
  unfold amendRoute
  by_cases hrole : user.role = "viewer"
  · left; simp [hrole]
  · rw [if_neg hrole]
    cases hf1 : fault .getTransactionById with
    | some e => left; rfl
    | none =>
      cases hold : s.db.getTransactionById id with
      | none => left; rfl
      | some oldTransaction =>
        cases hf2 : fault .updateTransaction with
        | some e => left; rfl
        | none =>
          cases hl : getLatestBlock s.blockchain with
          | none => left; simp [createTransaction, hl]
          | some latest =>
            obtain ⟨t0, ht0, _⟩ := createTransaction_of_latest rt hl nowMs rnd now amount
              oldTransaction.fromAddress oldTransaction.toAddress
              ("[AMENDMENT] " ++ description ++ " (Ref: " ++ id ++ ")") user.name
              (some (s.blockchain.chain.length : Int))
            right
            refine ⟨latest, t0, rfl, ?_⟩
            simp only [ht0, addTransactionToBlock_of_latest rt hl]
            cases hf3 : fault .addAuditEntry <;> rfl

/-- The chain of a server reached by record and amend requests is a chain reached from
the constructor by `addTransactionToBlock`. -/
theorem FlowReachable.chain_reachable {rt : Runtime Amt} {s : Server Amt}
    (h : FlowReachable rt s) : Reachable rt s.blockchain := by
  induction h with
  | start now0 users => exact Reachable.fresh now0
  | record fault user nowMs rnd now nowBlock amount fromAddress toAddress description auditor
      _ ih =>
    rcases recordRoute_chain rt _ fault user nowMs rnd now nowBlock amount fromAddress
      toAddress description auditor with h | ⟨latest, t, hl, h⟩
    · rw [h]; exact ih
    · rw [h]; exact Reachable.add ih (addTransactionToBlock_of_latest rt hl t nowBlock)
  | amend fault user id amount description nowMs rnd now nowBlock _ ih =>
    rcases amendRoute_chain rt _ fault user id amount description nowMs rnd now nowBlock with
      h | ⟨latest, t, hl, h⟩
    · rw [h]; exact ih
    · rw [h]; exact Reachable.add ih (addTransactionToBlock_of_latest rt hl t nowBlock)

/-- In a reachable chain the index of a block is its position. -/
theorem Reachable.index_eq {rt : Runtime Amt} {bc : Blockchain Amt} (h : Reachable rt bc) :
    ∀ (i : Nat) (b : Block Amt), bc.chain[i]? = some b → b.index = i := by
  induction h with
  | fresh now =>
    intro i b hb
    cases i with
    | zero =>
      simp only [Blockchain.new, List.getElem?_cons_zero, Option.some.injEq] at hb
      rw [← hb]; rfl
    | succ n => simp [Blockchain.new] at hb
  | add hbc hadd ih =>
    rename_i bc0 bc1 tx now b0
    obtain ⟨latest, hl, hb0, hbc1⟩ := addTransactionToBlock_inv hadd
    subst hbc1
    intro i b hb
    obtain ⟨hne, hlast⟩ := getLatestBlock_eq_some_iff hl
    have hpos : 0 < bc0.chain.length := List.length_pos.mpr hne
    by_cases hlt : i < bc0.chain.length
    · rw [List.getElem?_append_left hlt] at hb
      exact ih i b hb
    · have hi : i = bc0.chain.length := by
        have := getElem?_lt_length hb
        simp only [List.length_append, List.length_singleton] at this
        omega
      subst hi
      rw [List.getElem?_concat_length] at hb
      injection hb with hb
      subst hb
      rw [hb0]
      have hli := ih _ _ hlast
      show latest.index + 1 = _
      omega

/-- The `blockIndex` the record flow assigns when every persisted `block_index` is at
least 1: the value of `getLatestBlockIndex` plus 1, above every persisted one. -/
theorem record_blockIndex_above {rt : Runtime Amt} {s : Server Amt} {nowMs : Nat}
    {rnd now : String} {amount : Amt} {fromAddress toAddress description auditor : String}
    {t : Transaction Amt}
    (hpos : ∀ x ∈ s.db.transactions.map (fun r => r.block_index), (1 : Int) ≤ x)
    (ht : createTransaction rt s.blockchain nowMs rnd now amount fromAddress toAddress
      description auditor (some (s.db.getLatestBlockIndex + 1)) = some t) :
    t.blockIndex = s.db.getLatestBlockIndex + 1 ∧ 0 ≤ s.db.getLatestBlockIndex ∧
    ∀ x ∈ s.db.transactions.map (fun r => r.block_index), x < t.blockIndex := by
  obtain ⟨hempty, hnonempty⟩ := getLatestBlockIndex_spec s.db
  have hL : 0 ≤ s.db.getLatestBlockIndex ∧
      ∀ x ∈ s.db.transactions.map (fun r => r.block_index), x ≤ s.db.getLatestBlockIndex := by
    by_cases hnil : s.db.transactions = []
    · rw [hempty hnil]
      refine ⟨le_refl 0, ?_⟩
      intro x hx
      simp [hnil] at hx
    · obtain ⟨⟨r, hr, hrL⟩, hmax⟩ := hnonempty hnil
      have h1 := hpos r.block_index (List.mem_map.mpr ⟨r, hr, rfl⟩)
      refine ⟨by omega, ?_⟩
      intro x hx
      obtain ⟨r', hr', hx'⟩ := List.mem_map.mp hx
      rw [← hx']
      exact hmax r' hr'
  have hbi := createTransaction_blockIndex ht
  have hnz : ¬ (s.db.getLatestBlockIndex + 1 = 0) := by omega
  have hval : t.blockIndex = s.db.getLatestBlockIndex + 1 := by
    rw [hbi]
    simp [blockIndexOrLength, hnz]
  refine ⟨hval, hL.1, ?_⟩
  intro x hx
  have := hL.2 x hx
  omega

theorem updateTransaction_block_index (rt : Runtime Amt) (db : Database Amt) (id : String)
    (amount : Amt)
    (description : String) :
    (db.updateTransaction rt id amount description).transactions.map (fun r => r.block_index) =
      db.transactions.map (fun r => r.block_index) := by
  simp only [Database.updateTransaction, List.map_map]
  apply List.map_congr_left
  intro r _
  simp only [Function.comp]
  split <;> rfl

/-- In every state reached by record and amend requests the persisted `block_index`
values are at least 1 and strictly increasing in table order. -/
theorem FlowReachable.db_block_index {rt : Runtime Amt} {s : Server Amt}
    (h : FlowReachable rt s) :
    (s.db.transactions.map (fun r => r.block_index)).Pairwise (fun a b => a < b) ∧
    ∀ x ∈ s.db.transactions.map (fun r => r.block_index), (1 : Int) ≤ x := by
  induction h with
  | start now0 users => simp
  | record fault user nowMs rnd now nowBlock amount fromAddress toAddress description auditor
      _ ih =>
    rename_i s0 _
    rcases recordRoute_db rt s0 fault user nowMs rnd now nowBlock amount fromAddress toAddress
      description auditor with h | ⟨t, ht, h⟩
    · rw [h]; exact ih
    · rw [h]
      obtain ⟨hval, hL, habove⟩ := record_blockIndex_above ih.2 ht
      simp only [List.map_append, List.map_cons, List.map_nil, insertedRow]
      constructor
      · rw [List.pairwise_append]
        refine ⟨ih.1, List.pairwise_singleton _ _, ?_⟩
        intro a ha b hb
        simp only [List.mem_singleton] at hb
        rw [hb]
        exact habove a ha
      · intro x hx
        rw [List.mem_append] at hx
        rcases hx with hx | hx
        · exact ih.2 x hx
        · simp only [List.mem_singleton] at hx
          rw [hx, hval]
          omega
  | amend fault user id amount description nowMs rnd now nowBlock _ ih =>
    rename_i s0 _
    rcases amendRoute_db rt s0 fault user id amount description nowMs rnd now nowBlock with
      h | h
    · rw [h]; exact ih
    · rw [h, updateTransaction_block_index]; exact ih

end FlowInvariants

end FinancialAudit

namespace FinancialAudit

section RecordOnlyInvariant

variable {Amt : Type}

/-- On a store whose `block_index` column holds `1, ..., K` in table order,
`getLatestBlockIndex` returns `K`. -/
theorem getLatestBlockIndex_of_range {db : Database Amt} {K : Nat}
    (h : db.transactions.map (fun r => r.block_index) =
      (List.range K).map (fun i : Nat => (i : Int) + 1)) :
    db.getLatestBlockIndex = (K : Int) := by
  obtain ⟨hempty, hnonempty⟩ := getLatestBlockIndex_spec db
  by_cases hnil : db.transactions = []
  · rw [hempty hnil]
    have hlen := congrArg List.length h
    simp [hnil] at hlen
    omega
  · obtain ⟨⟨r, hr, hrL⟩, hmax⟩ := hnonempty hnil
    have hmem : r.block_index ∈ (List.range K).map (fun i : Nat => (i : Int) + 1) := by
      rw [← h]; exact List.mem_map.mpr ⟨r, hr, rfl⟩
    obtain ⟨i, hi, hiL⟩ := List.mem_map.mp hmem
    rw [List.mem_range] at hi
    have hK : (K : Int) ∈ db.transactions.map (fun r => r.block_index) := by
      rw [h]
      exact List.mem_map.mpr ⟨K - 1, List.mem_range.mpr (by omega), by omega⟩
    obtain ⟨r', hr', hr'K⟩ := List.mem_map.mp hK
    have := hmax r' hr'
    omega

/-- After successful record flows alone, the chain is reachable, the persisted
`block_index` values are `1, ..., K` in table order, `K + 1` being the chain length,
and every wrapped transaction has the index of its block as `blockIndex`. -/
theorem RecordOnly.inv {rt : Runtime Amt} {s : Server Amt} (h : RecordOnly rt s) :
    Reachable rt s.blockchain ∧
    s.db.transactions.map (fun r => r.block_index) =
      (List.range (s.blockchain.chain.length - 1)).map (fun i : Nat => (i : Int) + 1) ∧
    ∀ (i : Nat) (b : Block Amt), s.blockchain.chain[i]? = some b →
      ∀ t ∈ b.transactions, t.blockIndex = (b.index : Int) := by
  induction h with
  | start now0 users =>
    refine ⟨Reachable.fresh now0, by simp [Blockchain.new], ?_⟩
    intro i b hb t ht
    cases i with
    | zero =>
      simp only [Blockchain.new, List.getElem?_cons_zero, Option.some.injEq] at hb
      rw [← hb] at ht
      simp [createGenesisBlock] at ht
    | succ n => simp [Blockchain.new] at hb
  | record fault user nowMs rnd now nowBlock amount fromAddress toAddress description auditor
      _ hroute ih =>
    rename_i s0 s1 t0 _
    obtain ⟨hreach, hrange, hwrap⟩ := ih
    obtain ⟨latest, hl, ht, _, hs1⟩ := recordRoute_ok_inv hroute
    obtain ⟨hne, hlast⟩ := getLatestBlock_eq_some_iff hl
    have hlen : 0 < s0.blockchain.chain.length := List.length_pos.mpr hne
    have hpos : ∀ x ∈ s0.db.transactions.map (fun r => r.block_index), (1 : Int) ≤ x := by
      intro x hx
      rw [hrange] at hx
      obtain ⟨i, _, hi⟩ := List.mem_map.mp hx
      omega
    obtain ⟨hval, _, _⟩ := record_blockIndex_above hpos ht
    rw [getLatestBlockIndex_of_range hrange] at hval
    have hlatest : latest.index = s0.blockchain.chain.length - 1 := hreach.index_eq _ _ hlast
    subst hs1
    refine ⟨Reachable.add hreach (addTransactionToBlock_of_latest rt hl t0 nowBlock), ?_, ?_⟩
    · simp only [List.map_append, List.map_cons, List.map_nil, List.length_append,
        List.length_singleton, Nat.add_sub_cancel, insertedRow, hrange]
      have hsucc : s0.blockchain.chain.length = (s0.blockchain.chain.length - 1) + 1 := by omega
      conv_rhs => rw [hsucc, List.range_succ, List.map_append]
      simp only [List.map_cons, List.map_nil, hval]
    · intro i b hb t ht'
      by_cases hlt : i < s0.blockchain.chain.length
      · rw [List.getElem?_append_left hlt] at hb
        exact hwrap i b hb t ht'
      · have hi : i = s0.blockchain.chain.length := by
          have := getElem?_lt_length hb
          simp only [List.length_append, List.length_singleton] at this
          omega
        subst hi
        rw [List.getElem?_concat_length] at hb
        injection hb with hb
        subst hb
        simp only [pushedBlock, List.mem_singleton] at ht'
        subst ht'
        show t.blockIndex = ((latest.index + 1 : Nat) : Int)
        rw [hval, hlatest]
        omega

end RecordOnlyInvariant

end FinancialAudit

namespace FinancialAudit

section BlockIndexClaims

variable {Amt : Type}

theorem exists_ok_of_isSome {ε α β : Type} (r : Except ε α × β)
    (h : r.1.toOption.isSome = true) : ∃ t s', r = (.ok t, s') := by
  obtain ⟨e, s⟩ := r
  cases e with
  | error err => simp [Except.toOption] at h
  | ok t => exact ⟨t, s, rfl⟩

theorem amend_blockIndex {rt : Runtime Amt} {s s' : Server Amt}
    {fault : DbCall → Option String} {user : User} {id : String} {amount : Amt}
    {description : String} {nowMs : Nat} {rnd now nowBlock : String} {r : Transaction Amt}
    (h : amendRoute rt s fault user id amount description nowMs rnd now nowBlock = (.ok r, s')) :
    ∃ latest b amendment, getLatestBlock s.blockchain = some latest ∧
      getLatestBlock s'.blockchain = some b ∧ b.transactions = [amendment] ∧
      b.index = latest.index + 1 ∧
      amendment.blockIndex = (s.blockchain.chain.length : Int) := by
  obtain ⟨old, latest, t, _, hl, ht, _, hs'⟩ := amendRoute_ok_inv h
  have hne : s.blockchain.chain ≠ [] := (getLatestBlock_eq_some_iff hl).1
  have hlen : 0 < s.blockchain.chain.length := List.length_pos.mpr hne
  have hnz : ¬ ((s.blockchain.chain.length : Int) = 0) := by omega
  refine ⟨latest, pushedBlock rt latest t nowBlock, t, hl, ?_, rfl, rfl, ?_⟩
  · rw [hs']
    exact getLatestBlock_append _ _
  · rw [createTransaction_blockIndex ht]
    simp [blockIndexOrLength, hnz]

/-- The record handler that no other request overlaps is the composition of its four
stretches on one state. -/
theorem recordRoute_eq_stretches (rt : Runtime Amt) (s : Server Amt)
    (fault : DbCall → Option String) (user : User) (nowMs : Nat) (rnd now nowBlock : String)
    (amount : Amt) (fromAddress toAddress description auditor : String) :
    recordRoute rt s fault user nowMs rnd now nowBlock amount fromAddress toAddress
        description auditor =
      match recordSelect s fault with
      | .error e => (.error e, s)
      | .ok latestBlockIndex =>
        match recordAppend rt s latestBlockIndex nowMs rnd now nowBlock amount fromAddress
            toAddress description auditor with
        | (.error e, s1) => (.error e, s1)
        | (.ok transaction, s1) =>
          match recordInsert s1 fault user transaction with
          | (.error e, s2) => (.error e, s2)
          | (.ok _, s2) => (recordAnswer fault transaction, s2) := by
  unfold recordRoute recordSelect
  cases fault .getLatestBlockIndex with
  | some e => rfl
  | none =>
    simp only [recordAppend]
    cases createTransaction rt s.blockchain nowMs rnd now amount fromAddress toAddress
        description auditor (some (s.db.getLatestBlockIndex + 1)) with
    | none => rfl
    | some transaction =>
      simp only
      cases addTransactionToBlock rt s.blockchain transaction nowBlock with
      | none => rfl
      | some p =>
        obtain ⟨blockchain', b⟩ := p
        simp only [recordInsert]
        cases fault .insertTransaction with
        | some e => rfl
        | none =>
          simp only
          cases Database.insertTransaction s.db transaction (some user.id) with
          | error e => rfl
          | ok db' =>
            simp only [recordAnswer]
            cases fault .addAuditEntry with
            | some e => rfl
            | none => rfl

/-- The transaction a record handler creates on resumption carries the value its
query returned plus one, on whatever chain the handler resumes. -/
theorem recordAppend_blockIndex {rt : Runtime Amt} {s s' : Server Amt} {latestBlockIndex : Int}
    {nowMs : Nat} {rnd now nowBlock : String} {amount : Amt}
    {fromAddress toAddress description auditor : String} {t : Transaction Amt}
    (h : recordAppend rt s latestBlockIndex nowMs rnd now nowBlock amount fromAddress toAddress
      description auditor = (.ok t, s'))
    (hnz : latestBlockIndex + 1 ≠ 0) : t.blockIndex = latestBlockIndex + 1 := by
  unfold recordAppend at h
  cases ht : createTransaction rt s.blockchain nowMs rnd now amount fromAddress toAddress
      description auditor (some (latestBlockIndex + 1)) with
  | none => simp [ht] at h
  | some transaction =>
    simp only [ht] at h
    cases hadd : addTransactionToBlock rt s.blockchain transaction nowBlock with
    | none => simp [hadd] at h
    | some p =>
      simp only [hadd, Prod.mk.injEq, Except.ok.injEq] at h
      rw [← h.1, createTransaction_blockIndex ht]
      simp [blockIndexOrLength, hnz]

/-- C15, amended. The handler of a record request resumes with the value
`getLatestBlockIndex()` read from the record store when its query ran, and the
transaction it then creates is given that value plus one as `blockIndex`, whatever the
state and the length of the in-memory chain at that moment. In every state reached from
a start on an empty record store by record and amend requests handled one after
another: the persisted `blockIndex` values are strictly increasing in table order, so
no two persisted transactions share one; the transaction of a successful record flow is
given `blockIndex` = `getLatestBlockIndex()` + 1, which is 1 on an empty store and
otherwise one more than the maximum persisted `blockIndex`, whatever the length of the
in-memory chain, and is above every persisted `blockIndex`; the amendment transaction
of a successful amend is given as `blockIndex` the length of the in-memory chain before
the amend. -/
theorem blockIndex_assignment (rt : Runtime Amt) (s : Server Amt)
    (hs : FlowReachable rt s) :
    (∀ (s0 : Server Amt) (fault : DbCall → Option String) (latestBlockIndex : Int),
      recordSelect s0 fault = .ok latestBlockIndex →
      latestBlockIndex = s0.db.getLatestBlockIndex) ∧
    (∀ (s0 s1 : Server Amt) (latestBlockIndex : Int) (nowMs : Nat) (rnd now nowBlock : String)
        (amount : Amt) (fromAddress toAddress description auditor : String)
        (t : Transaction Amt),
      recordAppend rt s0 latestBlockIndex nowMs rnd now nowBlock amount fromAddress toAddress
        description auditor = (.ok t, s1) →
      latestBlockIndex + 1 ≠ 0 → t.blockIndex = latestBlockIndex + 1) ∧
    (s.db.transactions.map (fun r => r.block_index)).Pairwise (fun a b => a < b) ∧
    (∀ (fault : DbCall → Option String) (user : User) (nowMs : Nat)
        (rnd now nowBlock : String) (amount : Amt)
        (fromAddress toAddress description auditor : String) (t : Transaction Amt)
        (s' : Server Amt),
      recordRoute rt s fault user nowMs rnd now nowBlock amount fromAddress toAddress
        description auditor = (.ok t, s') →
      t.blockIndex = s.db.getLatestBlockIndex + 1 ∧
      (s.db.transactions = [] → t.blockIndex = 1) ∧
      (s.db.transactions ≠ [] →
        ∃ r ∈ s.db.transactions, t.blockIndex = r.block_index + 1 ∧
          ∀ r' ∈ s.db.transactions, r'.block_index ≤ r.block_index) ∧
      (∀ r ∈ s.db.transactions, r.block_index < t.blockIndex)) ∧
    (∀ (fault : DbCall → Option String) (user : User) (id : String) (amount : Amt)
        (description : String) (nowMs : Nat) (rnd now nowBlock : String)
        (r : Transaction Amt) (s' : Server Amt),
      amendRoute rt s fault user id amount description nowMs rnd now nowBlock = (.ok r, s') →
      ∃ b amendment, getLatestBlock s'.blockchain = some b ∧ b.transactions = [amendment] ∧
        amendment.blockIndex = (s.blockchain.chain.length : Int)) := by
  obtain ⟨hpair, hpos⟩ := hs.db_block_index
  refine ⟨?_, ?_, hpair, ?_, ?_⟩
  · intro s0 fault latestBlockIndex hsel
    unfold recordSelect at hsel
    cases hf : fault .getLatestBlockIndex with
    | some e => simp [hf] at hsel
    | none =>
      simp only [hf, Except.ok.injEq] at hsel
      exact hsel.symm
  · intro s0 s1 latestBlockIndex nowMs rnd now nowBlock amount fromAddress toAddress
      description auditor t happ hnz
    exact recordAppend_blockIndex happ hnz
  · intro fault user nowMs rnd now nowBlock amount fromAddress toAddress description auditor t
      s' hroute
    obtain ⟨latest, _, ht, _, _⟩ := recordRoute_ok_inv hroute
    obtain ⟨hval, _, habove⟩ := record_blockIndex_above hpos ht
    obtain ⟨hempty, hnonempty⟩ := getLatestBlockIndex_spec s.db
    refine ⟨hval, ?_, ?_, ?_⟩
    · intro hnil
      rw [hval, hempty hnil]
      rfl
    · intro hnil
      obtain ⟨⟨r, hr, hrL⟩, hmax⟩ := hnonempty hnil
      refine ⟨r, hr, by rw [hval, hrL], ?_⟩
      intro r' hr'
      rw [hrL]
      exact hmax r' hr'
    · intro r hr
      exact habove _ (List.mem_map.mpr ⟨r, hr, rfl⟩)
  · intro fault user id amount description nowMs rnd now nowBlock r s' hroute
    obtain ⟨_, b, amendment, _, hb, htx, _, hbi⟩ := amend_blockIndex hroute
    exact ⟨b, amendment, hb, htx, hbi⟩

/-- Witness of the amended C15: the state `demoServer1`, after one record request, and
the record request that follows it once the first is answered. -/
theorem blockIndex_assignment_witness :
    FlowReachable demoRuntime demoServer1 ∧
    ∃ t s', recordRoute demoRuntime demoServer1 noFault demoUser 1700000009000 "ghi789rst"
        "2024-01-01T00:00:09.000Z" "2024-01-01T00:00:10.000Z" 50 "C" "D" "second" "aud1" =
        (.ok t, s') ∧
      t.blockIndex = demoServer1.db.getLatestBlockIndex + 1 := by
  have hreach : FlowReachable demoRuntime demoServer1 :=
    FlowReachable.record noFault demoUser 1700000000000 "abc123xyz" "2024-01-01T00:00:01.000Z"
      "2024-01-01T00:00:02.000Z" 100 "A" "B" "test" "aud1"
      (FlowReachable.start "2024-01-01T00:00:00.000Z" [{ id := 1, name := "Administrator" }])
  obtain ⟨t, s', h⟩ := exists_ok_of_isSome
    (recordRoute demoRuntime demoServer1 noFault demoUser 1700000009000 "ghi789rst"
      "2024-01-01T00:00:09.000Z" "2024-01-01T00:00:10.000Z" 50 "C" "D" "second" "aud1")
    (by decide)
  exact ⟨hreach, t, s', h,
    ((blockIndex_assignment demoRuntime demoServer1 hreach).2.2.2.1 noFault demoUser 1700000009000
      "ghi789rst" "2024-01-01T00:00:09.000Z" "2024-01-01T00:00:10.000Z" 50 "C" "D" "second"
      "aud1" t s' h).1⟩

/-- C16, amended. In every state reached from a start on an empty record store by
successful record requests alone, handled one after another, each transaction wrapped
by a block has as `blockIndex` the index of that block, which is the position of the
block in the chain. On every chain built by the constructor and
`addTransactionToBlock`, which the chain of the server is after any requests, the
amendment transaction of a successful amend has as `blockIndex` the index of the block
that wraps it, which is the position of that block: the amend handler reads the chain
length and pushes the block without an `await` in between. -/
theorem blockIndex_is_block_index (rt : Runtime Amt) (s : Server Amt) :
    (RecordOnly rt s →
      ∀ (i : Nat) (b : Block Amt) (t : Transaction Amt), s.blockchain.chain[i]? = some b →
        t ∈ b.transactions → t.blockIndex = (b.index : Int) ∧ b.index = i) ∧
    (Reachable rt s.blockchain →
      ∀ (fault : DbCall → Option String) (user : User) (id : String) (amount : Amt)
        (description : String) (nowMs : Nat) (rnd now nowBlock : String)
        (r : Transaction Amt) (s' : Server Amt),
      amendRoute rt s fault user id amount description nowMs rnd now nowBlock = (.ok r, s') →
      ∃ b amendment, getLatestBlock s'.blockchain = some b ∧ b.transactions = [amendment] ∧
        amendment.blockIndex = (b.index : Int) ∧ b.index = s.blockchain.chain.length ∧
        s'.blockchain.chain[s.blockchain.chain.length]? = some b) := by
  constructor
  · intro hs i b t hb ht
    obtain ⟨hreach, _, hwrap⟩ := hs.inv
    exact ⟨hwrap i b hb t ht, hreach.index_eq i b hb⟩
  · intro hs fault user id amount description nowMs rnd now nowBlock r s' hroute
    obtain ⟨latest, b, amendment, hl, hb, htx, hidx, hbi⟩ := amend_blockIndex hroute
    obtain ⟨hne, hlast⟩ := getLatestBlock_eq_some_iff hl
    have hlen : 0 < s.blockchain.chain.length := List.length_pos.mpr hne
    have hlatest : latest.index = s.blockchain.chain.length - 1 :=
      hs.index_eq _ _ hlast
    have hbidx : b.index = s.blockchain.chain.length := by omega
    refine ⟨b, amendment, hb, htx, ?_, hbidx, ?_⟩
    · rw [hbi, hbidx]
    · obtain ⟨_, latest', t', _, hl', _, _, hs'⟩ := amendRoute_ok_inv hroute
      rw [hs'] at hb ⊢
      rw [getLatestBlock_append] at hb
      injection hb with hb
      rw [← hb]
      exact List.getElem?_concat_length _ _

/-- Witness of the amended C16: the state `demoServer1`, after one successful record
request; its block 1 wraps the transaction of `blockIndex` 1. -/
theorem blockIndex_is_block_index_witness :
    RecordOnly demoRuntime demoServer1 ∧
    ∀ (i : Nat) (b : Block Nat) (t : Transaction Nat), demoServer1.blockchain.chain[i]? = some b →
      t ∈ b.transactions → t.blockIndex = (b.index : Int) ∧ b.index = i := by
  obtain ⟨t, s', h⟩ := exists_ok_of_isSome
    (recordRoute demoRuntime demoServer0 noFault demoUser 1700000000000 "abc123xyz"
      "2024-01-01T00:00:01.000Z" "2024-01-01T00:00:02.000Z" 100 "A" "B" "test" "aud1")
    (by decide)
  have hs' : s' = demoServer1 := (congrArg Prod.snd h).symm
  have hreach : RecordOnly demoRuntime demoServer1 := by
    rw [← hs']
    exact RecordOnly.record noFault demoUser 1700000000000 "abc123xyz"
      "2024-01-01T00:00:01.000Z" "2024-01-01T00:00:02.000Z" 100 "A" "B" "test" "aud1"
      (RecordOnly.start "2024-01-01T00:00:00.000Z" [{ id := 1, name := "Administrator" }]) h
  exact ⟨hreach, (blockIndex_is_block_index demoRuntime demoServer1).1 hreach⟩

end BlockIndexClaims

end FinancialAudit

namespace FinancialAudit

section Shape

variable {Amt : Type}

/-- A reachable chain is the genesis block followed by blocks that each wrap exactly
one transaction and have nonce 0. -/
theorem Reachable.shape {rt : Runtime Amt} {bc : Blockchain Amt} (h : Reachable rt bc) :
    ∃ (now0 : String) (rest : List (Block Amt)),
      bc.chain = createGenesisBlock rt now0 :: rest ∧
      ∀ b ∈ rest, (∃ t, b.transactions = [t]) ∧ b.nonce = 0 := by
  induction h with
  | fresh now => exact ⟨now, [], rfl, by simp⟩
  | add hbc hadd ih =>
    obtain ⟨now0, rest, hchain, hrest⟩ := ih
    obtain ⟨latest, _, hb, hbc'⟩ := addTransactionToBlock_inv hadd
    subst hbc'
    refine ⟨now0, rest ++ [_], by rw [hchain]; rfl, ?_⟩
    intro b hmem
    rw [List.mem_append] at hmem
    rcases hmem with hmem | hmem
    · exact hrest b hmem
    · simp only [List.mem_singleton] at hmem
      subst hmem
      subst hb
      exact ⟨⟨_, rfl⟩, rfl⟩

/-- C26 (one transaction per block). In every chain reached from a fresh `Blockchain`
by `addTransactionToBlock`, the genesis block wraps no transaction, every block after
it wraps exactly one transaction and has nonce 0, `getAllTransactions()` lists the
wrapped transactions in block order, one for each block after the genesis block, and
`getChainInfo()` has `totalTransactions = length - 1`. -/
theorem one_transaction_per_block (rt : Runtime Amt) (bc : Blockchain Amt)
    (hbc : Reachable rt bc) :
    (∃ g, bc.chain[0]? = some g ∧ g.transactions = [] ∧ g.nonce = 0) ∧
    (∀ (i : Nat) (b : Block Amt), 1 ≤ i → bc.chain[i]? = some b →
      (∃ t, b.transactions = [t]) ∧ b.nonce = 0) ∧
    (bc.chain.drop 1).map (fun b => b.transactions) =
      (getAllTransactions bc).map (fun t => [t]) ∧
    (∀ (i : Nat) (t : Transaction Amt), (getAllTransactions bc)[i]? = some t →
      (bc.chain[i + 1]?).map (fun b => b.transactions) = some [t]) ∧
    (getChainInfo rt bc).totalTransactions = (getChainInfo rt bc).length - 1 ∧
    (getChainInfo rt bc).totalTransactions + 1 = (getChainInfo rt bc).length := by
  obtain ⟨now0, rest, hchain, hrest⟩ := hbc.shape
  have hsingle : rest.map (fun b => b.transactions) =
      ((rest.map (fun b => b.transactions)).flatten).map (fun t => [t]) := by
    clear hchain
    induction rest with
    | nil => rfl
    | cons b tl ih =>
      obtain ⟨⟨t, ht⟩, _⟩ := hrest b (List.mem_cons_self _ _)
      have ih' := ih (fun b' hb' => hrest b' (List.mem_cons_of_mem _ hb'))
      simp only [List.map_cons, ht, List.flatten_cons, List.singleton_append]
      rw [← ih']
  have hall : getAllTransactions bc = (rest.map (fun b => b.transactions)).flatten := by
    rw [getAllTransactions_eq_flatten, hchain]
    simp [createGenesisBlock]
  have hdrop : (bc.chain.drop 1).map (fun b => b.transactions) =
      (getAllTransactions bc).map (fun t => [t]) := by
    rw [hchain, List.drop_one, List.tail_cons, hall]
    exact hsingle
  have hlen : (getAllTransactions bc).length + 1 = bc.chain.length := by
    have h1 := congrArg List.length hdrop
    simp only [List.length_map, List.length_drop] at h1
    have h2 : 0 < bc.chain.length := List.length_pos.mpr hbc.ne_nil
    omega
  refine ⟨⟨createGenesisBlock rt now0, by rw [hchain]; simp, rfl, rfl⟩, ?_, hdrop, ?_, ?_, ?_⟩
  · intro i b hi hb
    rw [hchain] at hb
    obtain ⟨j, rfl⟩ : ∃ j, i = j + 1 := ⟨i - 1, by omega⟩
    rw [List.getElem?_cons_succ] at hb
    exact hrest b (List.getElem?_mem hb)
  · intro i t hi
    have hmap := congrArg (fun l => l[i]?) hdrop
    simp only [List.getElem?_map, hi, Option.map_some', List.getElem?_drop] at hmap
    rw [Nat.add_comm]
    exact hmap
  · show (getAllTransactions bc).length = bc.chain.length - 1
    omega
  · exact hlen

/-- Witness of C26 on the two-block chain `demoChain2`. -/
theorem one_transaction_per_block_witness :
    Reachable demoRuntime demoChain2 ∧
    (getChainInfo demoRuntime demoChain2).totalTransactions =
      (getChainInfo demoRuntime demoChain2).length - 1 :=
  have hreach : Reachable demoRuntime demoChain2 :=
    Reachable.add (Reachable.fresh _) (addTransactionToBlock_of_latest demoRuntime (by decide) _ _)
  ⟨hreach, (one_transaction_per_block demoRuntime demoChain2 hreach).2.2.2.2.1⟩

/-- C27 (chain shape). In every chain reached from a fresh `Blockchain` by
`addTransactionToBlock`: the chain is not empty and `getLatestBlock()` is defined;
`chain[0]` is the genesis block, with index 0, previousHash `0` and no transaction;
the block at every position `i` has index `i`, so each block has the index of the block
before it plus one. -/
theorem chain_shape (rt : Runtime Amt) (bc : Blockchain Amt) (hbc : Reachable rt bc) :
    bc.chain ≠ [] ∧ 0 < bc.chain.length ∧
    (∃ latest, getLatestBlock bc = some latest) ∧
    (∃ now0, bc.chain[0]? = some (createGenesisBlock rt now0)) ∧
    (∃ g, bc.chain[0]? = some g ∧ g.index = 0 ∧ g.previousHash = "0" ∧ g.transactions = [] ∧
      g.hash = rt.digest "genesis_block") ∧
    (∀ (i : Nat) (b : Block Amt), bc.chain[i]? = some b → b.index = i) ∧
    (∀ (i : Nat) (b b' : Block Amt), bc.chain[i]? = some b → bc.chain[i + 1]? = some b' →
      b'.index = b.index + 1) := by
  obtain ⟨now0, rest, hchain, _⟩ := hbc.shape
  have hg : bc.chain[0]? = some (createGenesisBlock rt now0) := by rw [hchain]; simp
  refine ⟨hbc.ne_nil, List.length_pos.mpr hbc.ne_nil, getLatestBlock_isSome_of_ne_nil bc hbc.ne_nil,
    ⟨now0, hg⟩, ⟨_, hg, rfl, rfl, rfl, rfl⟩, hbc.index_eq, ?_⟩
  intro i b b' hb hb'
  rw [hbc.index_eq i b hb, hbc.index_eq (i + 1) b' hb']

/-- Witness of C27 on the two-block chain `demoChain2`. -/
theorem chain_shape_witness :
    Reachable demoRuntime demoChain2 ∧
    ∀ (i : Nat) (b : Block Nat), demoChain2.chain[i]? = some b → b.index = i :=
  have hreach : Reachable demoRuntime demoChain2 :=
    Reachable.add (Reachable.fresh _) (addTransactionToBlock_of_latest demoRuntime (by decide) _ _)
  ⟨hreach, (chain_shape demoRuntime demoChain2 hreach).2.2.2.2.2.1⟩

theorem blockData_genesis_ne (rt : Runtime Amt) (now : String) :
    blockData rt (createGenesisBlock rt now) ≠ "genesis_block" := by
  intro h
  have hd := congrArg String.data h
  simp only [blockData, createGenesisBlock, String.data_append] at hd
  have h0 : (toString (0 : Nat)).data = ['0'] := by decide
  rw [h0] at hd
  have hhead := congrArg List.head? hd
  simp at hhead

/-- C29 (the genesis hash is a constant). Whatever the time of construction,
`createGenesisBlock` sets `hash` to the digest of the text `genesis_block`; two
`Blockchain` instances have the same genesis hash; the transaction created on a chain
holding only the genesis block has that digest as `previousHash`; the string the
block-hash formula builds from the fields of the genesis block is not that text, so the
genesis hash differs from the formula's digest wherever the digest does not collide on
the two strings. -/
theorem genesis_hash_constant (rt : Runtime Amt) (now now' : String) :
    (createGenesisBlock rt now).hash = rt.digest "genesis_block" ∧
    (createGenesisBlock rt now).hash = (createGenesisBlock rt now').hash ∧
    (Blockchain.new rt now).chain.map (fun b => b.hash) =
      (Blockchain.new rt now').chain.map (fun b => b.hash) ∧
    (∀ (nowMs : Nat) (rnd nowTx : String) (amount : Amt)
        (fromAddress toAddress description auditor : String) (blockIndex : Option Int),
      ∃ t, createTransaction rt (Blockchain.new rt now) nowMs rnd nowTx amount fromAddress
          toAddress description auditor blockIndex = some t ∧
        t.previousHash = some (rt.digest "genesis_block")) ∧
    blockData rt (createGenesisBlock rt now) =
      "0" ++ "0" ++ rt.jsonStringify [] ++ now ++ "0" ∧
    blockData rt (createGenesisBlock rt now) ≠ "genesis_block" ∧
    (NoCollision rt.digest (blockData rt (createGenesisBlock rt now)) "genesis_block" →
      (createGenesisBlock rt now).hash ≠
        calculateHash rt (blockData rt (createGenesisBlock rt now))) := by
  refine ⟨rfl, rfl, rfl, ?_, ?_, blockData_genesis_ne rt now, ?_⟩
  · intro nowMs rnd nowTx amount fromAddress toAddress description auditor blockIndex
    have hl : getLatestBlock (Blockchain.new rt now) = some (createGenesisBlock rt now) := by
      simp [getLatestBlock, Blockchain.new]
    obtain ⟨t, ht, hp, _⟩ := createTransaction_of_latest rt hl nowMs rnd nowTx amount
      fromAddress toAddress description auditor blockIndex
    exact ⟨t, ht, hp⟩
  · have h0 : toString (0 : Nat) = "0" := by decide
    simp only [blockData, createGenesisBlock, h0]
  · intro hcol heq
    exact blockData_genesis_ne rt now (hcol heq.symm)

end Shape

end FinancialAudit

namespace FinancialAudit

section Verify

variable {Amt : Type}

theorem checkIntegrity_congr (rt : Runtime Amt) {t t' : Transaction Amt}
    (h : { t' with extra := none } = { t with extra := none }) :
    checkIntegrity rt t' = checkIntegrity rt t := by
  simp only [Transaction.mk.injEq, and_true] at h
  obtain ⟨hid, hamount, hfrom, hto, hdesc, haud, hts, hbi, hhash, hprev⟩ := h
  simp only [checkIntegrity, validateHashData, hid, hamount, hfrom, hto, hdesc, haud, hts, hbi,
    hhash, hprev]

theorem verifyTransaction_getElem? (db : Database Amt) (id : String) (userId : Nat)
    (nowSql : String) (i : Nat) :
    (db.verifyTransaction id userId nowSql).transactions[i]? =
      (db.transactions[i]?).map
        (fun r => if r.id == id then
            { r with status := some "Verified", verified_by := some userId,
                     verified_at := some nowSql }
          else r) := by
  simp [Database.verifyTransaction]

/-- The object read back after `verifyTransaction` differs from the one read before in
the verification properties at most. -/
theorem getTransactionById_verifyTransaction (db : Database Amt) (id : String) (userId : Nat)
    (nowSql : String) (id' : String) :
    (db.getTransactionById id' = none ∧
      (db.verifyTransaction id userId nowSql).getTransactionById id' = none) ∨
    ∃ t t', db.getTransactionById id' = some t ∧
      (db.verifyTransaction id userId nowSql).getTransactionById id' = some t' ∧
      { t' with extra := none } = { t with extra := none } := by
  simp only [Database.getTransactionById, Database.verifyTransaction]
  rw [find_map_of_pred_inv]
  · cases hf : db.transactions.find? (fun r => r.id == id') with
    | none => left; simp
    | some r =>
      right
      refine ⟨_, _, rfl, rfl, ?_⟩
      by_cases hr : (r.id == id) = true
      · simp [hr, rowToTransaction]
      · simp [hr, rowToTransaction]
  · intro x
    by_cases hx : (x.id == id) = true
    · simp [hx]
    · simp [hx]

theorem validateRoute_verifyTransaction (rt : Runtime Amt) (db : Database Amt) (id : String)
    (userId : Nat) (nowSql : String) (id' : String) :
    validateRoute rt (db.verifyTransaction id userId nowSql) id' = validateRoute rt db id' := by
  rcases getTransactionById_verifyTransaction db id userId nowSql id' with
    ⟨h1, h2⟩ | ⟨t, t', h1, h2, h3⟩
  · simp only [validateRoute, h1, h2]
  · simp only [validateRoute, h1, h2, checkIntegrity_congr rt h3]

/-- Whatever the outcome of a verify request, the chain is unchanged and the record
store is the one before or the one `verifyTransaction` leaves. -/
theorem verifyRoute_state (s : Server Amt) (fault : DbCall → Option String) (user : User)
    (id : String) (nowSql : String) :
    (verifyRoute s fault user id nowSql).2.blockchain = s.blockchain ∧
    ((verifyRoute s fault user id nowSql).2.db = s.db ∨
      (verifyRoute s fault user id nowSql).2.db = s.db.verifyTransaction id user.id nowSql) := by
  unfold verifyRoute
  split
  · exact ⟨rfl, Or.inl rfl⟩
  · split
    · exact ⟨rfl, Or.inl rfl⟩
    · split
      · exact ⟨rfl, Or.inl rfl⟩
      · split
        · exact ⟨rfl, Or.inl rfl⟩
        · split
          · exact ⟨rfl, Or.inl rfl⟩
          · split
            · exact ⟨rfl, Or.inr rfl⟩
            · exact ⟨rfl, Or.inr rfl⟩

/-- C25 (status verification is orthogonal to hash integrity).
`database.verifyTransaction` keeps the users and the number and order of the records;
each record keeps its id, amount, from, to, description, auditor, timestamp,
blockIndex, hash and previousHash; a record with another id is unchanged, the records
with the given id take status `Verified`, the verifier and the time. The answer of the
validate route for every id is the same after `verifyTransaction` as before, and the
same after a verify request, whatever its outcome, as before it. -/
theorem status_verification_orthogonal (rt : Runtime Amt) (s : Server Amt)
    (fault : DbCall → Option String) (user : User) (id : String) (nowSql : String) :
    (s.db.verifyTransaction id user.id nowSql).users = s.db.users ∧
    (s.db.verifyTransaction id user.id nowSql).transactions.length =
      s.db.transactions.length ∧
    (∀ (i : Nat) (r : Row Amt), s.db.transactions[i]? = some r →
      ∃ r', (s.db.verifyTransaction id user.id nowSql).transactions[i]? = some r' ∧
        r'.id = r.id ∧ r'.amount = r.amount ∧ r'.from_address = r.from_address ∧
        r'.to_address = r.to_address ∧ r'.description = r.description ∧
        r'.auditor = r.auditor ∧ r'.timestamp = r.timestamp ∧
        r'.block_index = r.block_index ∧ r'.hash = r.hash ∧
        r'.previous_hash = r.previous_hash ∧ r'.created_by = r.created_by ∧
        (r.id = id → r'.status = some "Verified" ∧ r'.verified_by = some user.id ∧
          r'.verified_at = some nowSql) ∧
        (r.id ≠ id → r' = r)) ∧
    (∀ id', validateRoute rt (s.db.verifyTransaction id user.id nowSql) id' =
      validateRoute rt s.db id') ∧
    (∀ id', validateRoute rt (verifyRoute s fault user id nowSql).2.db id' =
      validateRoute rt s.db id') ∧
    (∀ msg s', verifyRoute s fault user id nowSql = (.ok msg, s') →
      s'.db = s.db.verifyTransaction id user.id nowSql ∧ s'.blockchain = s.blockchain) := by
  refine ⟨rfl, by simp [Database.verifyTransaction], ?_,
    validateRoute_verifyTransaction rt s.db id user.id nowSql, ?_, ?_⟩
  · intro i r hr
    rw [verifyTransaction_getElem?, hr]
    by_cases hid : r.id = id
    · refine ⟨{ r with status := some "Verified", verified_by := some user.id,
                       verified_at := some nowSql }, by simp [hid], rfl, rfl, rfl, rfl, rfl,
        rfl, rfl, rfl, rfl, rfl, rfl, fun _ => ⟨rfl, rfl, rfl⟩, fun h => absurd hid h⟩
    · exact ⟨r, by simp [hid], rfl, rfl, rfl, rfl, rfl, rfl, rfl, rfl, rfl, rfl, rfl,
        fun h => absurd h hid, fun _ => rfl⟩
  · intro id'
    rcases (verifyRoute_state s fault user id nowSql).2 with h | h
    · rw [h]
    · rw [h]
      exact validateRoute_verifyTransaction rt s.db id user.id nowSql id'
  · intro msg s' h
    unfold verifyRoute at h
    split at h
    · simp at h
    · split at h
      · simp at h
      · split at h
        · simp at h
        · split at h
          · simp at h
          · split at h
            · simp at h
            · split at h
              · simp at h
              · simp only [Prod.mk.injEq, Except.ok.injEq] at h
                rw [← h.2]
                exact ⟨rfl, rfl⟩

theorem getTransactionById_none_of_unknown {db : Database Amt} {id : String}
    (h : ∀ r ∈ db.transactions, r.id ≠ id) : db.getTransactionById id = none := by
  simp only [Database.getTransactionById, Option.map_eq_none', List.find?_eq_none]
  intro r hr
  simpa using h r hr

/-- C23, counterexample. On the server `demoServer1`, whose record store holds one
transaction, the id `tx_unknown` names no persisted transaction; the amend request of
a viewer for it is answered with status 403, and so is the verify request of an
auditor, not with `Transaction not found`. -/
theorem unknown_id_forbidden_first :
    demoServer1.db.transactions.map (fun r => decide (r.id = "tx_unknown")) = [false] ∧
    ((amendRoute demoRuntime demoServer1 noFault { id := 2, name := "Val", role := "viewer" }
        "tx_unknown" 200 "fix" 1700000005000 "def456uvw" "2024-01-01T00:00:05.000Z"
        "2024-01-01T00:00:06.000Z").1.toOption.isSome = false ∧
      amendRoute demoRuntime demoServer1 noFault { id := 2, name := "Val", role := "viewer" }
        "tx_unknown" 200 "fix" 1700000005000 "def456uvw" "2024-01-01T00:00:05.000Z"
        "2024-01-01T00:00:06.000Z" =
      (.error (403, "Viewers are not allowed to edit transactions."), demoServer1)) ∧
    verifyRoute demoServer1 noFault { id := 3, name := "Aud", role := "auditor" } "tx_unknown"
        "2024-01-01 00:00:07" =
      (.error (403, "Only Managers can verify transactions."), demoServer1) := by
  refine ⟨by decide, ⟨rfl, rfl⟩, rfl⟩

/-- C23, amended. Let the id name no persisted transaction. The amend request and the
verify request leave the in-memory chain and the record store as they were, whoever
sends them and whatever fails. When the lookup of the id does not fail, the amend
request of a user who is not a viewer, and the verify request of a manager or an admin,
are answered with status 404 and `Transaction not found`. -/
theorem unknown_id_rejected (rt : Runtime Amt) (s : Server Amt)
    (fault : DbCall → Option String) (user : User) (id : String)
    (hunknown : ∀ r ∈ s.db.transactions, r.id ≠ id) (amount : Amt) (description : String)
    (nowMs : Nat) (rnd now nowBlock nowSql : String) :
    (amendRoute rt s fault user id amount description nowMs rnd now nowBlock).2 = s ∧
    (verifyRoute s fault user id nowSql).2 = s ∧
    (user.role ≠ "viewer" → fault .getTransactionById = none →
      (amendRoute rt s fault user id amount description nowMs rnd now nowBlock).1 =
        .error (404, "Transaction not found")) ∧
    (user.role = "manager" ∨ user.role = "admin" → fault .getTransactionById = none →
      (verifyRoute s fault user id nowSql).1 = .error (404, "Transaction not found")) := by
  have hnone := getTransactionById_none_of_unknown hunknown
  refine ⟨?_, ?_, ?_, ?_⟩
  · unfold amendRoute
    split
    · rfl
    · split
      · rfl
      · simp only [hnone]
  · unfold verifyRoute
    split
    · rfl
    · split
      · rfl
      · simp only [hnone]
  · intro hrole hf
    simp only [amendRoute, if_neg hrole, hf, hnone]
  · intro hrole hf
    have hgate : ¬ (user.role ≠ "manager" ∧ user.role ≠ "admin") := by
      rcases hrole with h | h
      · exact fun hh => hh.1 h
      · exact fun hh => hh.2 h
    simp only [verifyRoute, if_neg hgate, hf, hnone]

/-- Witness of the amended C23: the admin `demoUser` sends both requests for the id
`tx_unknown` to `demoServer1`. -/
theorem unknown_id_rejected_witness :
    (∀ r ∈ demoServer1.db.transactions, r.id ≠ "tx_unknown") ∧
    (amendRoute demoRuntime demoServer1 noFault demoUser "tx_unknown" 200 "fix" 1700000005000
      "def456uvw" "2024-01-01T00:00:05.000Z" "2024-01-01T00:00:06.000Z").1 =
      .error (404, "Transaction not found") ∧
    (verifyRoute demoServer1 noFault demoUser "tx_unknown" "2024-01-01 00:00:07").1 =
      .error (404, "Transaction not found") :=
  have hunknown : ∀ r ∈ demoServer1.db.transactions, r.id ≠ "tx_unknown" := by decide
  have h := unknown_id_rejected demoRuntime demoServer1 noFault demoUser "tx_unknown" hunknown
    200 "fix" 1700000005000 "def456uvw" "2024-01-01T00:00:05.000Z" "2024-01-01T00:00:06.000Z"
    "2024-01-01 00:00:07"
  ⟨hunknown, h.2.2.1 (by decide) rfl, h.2.2.2 (Or.inr rfl) rfl⟩

end Verify

end FinancialAudit

namespace FinancialAudit

section Persistence

variable {Amt : Type}

/-- C21, evaluated on the requests record, amend from an empty store and a fresh chain:
both succeed; afterwards the chain wraps the original transaction and the amendment
transaction, while `database.getAllTransactions()` returns the original only, with the
amended amount and description; the amendment transaction is in no record. -/
theorem amendment_not_persisted :
    (recordRoute demoRuntime demoServer0 noFault demoUser 1700000000000 "abc123xyz"
      "2024-01-01T00:00:01.000Z" "2024-01-01T00:00:02.000Z" 100 "A" "B" "test"
      "aud1").1.toOption.isSome = true ∧
    (amendRoute demoRuntime demoServer1 noFault demoUser "tx_1700000000000_abc123xyz" 200 "fix"
      1700000005000 "def456uvw" "2024-01-01T00:00:05.000Z"
      "2024-01-01T00:00:06.000Z").1.toOption.isSome = true ∧
    (getAllTransactions demoServer2.blockchain).map (fun t => (t.id, t.description)) =
      [("tx_1700000000000_abc123xyz", "test"),
        ("tx_1700000005000_def456uvw", "[AMENDMENT] fix (Ref: tx_1700000000000_abc123xyz)")] ∧
    demoServer2.db.getAllTransactions.map (fun t => (t.id, t.amount, t.description)) =
      [("tx_1700000000000_abc123xyz", 200, "fix")] ∧
    demoServer2.db.getTransactionById "tx_1700000005000_def456uvw" = none := by
  decide

/-- C22, counterexample. On the server `demoServer0`, with a fresh chain and an empty
record store, the `INSERT` of `database.insertTransaction` fails: the record request is
answered with an error, the record store is still empty, and the chain holds two blocks,
the second wrapping the transaction that was not persisted. -/
theorem failed_insert_leaves_block :
    (recordRoute demoRuntime demoServer0 insertFault demoUser 1700000000000 "abc123xyz"
      "2024-01-01T00:00:01.000Z" "2024-01-01T00:00:02.000Z" 100 "A" "B" "test"
      "aud1").1.toOption.isSome = false ∧
    demoServer0.blockchain.chain.length = 1 ∧
    (recordRoute demoRuntime demoServer0 insertFault demoUser 1700000000000 "abc123xyz"
      "2024-01-01T00:00:01.000Z" "2024-01-01T00:00:02.000Z" 100 "A" "B" "test"
      "aud1").2.blockchain.chain.map (fun b => (b.index, b.transactions.map (fun t => t.id))) =
      [(0, []), (1, ["tx_1700000000000_abc123xyz"])] ∧
    (recordRoute demoRuntime demoServer0 insertFault demoUser 1700000000000 "abc123xyz"
      "2024-01-01T00:00:01.000Z" "2024-01-01T00:00:02.000Z" 100 "A" "B" "test"
      "aud1").2.db.transactions = [] := by
  decide

/-- C22, amended. For every state of the server with a chain that is not empty and
every validated input: when `database.getLatestBlockIndex` rejects, the record request
fails and chain and record store are as before; when `database.insertTransaction`
rejects, by a failure of the driver or by the constraint on the id, the request fails
with the block that wraps the created transaction pushed onto the chain and the record
store as before; when `database.addAuditEntry` rejects, the request fails with that
block pushed and the transaction persisted. In every case the chain afterwards is the
chain before or the chain before with one block at its end. -/
theorem record_flow_failures (rt : Runtime Amt) (s : Server Amt)
    (fault : DbCall → Option String) (user : User) (nowMs : Nat) (rnd now nowBlock : String)
    (amount : Amt) (fromAddress toAddress description auditor : String)
    (hne : s.blockchain.chain ≠ []) :
    (∀ e, fault .getLatestBlockIndex = some e →
      recordRoute rt s fault user nowMs rnd now nowBlock amount fromAddress toAddress
        description auditor = (.error (500, "Failed to record transaction: " ++ e), s)) ∧
    (∃ latest t, getLatestBlock s.blockchain = some latest ∧
      createTransaction rt s.blockchain nowMs rnd now amount fromAddress toAddress description
        auditor (some (s.db.getLatestBlockIndex + 1)) = some t ∧
      (fault .getLatestBlockIndex = none → ∀ e, fault .insertTransaction = some e →
        recordRoute rt s fault user nowMs rnd now nowBlock amount fromAddress toAddress
          description auditor =
          (.error (500, "Failed to record transaction: " ++ e),
            { blockchain := { chain := s.blockchain.chain ++ [pushedBlock rt latest t nowBlock] },
              db := s.db })) ∧
      (fault .getLatestBlockIndex = none → fault .insertTransaction = none →
        ∀ e, s.db.insertTransaction t (some user.id) = .error e →
        recordRoute rt s fault user nowMs rnd now nowBlock amount fromAddress toAddress
          description auditor =
          (.error (500, "Failed to record transaction: " ++ e),
            { blockchain := { chain := s.blockchain.chain ++ [pushedBlock rt latest t nowBlock] },
              db := s.db })) ∧
      (fault .getLatestBlockIndex = none → fault .insertTransaction = none →
        ∀ db', s.db.insertTransaction t (some user.id) = .ok db' →
        ∀ e, fault .addAuditEntry = some e →
        recordRoute rt s fault user nowMs rnd now nowBlock amount fromAddress toAddress
          description auditor =
          (.error (500, "Failed to record transaction: " ++ e),
            { blockchain := { chain := s.blockchain.chain ++ [pushedBlock rt latest t nowBlock] },
              db := db' }))) ∧
    ((recordRoute rt s fault user nowMs rnd now nowBlock amount fromAddress toAddress
        description auditor).2.blockchain = s.blockchain ∨
      ∃ b, (recordRoute rt s fault user nowMs rnd now nowBlock amount fromAddress toAddress
        description auditor).2.blockchain.chain = s.blockchain.chain ++ [b]) := by
  obtain ⟨latest, hl⟩ := getLatestBlock_isSome_of_ne_nil s.blockchain hne
  obtain ⟨t, ht, _⟩ := createTransaction_of_latest rt hl nowMs rnd now amount fromAddress
    toAddress description auditor (some (s.db.getLatestBlockIndex + 1))
  refine ⟨?_, ⟨latest, t, hl, ht, ?_, ?_, ?_⟩, ?_⟩
  · intro e he
    simp only [recordRoute, he]
  · intro h1 e he
    simp only [recordRoute, h1, ht, addTransactionToBlock_of_latest rt hl, he]
  · intro h1 h2 e he
    simp only [recordRoute, h1, ht, addTransactionToBlock_of_latest rt hl, h2, he]
  · intro h1 h2 db' hdb e he
    simp only [recordRoute, h1, ht, addTransactionToBlock_of_latest rt hl, h2, hdb, he]
  · rcases recordRoute_chain rt s fault user nowMs rnd now nowBlock amount fromAddress
      toAddress description auditor with h | ⟨latest', t', _, h⟩
    · exact Or.inl h
    · exact Or.inr ⟨_, by rw [h]⟩

/-- Witness of the amended C22: the failing `INSERT` on `demoServer0`. -/
theorem record_flow_failures_witness :
    demoServer0.blockchain.chain ≠ [] ∧
    ∃ latest t, getLatestBlock demoServer0.blockchain = some latest ∧
      recordRoute demoRuntime demoServer0 insertFault demoUser 1700000000000 "abc123xyz"
        "2024-01-01T00:00:01.000Z" "2024-01-01T00:00:02.000Z" 100 "A" "B" "test" "aud1" =
        (.error (500, "Failed to record transaction: " ++ "SQLITE_BUSY: database is locked"),
          { blockchain :=
              { chain := demoServer0.blockchain.chain ++
                  [pushedBlock demoRuntime latest t "2024-01-01T00:00:02.000Z"] },
            db := demoServer0.db }) := by
  have h := record_flow_failures demoRuntime demoServer0 insertFault demoUser 1700000000000
    "abc123xyz" "2024-01-01T00:00:01.000Z" "2024-01-01T00:00:02.000Z" 100 "A" "B" "test" "aud1"
    (by decide)
  obtain ⟨latest, t, hl, _, hins, _, _⟩ := h.2.1
  exact ⟨by decide, latest, t, hl, hins rfl _ rfl⟩

end Persistence

section AmendIntegrity

variable {Amt : Type}

/-- C28, counterexample. The transaction recorded with amount 1, from `1`, to `11` and
description `1x` passes the integrity check. The amend to amount 11 and description `x`
succeeds and changes both fields of the record, yet the integrity check of the record
still answers `isValid = true` with `storedHash = calculatedHash`: the concatenation
`1` `1` `11` `1x` of amount, from, to, description equals `11` `1` `11` `x`. -/
theorem amend_of_two_fields_keeps_hash :
    (validateRoute demoRuntime overlapServer1.db "tx_1700000000000_abc123xyz").toOption.map
        (fun r => r.isValid) = some true ∧
    overlapServer1.db.transactions.map (fun r => (r.amount, r.description)) = [(1, "1x")] ∧
    (amendRoute demoRuntime overlapServer1 noFault demoUser "tx_1700000000000_abc123xyz" 11 "x"
      1700000005000 "def456uvw" "2024-01-01T00:00:05.000Z"
      "2024-01-01T00:00:06.000Z").1.toOption.isSome = true ∧
    overlapServer2.db.transactions.map (fun r => (r.amount, r.description)) = [(11, "x")] ∧
    (validateRoute demoRuntime overlapServer2.db "tx_1700000000000_abc123xyz").toOption.map
        (fun r => (r.isValid, decide (r.storedHash = r.calculatedHash))) =
      some (true, true) := by
  decide

/-- C28, amended. Let `t` be the persisted transaction with the given id, passing the
integrity check, and let an amend of it to `amount` and `description` succeed. The
record read back is `t` with only `amount` and `description` replaced, the amount by
the value the column `amount REAL` holds for the `amount` of the request, and the
stored hash as before. If the concatenation of the nine string forms of the record has
changed, as it has when the string form of the persisted amount changed and the
description did not, or the description changed and the string form of the persisted
amount did not, and the digest does not collide on the two concatenations, the validate
route answers `isValid = false`, `storedHash = t.hash` and a `calculatedHash` different
from it. -/
theorem amend_breaks_integrity (rt : Runtime Amt) (s s' : Server Amt)
    (fault : DbCall → Option String) (user : User) (id : String) (amount : Amt)
    (description : String) (nowMs : Nat) (rnd now nowBlock : String)
    (t r : Transaction Amt)
    (hget : s.db.getTransactionById id = some t)
    (hvalid : (checkIntegrity rt t).isValid = true)
    (hroute : amendRoute rt s fault user id amount description nowMs rnd now nowBlock =
      (.ok r, s'))
    (hcol : NoCollision rt.digest
      (validateHashData rt { t with amount := rt.realAffinity amount, description := description })
      (validateHashData rt t)) :
    s'.db.getTransactionById id =
        some { t with amount := rt.realAffinity amount, description := description } ∧
    (validateHashData rt { t with amount := rt.realAffinity amount, description := description } ≠
        validateHashData rt t →
      validateRoute rt s'.db id =
          .ok { success := true, isValid := false, storedHash := t.hash,
                calculatedHash := rt.digest
                  (validateHashData rt { t with amount := rt.realAffinity amount, description := description }) } ∧
        t.hash ≠ rt.digest
          (validateHashData rt { t with amount := rt.realAffinity amount, description := description })) ∧
    (rt.numToString (rt.realAffinity amount) ≠ rt.numToString t.amount ∧ description = t.description →
      validateHashData rt { t with amount := rt.realAffinity amount, description := description } ≠
        validateHashData rt t) ∧
    (rt.numToString (rt.realAffinity amount) = rt.numToString t.amount ∧ description ≠ t.description →
      validateHashData rt { t with amount := rt.realAffinity amount, description := description } ≠
        validateHashData rt t) := by
  obtain ⟨_, _, _, _, _, _, _, hs'⟩ := amendRoute_ok_inv hroute
  have hread : s'.db.getTransactionById id =
      some { t with amount := rt.realAffinity amount, description := description } := by
    rw [hs']
    exact getTransactionById_updateTransaction rt hget amount description
  have hstored : t.hash = rt.digest (validateHashData rt t) := by
    have := hvalid
    simp only [checkIntegrity, decide_eq_true_eq] at this
    exact this.symm
  refine ⟨hread, ?_, ?_, ?_⟩
  · intro hne
    have hinv := checkIntegrity_invalid rt
      { t with amount := rt.realAffinity amount, description := description } hstored hne hcol
    refine ⟨?_, hinv.2⟩
    simp only [validateRoute, hread]
    rw [hinv.1]
  · intro h
    obtain ⟨ha, hd⟩ := h
    subst hd
    exact hashData_ne_of_oneFormChanged
      ⟨[t.id], [t.fromAddress, t.toAddress, t.description, t.auditor, t.timestamp,
        toString t.blockIndex, strOrNull t.previousHash], rt.numToString t.amount,
        rt.numToString (rt.realAffinity amount), rfl, rfl, fun h => ha h.symm⟩
  · intro h
    obtain ⟨ha, hd⟩ := h
    exact hashData_ne_of_oneFormChanged
      ⟨[t.id, rt.numToString t.amount, t.fromAddress, t.toAddress],
        [t.auditor, t.timestamp, toString t.blockIndex, strOrNull t.previousHash],
        t.description, description, rfl, by simp [hashedForms, ha], fun h => hd h.symm⟩

/-- Witness of the amended C28: the amend of `demoTx` to amount 200 and description
`fix`, which leads from `demoServer1` to `demoServer2`. -/
theorem amend_breaks_integrity_witness :
    demoServer1.db.getTransactionById "tx_1700000000000_abc123xyz" = some demoStored ∧
    (checkIntegrity demoRuntime demoStored).isValid = true ∧
    (validateRoute demoRuntime demoServer2.db "tx_1700000000000_abc123xyz").toOption.map
      (fun r => r.isValid) = some false := by
  obtain ⟨r, s', h⟩ := exists_ok_of_isSome
    (amendRoute demoRuntime demoServer1 noFault demoUser "tx_1700000000000_abc123xyz" 200 "fix"
      1700000005000 "def456uvw" "2024-01-01T00:00:05.000Z" "2024-01-01T00:00:06.000Z")
    (by decide)
  have hs' : s' = demoServer2 := (congrArg Prod.snd h).symm
  have hthm := amend_breaks_integrity demoRuntime demoServer1 s' noFault demoUser
    "tx_1700000000000_abc123xyz" 200 "fix" 1700000005000 "def456uvw"
    "2024-01-01T00:00:05.000Z" "2024-01-01T00:00:06.000Z" demoStored r (by decide) (by decide) h
    (demoRuntime_noCollision _ _)
  have hroute := (hthm.2.1 (by decide)).1
  rw [hs'] at hroute
  refine ⟨by decide, by decide, ?_⟩
  rw [hroute]
  rfl

end AmendIntegrity

end FinancialAudit

namespace FinancialAudit

section ValidationClaims

variable {Amt : Type}

theorem jsNumber_in_range {n : JsNumber} (h1 : ¬ (n.isNaN || !n.isFinite) = true)
    (h2 : ¬ n.le 0 = true) (h3 : ¬ n.gt 1000000000 = true) :
    ∃ q : Rat, n = .finite q ∧ 0 < q ∧ q ≤ 1000000000 := by
  cases n with
  | nan => exact absurd rfl h1
  | posInf => exact absurd rfl h1
  | negInf => exact absurd rfl h1
  | finite q =>
    have h2' : ¬ q ≤ 0 := fun hq => h2 (decide_eq_true hq)
    have h3' : ¬ (1000000000 : Rat) < q := fun hq => h3 (decide_eq_true hq)
    exact ⟨q, rfl, not_le.mp h2', not_lt.mp h3'⟩

/-- The middleware either rejects with status 400 or attaches the candidate data, and
then every check has passed. -/
theorem validateTransactionData_cases (rt : Runtime Amt) (numValue : Amt → JsNumber)
    (ops : StringOps) (body : RequestBody Amt) :
    (∃ msg, validateTransactionData rt numValue ops body = .error (400, msg)) ∨
    (validateTransactionData rt numValue ops body = .ok (candidateData rt ops body) ∧
      WithinLimits numValue ops (candidateData rt ops body) ∧
      rt.truthy body.amount = true ∧ body.fromAddress.truthy = true ∧
      body.toAddress.truthy = true ∧ body.description.truthy = true ∧
      body.auditor.truthy = true) := by
  unfold validateTransactionData
  by_cases h0 : (!rt.truthy body.amount || !body.fromAddress.truthy || !body.toAddress.truthy ||
      !body.description.truthy || !body.auditor.truthy) = true
  · rw [if_pos h0]; exact Or.inl ⟨_, rfl⟩
  rw [if_neg h0]
  dsimp only
  by_cases h1 : ((numValue (rt.parseFloat body.amount)).isNaN ||
      !(numValue (rt.parseFloat body.amount)).isFinite) = true
  · rw [if_pos h1]; exact Or.inl ⟨_, rfl⟩
  rw [if_neg h1]
  by_cases h2 : (numValue (rt.parseFloat body.amount)).le 0 = true
  · rw [if_pos h2]; exact Or.inl ⟨_, rfl⟩
  rw [if_neg h2]
  by_cases h3 : (numValue (rt.parseFloat body.amount)).gt 1000000000 = true
  · rw [if_pos h3]; exact Or.inl ⟨_, rfl⟩
  rw [if_neg h3]
  by_cases h4 : utf16Length (ops.trim body.fromAddress.toStr) = 0 ∨
      utf16Length (ops.trim body.toAddress.toStr) = 0
  · rw [if_pos h4]; exact Or.inl ⟨_, rfl⟩
  rw [if_neg h4]
  by_cases h5 : utf16Length (ops.trim body.fromAddress.toStr) > 100 ∨
      utf16Length (ops.trim body.toAddress.toStr) > 100
  · rw [if_pos h5]; exact Or.inl ⟨_, rfl⟩
  rw [if_neg h5]
  by_cases h6 : utf16Length (ops.trim body.description.toStr) = 0
  · rw [if_pos h6]; exact Or.inl ⟨_, rfl⟩
  rw [if_neg h6]
  by_cases h7 : utf16Length (ops.trim body.description.toStr) > 500
  · rw [if_pos h7]; exact Or.inl ⟨_, rfl⟩
  rw [if_neg h7]
  by_cases h8 : utf16Length (ops.trim body.auditor.toStr) = 0
  · rw [if_pos h8]; exact Or.inl ⟨_, rfl⟩
  rw [if_neg h8]
  by_cases h9 : utf16Length (ops.trim body.auditor.toStr) > 50
  · rw [if_pos h9]; exact Or.inl ⟨_, rfl⟩
  rw [if_neg h9]
  by_cases h10 : ops.toLowerCase (ops.trim body.fromAddress.toStr) =
      ops.toLowerCase (ops.trim body.toAddress.toStr)
  · rw [if_pos h10]; exact Or.inl ⟨_, rfl⟩
  rw [if_neg h10]
  right
  have hnum := jsNumber_in_range h1 h2 h3
  have htruthy : rt.truthy body.amount = true ∧ body.fromAddress.truthy = true ∧
      body.toAddress.truthy = true ∧ body.description.truthy = true ∧
      body.auditor.truthy = true := by
    cases ha : rt.truthy body.amount <;> cases hf : body.fromAddress.truthy <;>
      cases ht : body.toAddress.truthy <;> cases hd : body.description.truthy <;>
      cases hau : body.auditor.truthy <;> simp [ha, hf, ht, hd, hau] at h0 ⊢
  refine ⟨rfl, ⟨hnum, ⟨?_, ?_⟩, ⟨?_, ?_⟩, h10, ⟨?_, ?_⟩, ⟨?_, ?_⟩⟩, htruthy⟩ <;>
    simp only [candidateData] <;> omega

end ValidationClaims

end FinancialAudit

namespace FinancialAudit

section ValidationSound

variable {Amt : Type}

/-- A rejected request never reaches the handler: the answer is the one of the
middleware and the server state is the one before the request. -/
theorem postTransactions_of_error {rt : Runtime Amt} {numValue : Amt → JsNumber}
    {ops : StringOps} {body : RequestBody Amt} {e : Nat × String}
    (h : validateTransactionData rt numValue ops body = .error e) (s : Server Amt)
    (fault : DbCall → Option String) (user : User) (nowMs : Nat) (rnd now nowBlock : String) :
    postTransactions rt numValue ops s fault user nowMs rnd now nowBlock body = (.error e, s) := by
  unfold postTransactions
  rw [h]

/-- C24: input validation is sound and precedes hashing. Whenever
validateTransactionData lets a request through, the validatedData it attaches is the
parsed amount and the trimmed texts of the body, the amount is finite with
0 < amount ≤ 1,000,000,000, from and to have length 1..100 and differ when compared
case-insensitively, the description has length 1..500 and the auditor length 1..50.
Whenever one of these conditions fails for the parsed amount and trimmed texts, the
request is rejected with status 400; and a rejected request always has status 400 and
leaves the chain and the record store as they were, the handler (createTransaction,
addTransactionToBlock, the store writes) not being run. -/
theorem validation_sound (rt : Runtime Amt) (numValue : Amt → JsNumber) (ops : StringOps)
    (s : Server Amt) (fault : DbCall → Option String) (user : User) (nowMs : Nat)
    (rnd now nowBlock : String) (body : RequestBody Amt) :
    (∀ v, validateTransactionData rt numValue ops body = .ok v →
      v = candidateData rt ops body ∧ WithinLimits numValue ops v) ∧
    (¬ WithinLimits numValue ops (candidateData rt ops body) →
      ∃ msg, validateTransactionData rt numValue ops body = .error (400, msg)) ∧
    (∀ e, validateTransactionData rt numValue ops body = .error e →
      e.1 = 400 ∧
      postTransactions rt numValue ops s fault user nowMs rnd now nowBlock body =
        (.error e, s)) := by
  refine ⟨?_, ?_, ?_⟩
  · intro v hv
    rcases validateTransactionData_cases rt numValue ops body with ⟨msg, hmsg⟩ | ⟨hok, hlim, _⟩
    · rw [hmsg] at hv; exact absurd hv (by simp)
    · rw [hok] at hv
      have hv' : candidateData rt ops body = v := Except.ok.inj hv
      subst hv'
      exact ⟨rfl, hlim⟩
  · intro hnot
    rcases validateTransactionData_cases rt numValue ops body with hmsg | ⟨_, hlim, _⟩
    · exact hmsg
    · exact absurd hlim hnot
  · intro e he
    refine ⟨?_, postTransactions_of_error he s fault user nowMs rnd now nowBlock⟩
    rcases validateTransactionData_cases rt numValue ops body with ⟨msg, hmsg⟩ | ⟨hok, _, _⟩
    · rw [hmsg] at he
      have he' : (400, msg) = e := Except.error.inj he
      rw [← he']
    · rw [hok] at he; exact absurd he (by simp)

/-- The middleware lets the demo request through, with the body's values attached. -/
theorem validateTransactionData_demo_accepts :
    (validateTransactionData demoRuntime demoNumValue demoStringOps demoBody).toOption.map
        (fun v => (v.amount, v.fromAddress, v.toAddress, v.description, v.auditor)) =
      some (100, "A", "B", "test", "aud1") := by
  decide

/-- The middleware rejects an amount of zero with status 400. -/
theorem validateTransactionData_demo_rejects :
    ((validateTransactionData demoRuntime demoNumValue demoStringOps
      { demoBody with amount := 0 }).toOption.isNone) = true := by
  decide

end ValidationSound

end FinancialAudit

namespace FinancialAudit

section RestartClaims

variable {Amt : Type}

/-- A transaction made by `createTransaction` carries no property of the record
store. -/
theorem createTransaction_extra {rt : Runtime Amt} {bc : Blockchain Amt} {nowMs : Nat}
    {rnd now : String} {amount : Amt} {fromAddress toAddress description auditor : String}
    {blockIndex : Option Int} {t : Transaction Amt}
    (h : createTransaction rt bc nowMs rnd now amount fromAddress toAddress description auditor
      blockIndex = some t) : t.extra = none := by
  unfold createTransaction at h
  cases hl : getLatestBlock bc with
  | none => simp [hl] at h
  | some latest =>
    simp only [hl, Option.some.injEq] at h
    rw [← h]

/-- Reading back the row written for a transaction that has no store property and a
non-empty `previousHash` gives the fields of that transaction. -/
theorem withoutExtra_insertedRow (users : List UserRow) (t : Transaction Amt)
    (userId : Option Nat) (hextra : t.extra = none) {p : String}
    (hprev : t.previousHash = some p) (hp : p ≠ "") :
    withoutExtra (rowToListedTransaction users (insertedRow t userId)) = t := by
  cases t with
  | mk id amount fromAddress toAddress description auditor timestamp blockIndex hash
      previousHash extra =>
    simp only at hextra hprev
    subst hextra
    subst hprev
    simp [withoutExtra, rowToListedTransaction, insertedRow, strOrElseNull, hp]

/-- After successful records only, the rows of the record store, read back in table
order, are the transactions of the live chain. -/
theorem RecordOnly.store_matches_chain {rt : Runtime Amt} (hdigest : ∀ x, rt.digest x ≠ "")
    {s : Server Amt} (h : RecordOnly rt s) :
    s.db.transactions.map (fun r => withoutExtra (rowToListedTransaction s.db.users r)) =
      getAllTransactions s.blockchain := by
  induction h with
  | start now0 users =>
    simp [getAllTransactions_eq_flatten, Blockchain.new, createGenesisBlock]
  | record fault user nowMs rnd now nowBlock amount fromAddress toAddress description auditor
      hs hroute ih =>
    rename_i s0 s1 t
    obtain ⟨latest, hl, ht, _, hs1⟩ := recordRoute_ok_inv hroute
    obtain ⟨b, x, hb, hbx⟩ := hs.inv.1.latest_hash_digest
    have hlb : latest = b := Option.some.inj (hl.symm.trans hb)
    obtain ⟨t', ht', hprev, _⟩ := createTransaction_of_latest rt hl nowMs rnd now amount
      fromAddress toAddress description auditor (some (s0.db.getLatestBlockIndex + 1))
    have htt : t' = t := Option.some.inj (ht'.symm.trans ht)
    subst htt
    have hne : latest.hash ≠ "" := by
      rw [hlb, hbx]
      exact hdigest x
    have hrow := withoutExtra_insertedRow s0.db.users t' (some user.id)
      (createTransaction_extra ht) hprev hne
    subst hs1
    simp only [List.map_append, List.map_cons, List.map_nil, getAllTransactions_push,
      pushedBlock, ih, hrow]

theorem rowBefore_of_lt {a b : Row Amt} (h : a.block_index < b.block_index) :
    rowBefore a b = true := by
  simp [rowBefore, h]

/-- After successful records only, the rows are in ascending `block_index`. -/
theorem RecordOnly.rows_increasing {rt : Runtime Amt} {s : Server Amt} (h : RecordOnly rt s) :
    s.db.transactions.Pairwise (fun a b => a.block_index < b.block_index) := by
  have hmap := h.inv.2.1
  have hp : ((List.range (s.blockchain.chain.length - 1)).map
      (fun i : Nat => (i : Int) + 1)).Pairwise (fun a b => a < b) := by
    rw [List.pairwise_map]
    exact List.Pairwise.imp (fun hab => by omega) (List.pairwise_lt_range _)
  rw [← hmap, List.pairwise_map] at hp
  exact hp

/-- After successful records only, `database.getAllTransactions()` returns the rows in
table order, and the sort of `initializeBlockchain` leaves that order. -/
theorem RecordOnly.sorted_read {rt : Runtime Amt} {s : Server Amt} (h : RecordOnly rt s) :
    sortByBlockIndex s.db.getAllTransactions =
      s.db.transactions.map (rowToListedTransaction s.db.users) := by
  have hinc := h.rows_increasing
  have h1 : s.db.transactions.insertionSort (fun a b => rowBefore a b = true) =
      s.db.transactions :=
    List.Sorted.insertionSort_eq (List.Pairwise.imp (fun hab => rowBefore_of_lt hab) hinc)
  have h2 : (s.db.transactions.map (rowToListedTransaction s.db.users)).Pairwise
      (fun a b => blockIndexLE a b = true) := by
    rw [List.pairwise_map]
    exact List.Pairwise.imp
      (fun hab => by simp only [blockIndexLE, rowToListedTransaction, decide_eq_true_eq]; omega)
      hinc
  unfold sortByBlockIndex Database.getAllTransactions
  rw [h1]
  exact List.Sorted.insertionSort_eq h2

/-- The transactions of the chain `initializeBlockchain` builds on a fresh instance
are the sorted transactions of the record store. -/
theorem getAllTransactions_initializeBlockchain (rt : Runtime Amt) (now0 : String)
    (db : Database Amt) (clock : Nat → String) :
    getAllTransactions (initializeBlockchain rt (Blockchain.new rt now0) db noFault clock) =
      sortByBlockIndex db.getAllTransactions ∧
    (initializeBlockchain rt (Blockchain.new rt now0) db noFault clock).chain.length =
      db.transactions.length + 1 := by
  obtain ⟨blocks, h1, h2⟩ := initializeBlockchain_spec rt (Blockchain.new rt now0)
    (by simp [Blockchain.new]) db clock
  have hchain : (initializeBlockchain rt (Blockchain.new rt now0) db noFault clock).chain =
      createGenesisBlock rt now0 :: blocks := by
    rw [h1]; rfl
  constructor
  · rw [getAllTransactions_eq_flatten, hchain, List.map_cons, List.flatten_cons, h2,
      flatten_map_singleton]
    rfl
  · have hlen := congrArg List.length h2
    simp only [List.length_map, sortByBlockIndex_length, getAllTransactions_db_length] at hlen
    rw [hchain, List.length_cons, hlen]

/-- C30, counterexample. From the empty record store and the genesis-only chain of
`demoServer0`, the record requests `requestA` and `requestC` both succeed, the second
received while the first is being handled: both handlers read the maximum 0, and the
persisted `block_index` values are 1, 1 in creation order, not 1, 2. -/
theorem overlapping_records_repeat_block_index :
    demoServer0.db.transactions = [] ∧
    demoServer0.blockchain.chain.map (fun b => b.index) = [0] ∧
    (overlappingRecords demoRuntime demoServer0 noFault requestA requestC).isSome = true ∧
    (overlappingRecords demoRuntime demoServer0 noFault requestA requestC).map
      (fun r => r.2.db.transactions.map (fun row => (row.id, row.timestamp, row.block_index))) =
      some [("tx_1700000000000_abc123xyz", "2024-01-01T00:00:01.000Z", 1),
        ("tx_1700000000003_ghi789rst", "2024-01-01T00:00:02.003Z", 1)] := by
  decide

/-- C30, amended: restart preserves a record-only history. In every state reached from
an empty record store and a genesis-only chain by successful record flows handled one
after another, each answered before the next is received, with no amend,
the digest never returning the empty string (a SHA-256 hex digest has 64 characters):
the persisted `block_index` values are 1, 2, ..., K in creation order, where K is the
number of persisted transactions; and the chain that `initializeBlockchain` rebuilds
from the record store on a fresh instance has the length of the live chain and wraps
the same transactions in the same order as the live chain's `getAllTransactions()`:
equal id, amount, from, to, description, auditor, timestamp, blockIndex, hash and
previousHash, the objects read from the store carrying in addition the store's
creator, status and verification properties. -/
theorem restart_preserves_record_only_history (rt : Runtime Amt)
    (hdigest : ∀ x, rt.digest x ≠ "") (s : Server Amt) (hs : RecordOnly rt s)
    (now0 : String) (clock : Nat → String) :
    s.db.transactions.map (fun r => r.block_index) =
      (List.range s.db.transactions.length).map (fun i : Nat => (i : Int) + 1) ∧
    (initializeBlockchain rt (Blockchain.new rt now0) s.db noFault clock).chain.length =
      s.blockchain.chain.length ∧
    (getAllTransactions
      (initializeBlockchain rt (Blockchain.new rt now0) s.db noFault clock)).map withoutExtra =
      getAllTransactions s.blockchain := by
  obtain ⟨hreach, hrange, _⟩ := hs.inv
  have hlen : s.db.transactions.length = s.blockchain.chain.length - 1 := by
    have h := congrArg List.length hrange
    simpa using h
  have hpos : 0 < s.blockchain.chain.length := List.length_pos.mpr hreach.ne_nil
  obtain ⟨hall, hchainlen⟩ := getAllTransactions_initializeBlockchain rt now0 s.db clock
  refine ⟨by rw [hlen]; exact hrange, by rw [hchainlen]; omega, ?_⟩
  rw [hall, hs.sorted_read, List.map_map]
  exact hs.store_matches_chain hdigest

/-- Witness of the amended C30: the state `demoRecords2`, after the record requests
`requestA` and `requestB` handled one after the other on the empty store; the persisted
`block_index` values are 1, 2. -/
theorem restart_preserves_record_only_history_witness :
    (∀ x, demoRuntime.digest x ≠ "") ∧ RecordOnly demoRuntime demoRecords2 ∧
    demoRecords2.db.transactions.map (fun r => r.block_index) = [1, 2] ∧
    (initializeBlockchain demoRuntime (Blockchain.new demoRuntime "2024-02-01T00:00:00.000Z")
      demoRecords2.db noFault (fun _ => "2024-02-01T00:00:01.000Z")).chain.length =
      demoRecords2.blockchain.chain.length ∧
    (getAllTransactions
      (initializeBlockchain demoRuntime (Blockchain.new demoRuntime "2024-02-01T00:00:00.000Z")
        demoRecords2.db noFault (fun _ => "2024-02-01T00:00:01.000Z"))).map withoutExtra =
      getAllTransactions demoRecords2.blockchain := by
  obtain ⟨t1, s1, h1⟩ := exists_ok_of_isSome
    (recordRoute demoRuntime demoServer0 noFault demoUser 1700000000000 "abc123xyz"
      "2024-01-01T00:00:01.000Z" "2024-01-01T00:00:02.000Z" 100 "A" "B" "test" "aud1")
    (by decide)
  have hs1 : s1 = demoServer1 := (congrArg Prod.snd h1).symm
  obtain ⟨t2, s2, h2⟩ := exists_ok_of_isSome
    (recordRoute demoRuntime demoServer1 noFault demoUser 1700000009000 "ghi789rst"
      "2024-01-01T00:00:09.000Z" "2024-01-01T00:00:10.000Z" 50 "C" "D" "second" "aud1")
    (by decide)
  have hs2 : s2 = demoRecords2 := (congrArg Prod.snd h2).symm
  have hreach1 : RecordOnly demoRuntime demoServer1 := by
    rw [← hs1]
    exact RecordOnly.record noFault demoUser 1700000000000 "abc123xyz"
      "2024-01-01T00:00:01.000Z" "2024-01-01T00:00:02.000Z" 100 "A" "B" "test" "aud1"
      (RecordOnly.start "2024-01-01T00:00:00.000Z" [{ id := 1, name := "Administrator" }]) h1
  have hreach : RecordOnly demoRuntime demoRecords2 := by
    rw [← hs2]
    exact RecordOnly.record noFault demoUser 1700000009000 "ghi789rst"
      "2024-01-01T00:00:09.000Z" "2024-01-01T00:00:10.000Z" 50 "C" "D" "second" "aud1"
      hreach1 h2
  have h := restart_preserves_record_only_history demoRuntime demoRuntime_digest_ne_empty
    demoRecords2 hreach "2024-02-01T00:00:00.000Z" (fun _ => "2024-02-01T00:00:01.000Z")
  exact ⟨demoRuntime_digest_ne_empty, hreach, by decide, h.2.1, h.2.2⟩

end RestartClaims

end FinancialAudit
